import Mathlib

/-!
# Verification of the webgpu-sort sort-plan engine

Shallow embedding of the sort-plan engine of `src/sort.ts` (and the helper
`src/webgpu/util/math.ts`, plus `computeNumberOfDispatches` from the historical
variant of the engine):

* JavaScript numeric primitives (`Math.clz32`, `ToUint32`, shift masking) over
  `ℕ`/`ℤ`;
* the resource planner (workgroup size / count) over `ℚ`, since JavaScript
  division is exact real division on these magnitudes;
* the bitonic pass scheduler (the `bitonicPass` loop of
  `initKeyValueInPlaceSort`), with explicit fuel because the JavaScript loop
  does not terminate when the workgroup size is `0`;
* the generated WGSL sort kernel's compare-and-swap structure
  (`global_compare_and_swap`, `local_compare_and_swap`, `big_flip`,
  `big_disperse`, `local_flip`, `local_disperse`, `local_bms`), with each
  dispatch modelled as sequential array updates over a state `ℕ → α`
  (workgroup-memory staging is transparent: `local_k[i]` holds `k[offset+i]`);
* construction-time validation (`reifyWGSLDistanceFunction`, the
  comparison/distance exclusive-or assertion) and the `destroy()` resource
  release paths.

WGSL `u32` arithmetic is modelled by `ℕ`: all quantities involved stay far
below `2^32` in every statement proved here, and division/modulus by zero is
never reached in the regimes considered.
-/

/-! ## JavaScript numeric primitives -/

/-- Number of binary digits of `n`, with structural fuel so that the kernel can
evaluate it.  `jsBitsAux f n` is the bit length of `n` whenever `n < 2 ^ f`. -/

def jsBitsAux : ℕ → ℕ → ℕ
  | 0, _ => 0
  | f + 1, n => if n = 0 then 0 else jsBitsAux f (n / 2) + 1

/-- JavaScript `ToUint32` on an integer. -/
def toUint32 (x : ℤ) : ℕ := (x % (2 ^ 32 : ℤ)).toNat

/-- JavaScript `Math.clz32` on an already-converted `uint32` value:
count of leading zeros in the 32-bit representation. -/
def clz32 (x : ℕ) : ℕ := 32 - jsBitsAux 32 (x % 2 ^ 32)

/-- `nextPowerOfTwo` from `src/webgpu/util/math.ts`:
`1 << (32 - Math.clz32(value - 1))`; the JavaScript shift count is masked
modulo 32, and `value - 1` goes through `ToUint32` inside `Math.clz32`. -/
def nextPowerOfTwo (value : ℕ) : ℕ :=
  1 <<< ((32 - clz32 (toUint32 ((value : ℤ) - 1))) % 32)

/-! ## Resource planner (`initKeyValueInPlaceSort`, sizing part)

JavaScript `/` is exact real division at these magnitudes, so the planner is
modelled over `ℚ`. -/

/-- The two device limits consumed by the planner. -/
structure DeviceLimits where
  maxComputeWorkgroupSizeX : ℕ
  maxComputeWorkgroupStorageSize : ℕ
deriving DecidableEq, Repr

/-- `workGroupSize` computed by `initKeyValueInPlaceSort`:
`Math.min(maxComputeWorkgroupSizeX, maxComputeWorkgroupStorageSize / 2 /
nextPowerOfTwo(keySize + valueSize), alignedN / 2)`.
`kvBytes` is `keyType.size + (valueType?.size ?? 0)`. -/
def plannerWorkGroupSize (dev : DeviceLimits) (kvBytes n : ℕ) : ℚ :=
  let maxWorkGroupSizeForMemory : ℚ :=
    (dev.maxComputeWorkgroupStorageSize : ℚ) / 2 / (nextPowerOfTwo kvBytes : ℚ)
  min (min (dev.maxComputeWorkgroupSizeX : ℚ) maxWorkGroupSizeForMemory)
    ((nextPowerOfTwo n : ℚ) / 2)

/-- `workGroupCount = alignedN / (workGroupSize * 2)`. -/
def plannerWorkGroupCount (dev : DeviceLimits) (kvBytes n : ℕ) : ℚ :=
  (nextPowerOfTwo n : ℚ) / (plannerWorkGroupSize dev kvBytes n * 2)

/-! ## Bitonic pass scheduler (`initKeyValueInPlaceSort`, `bitonicPass` loop) -/

/-- The four kernel phases, with the numeric values used in the shader switch. -/
inductive BitonicPassAlgorithm
  | LocalBms
  | LocalDisperse
  | BigFlip
  | BigDisperse
deriving DecidableEq, Repr

/-- One scheduled pass: the `(h, algorithm)` pair recorded in a parameter
buffer by `bitonicPass`.  `h` is kept as the scheduler's JavaScript number. -/
structure BitonicPass where
  h : ℚ
  algorithm : BitonicPassAlgorithm
deriving DecidableEq, Repr

/-- Inner scheduler loop `for (var hh = h / 2; hh > 1; hh /= 2)`, emitting a
`LocalDisperse` pass when `hh <= workGroupCount` and a `BigDisperse` pass
otherwise.  Fueled (`none` = fuel exhausted; the JavaScript loop itself always
terminates here because `hh` strictly halves). -/
def disperseLoop : ℕ → ℚ → ℚ → Option (List BitonicPass)
  | 0, _, _ => none
  | fuel + 1, workGroupCount, hh =>
    if 1 < hh then
      (disperseLoop fuel workGroupCount (hh / 2)).map fun rest =>
        (if hh ≤ workGroupCount then BitonicPass.mk hh .LocalDisperse
         else BitonicPass.mk hh .BigDisperse) :: rest
    else some []

/-- Outer scheduler loop `for (; h <= alignedN; h *= 2)`: a `BigFlip` pass
followed by the disperse passes.  Fueled: with `workGroupSize = 0` the
JavaScript loop runs forever (`h` stays `0`), and the model returns `none`. -/
def outerLoop : ℕ → ℚ → ℚ → ℚ → Option (List BitonicPass)
  | 0, _, _, _ => none
  | fuel + 1, alignedN, workGroupCount, h =>
    if h ≤ alignedN then
      match disperseLoop (fuel + 1) workGroupCount (h / 2),
          outerLoop fuel alignedN workGroupCount (h * 2) with
      | some ds, some rest => some ((BitonicPass.mk h .BigFlip :: ds) ++ rest)
      | _, _ => none
    else some []

/-- Fuel that dominates both scheduler loops in every regime considered. -/
def sortPassFuel (dev : DeviceLimits) (kvBytes n : ℕ) : ℕ :=
  nextPowerOfTwo n + (plannerWorkGroupSize dev kvBytes n).den + 64

/-- The pass plan recorded by `initKeyValueInPlaceSort`, in `bitonicPass` call
order: one `LocalBms` pass with `h = workGroupSize * 2`, then the outer loop
from `h = workGroupSize * 4`. -/
def sortPassPlan? (dev : DeviceLimits) (kvBytes n : ℕ) : Option (List BitonicPass) :=
  let wgs := plannerWorkGroupSize dev kvBytes n
  (outerLoop (sortPassFuel dev kvBytes n) (nextPowerOfTwo n)
      (plannerWorkGroupCount dev kvBytes n) (wgs * 2 * 2)).map
    fun rest => BitonicPass.mk (wgs * 2) .LocalBms :: rest

/-! ## `computeNumberOfDispatches` (historical engine variant) -/

/-- `computeNumberOfDispatches(n, wgs)` with `log2(x) = 31 - Math.clz32(x)`;
JavaScript real arithmetic, hence `ℚ`. -/
def computeNumberOfDispatches (n wgs : ℕ) : ℚ :=
  let log2 : ℕ → ℚ := fun x => (31 : ℚ) - (clz32 x : ℚ)
  let outerLoops : ℚ := log2 n - log2 wgs - 1
  let innerLoops : ℚ := outerLoops / 2 * (2 * (log2 wgs + 1) + outerLoops - 1)
  1 + outerLoops + innerLoops

/-! ## Construction-time validation (`reifyWGSLDistanceFunction`, type checks) -/

/-- An auxiliary bind-group entry of a WGSL distance function: the
binding-group index plus the opaque layout/group payload. -/
structure AuxBindGroup (β : Type) where
  index : ℤ
  payload : β
deriving DecidableEq, Repr

/-- The construction-time `assert` failures of `sort.ts`. -/
inductive SortConfigError
  | nonConsecutiveBindGroups
  | compDistExactlyOne
deriving DecidableEq, Repr

/-- `reifyWGSLDistanceFunction`: default the missing bind-group list to `[]`,
sort it ascending by `index` (JavaScript `Array.prototype.sort` with the
numeric comparator is a stable ascending sort, modelled by `insertionSort`),
then assert `bindGroups[i].index === i + 1` for every position. -/
def reifyBindGroups {β : Type} (bindGroups : Option (List (AuxBindGroup β))) :
    Except SortConfigError (List (AuxBindGroup β)) :=
  let gs := (bindGroups.getD []).insertionSort (fun a b => a.index ≤ b.index)
  if ∀ i, (h : i < gs.length) → (gs.get ⟨i, h⟩).index = i + 1 then .ok gs
  else .error .nonConsecutiveBindGroups

/-- The element-type descriptor shape checked at sorter construction:
whether a `comp` member is present, and whether a `dist` member is present
(carrying the distance function's optional bind-group list). -/
structure ElementTypeDescriptor (β : Type) where
  comp : Bool
  dist : Option (Option (List (AuxBindGroup β)))

/-- The construction-time validation sequence shared by `createInPlaceSorter`
and `createIndexSorter`: reifying a present `dist` member validates its bind
groups, and then `assert(!!compType !== !!distType)` enforces that exactly one
of `comp`/`dist` is present.  No further assertion exists on the construction
path (in particular none about the computed workgroup size). -/
def validateSorterConfig {β : Type} (ty : ElementTypeDescriptor β) :
    Except SortConfigError Unit :=
  match ty.dist with
  | some bgs =>
    match reifyBindGroups bgs with
    | .error e => .error e
    | .ok _ => if ty.comp = true then .error .compDistExactlyOne else .ok ()
  | none => if ty.comp = true then .ok () else .error .compDistExactlyOne

/-- Sorter construction as observable by the caller: the validation asserts,
then the plan recorded by `initKeyValueInPlaceSort`. -/
def createSorterModel {β : Type} (ty : ElementTypeDescriptor β) (dev : DeviceLimits)
    (kvBytes n : ℕ) : Except SortConfigError (Option (List BitonicPass)) :=
  match validateSorterConfig ty with
  | .error e => .error e
  | .ok _ => .ok (sortPassPlan? dev kvBytes n)

/-! ## `destroy()` resource release -/

/-- The buffers a sorter session can touch. -/
inductive SorterBuffer
  | dataBuffer
  | callerIndices
  | internalIndices
  | distancesBuffer
  | paramBuffer (i : ℕ)
deriving DecidableEq, Repr

/-- Buffers destroyed by `InPlaceSorter.destroy`: every pass parameter buffer,
plus the internal distances buffer in distance mode. -/
def inPlaceSorterDestroy (hasDist : Bool) (passCount : ℕ) : List SorterBuffer :=
  ((List.range passCount).map .paramBuffer) ++
    (if hasDist then [.distancesBuffer] else [])

/-- Buffers destroyed by `IndexSorter.destroy`: every pass parameter buffer,
the internal distances buffer in distance mode, and the indices buffer exactly
when the session created it (`if (!!!config.indices) indices.destroy()`). -/
def indexSorterDestroy (hasDist callerSuppliedIndices : Bool) (passCount : ℕ) :
    List SorterBuffer :=
  ((List.range passCount).map .paramBuffer) ++
    (if hasDist then [.distancesBuffer] else []) ++
    (if callerSuppliedIndices then [] else [.internalIndices])

/-! ## Generated sort kernel: compare-and-swap execution model

`createSortKeyValueInPlaceShader` generates one kernel handling all four pass
phases.  A dispatch is modelled as sequential array updates on the key state
`a : ℕ → α` (the optional value/payload array is permuted identically to the
key array, so it is not modelled separately); `cmp` is the generated
`_compare` function.  Workgroup-memory staging (`local_init`/`local_flush`)
is transparent: `local_k[i]` holds `k[offset + i]`, and the guarded loads,
stores and local compare-and-swaps combine into guarded global
compare-and-swaps at `offset + i`.  Within one workgroup the barrier-separated
sub-stages execute in program order; workgroups of one dispatch are
sequentialized in workgroup-id order. -/

/-- `global_compare_and_swap(idx)`: return if either index is `>= n`, swap
exactly when `_compare(k[idx.y], k[idx.x])`. -/
def gcas {α : Type} (cmp : α → α → Bool) (n x y : ℕ) (a : ℕ → α) : ℕ → α :=
  if n ≤ x ∨ n ≤ y then a
  else if cmp (a y) (a x) then
    fun i => if i = x then a y else if i = y then a x else a i
  else a

/-- `local_compare_and_swap(idx, offset)`, acting on `local_k[i] = k[offset+i]`:
return if either `offset + idx` is `>= n`, swap on `_compare`. -/
def lcas {α : Type} (cmp : α → α → Bool) (n x y offset : ℕ) (a : ℕ → α) : ℕ → α :=
  if n ≤ offset + x ∨ n ≤ offset + y then a
  else if cmp (a (offset + y)) (a (offset + x)) then
    fun i =>
      if i = offset + x then a (offset + y)
      else if i = offset + y then a (offset + x)
      else a i
  else a

/-- `big_flip(t_prime, h)`: `q = ((2*t') / h) * h`, pair
`(q + t' % (h/2), q + h - t' % (h/2) - 1)`. -/
def big_flip {α : Type} (cmp : α → α → Bool) (n h tp : ℕ) (a : ℕ → α) : ℕ → α :=
  gcas cmp n (2 * tp / h * h + tp % (h / 2)) (2 * tp / h * h + h - tp % (h / 2) - 1) a

/-- `big_disperse(t_prime, h)`: `q = ((2*t') / h) * h`, pair
`(q + t' % (h/2), q + t' % (h/2) + h/2)`. -/
def big_disperse {α : Type} (cmp : α → α → Bool) (n h tp : ℕ) (a : ℕ → α) : ℕ → α :=
  gcas cmp n (2 * tp / h * h + tp % (h / 2)) (2 * tp / h * h + tp % (h / 2) + h / 2) a

/-- One barrier-separated `local_flip(t, h, offset)` sub-stage of thread `t`:
local pair `(h*((2t)/h) + t % (h/2), h*((2t)/h) + (h - 1 - t % (h/2)))`. -/
def local_flip {α : Type} (cmp : α → α → Bool) (n h t offset : ℕ) (a : ℕ → α) : ℕ → α :=
  lcas cmp n (h * (2 * t / h) + t % (h / 2)) (h * (2 * t / h) + (h - 1 - t % (h / 2)))
    offset a

/-- One iteration (merge distance `hh`) of the `local_disperse` loop for thread
`t`: local pair `(hh*((2t)/hh) + t % (hh/2), hh*((2t)/hh) + (hh/2 + t % (hh/2)))`. -/
def local_disperse_step {α : Type} (cmp : α → α → Bool) (n hh t offset : ℕ)
    (a : ℕ → α) : ℕ → α :=
  lcas cmp n (hh * (2 * t / hh) + t % (hh / 2)) (hh * (2 * t / hh) + (hh / 2 + t % (hh / 2)))
    offset a

/-- The decreasing distances `d, d/2, …, 2` of the `local_disperse` loop
(`for (; hh > 1; hh /= 2)`); structural fuel `d + 1` always suffices. -/
def stageListAux : ℕ → ℕ → List ℕ
  | 0, _ => []
  | fuel + 1, d => if 1 < d then d :: stageListAux fuel (d / 2) else []

def stageList (d : ℕ) : List ℕ := stageListAux (d + 1) d

/-- The increasing levels `2, 4, …, ≤ h` of the `local_bms` loop
(`for (var hh = 2; hh <= h; hh *= 2)`); structural fuel `h + 1` suffices. -/
def levelListAux : ℕ → ℕ → ℕ → List ℕ
  | 0, _, _ => []
  | fuel + 1, hh, h => if hh ≤ h then hh :: levelListAux fuel (hh * 2) h else []

def levelList (h : ℕ) : List ℕ := levelListAux (h + 1) 2 h

/-- All `wgs` threads of one workgroup performing one `local_flip` sub-stage. -/
def localFlipStage {α : Type} (cmp : α → α → Bool) (n wgs h offset : ℕ)
    (a : ℕ → α) : ℕ → α :=
  (List.range wgs).foldl (fun b t => local_flip cmp n h t offset b) a

/-- All `wgs` threads of one workgroup performing one `local_disperse`
sub-stage at distance `d`. -/
def localDisperseStage {α : Type} (cmp : α → α → Bool) (n wgs d offset : ℕ)
    (a : ℕ → α) : ℕ → α :=
  (List.range wgs).foldl (fun b t => local_disperse_step cmp n d t offset b) a

/-- `local_disperse(t, h, offset)` for a whole workgroup: the barrier-separated
sub-stages `h, h/2, …, 2`. -/
def localDisperseBlock {α : Type} (cmp : α → α → Bool) (n wgs h offset : ℕ)
    (a : ℕ → α) : ℕ → α :=
  (stageList h).foldl (fun b d => localDisperseStage cmp n wgs d offset b) a

/-- `local_bms(t, h, offset)` for a whole workgroup: levels `hh = 2, 4, …, h`,
each a `local_flip(hh)` sub-stage followed by `local_disperse(hh/2)`. -/
def localBmsBlock {α : Type} (cmp : α → α → Bool) (n wgs h offset : ℕ)
    (a : ℕ → α) : ℕ → α :=
  (levelList h).foldl
    (fun b hh => localDisperseBlock cmp n wgs (hh / 2) offset
      (localFlipStage cmp n wgs hh offset b)) a

/-- One dispatch of the sort kernel with parameters `(h, algorithm)`, `wgc`
workgroups of `wgs` threads; workgroup `wg` has `offset = wgs * 2 * wg`, and
the big passes run one thread per `t_prime < wgs * wgc`. -/
def execPass {α : Type} (cmp : α → α → Bool) (n wgs wgc : ℕ) (a : ℕ → α)
    (h : ℕ) (alg : BitonicPassAlgorithm) : ℕ → α :=
  match alg with
  | .LocalBms =>
    (List.range wgc).foldl (fun b wg => localBmsBlock cmp n wgs h (wgs * 2 * wg) b) a
  | .LocalDisperse =>
    (List.range wgc).foldl (fun b wg => localDisperseBlock cmp n wgs h (wgs * 2 * wg) b) a
  | .BigFlip =>
    (List.range (wgs * wgc)).foldl (fun b tp => big_flip cmp n h tp b) a
  | .BigDisperse =>
    (List.range (wgs * wgc)).foldl (fun b tp => big_disperse cmp n h tp b) a

/-- Sort mode. -/
inductive SortMode
  | ascending
  | descending
deriving DecidableEq, Repr

/-- The generated `_compare`: the comparison entry point as-is in ascending
mode, negated in descending mode. -/
def compareFn {α : Type} (mode : SortMode) (lt : α → α → Bool) : α → α → Bool :=
  fun l r => match mode with
  | .ascending => lt l r
  | .descending => !(lt l r)

/-- The `h` kernel parameter as written into the `Uint32Array` parameter
buffer (truncation toward zero, then 32-bit wrap; every scheduled `h` is
nonnegative, so truncation is `⌊·⌋`). -/
def passParamH (p : BitonicPass) : ℕ := toUint32 ⌊p.h⌋

/-- Executing a whole scheduled plan in order (the `encode` dispatch loop). -/
def execPlan {α : Type} (cmp : α → α → Bool) (n wgs wgc : ℕ)
    (plan : List BitonicPass) (a : ℕ → α) : ℕ → α :=
  plan.foldl (fun b p => execPass cmp n wgs wgc b (passParamH p) p.algorithm) a

/-- The `createSetIndicesShader` kernel: `indices[i] = i` for every `i < n`. -/
def setIndicesApply (n : ℕ) (a : ℕ → ℕ) : ℕ → ℕ :=
  fun i => if i < n then i else a i

/-! ## Plan characterization in the power-of-two regime

On every real device the planner yields an integral power-of-two workgroup
size; under that hypothesis the fueled scheduler is characterized by plain
structural recursion over exponents. -/

/-- The disperse passes the spec describes for `hh = 2^j, 2^(j-1), …, 2`:
`LocalDisperse` when `hh ≤ workgroupCount = 2^c`, else `BigDisperse`. -/
def dispersePassesSpec (c : ℕ) : ℕ → List BitonicPass
  | 0 => []
  | j + 1 =>
    (if j + 1 ≤ c then BitonicPass.mk ((2 ^ (j + 1) : ℕ) : ℚ) .LocalDisperse
     else BitonicPass.mk ((2 ^ (j + 1) : ℕ) : ℚ) .BigDisperse) ::
      dispersePassesSpec c j

/-- The outer passes the spec describes, for `h = 2^j` and `m` further
doublings: a `BigFlip` at `h`, the disperse passes at `h/2 … 2`, and so on. -/
def outerPassesSpec (c : ℕ) : ℕ → ℕ → List BitonicPass
  | _, 0 => []
  | j, m + 1 =>
    (BitonicPass.mk ((2 ^ j : ℕ) : ℚ) .BigFlip :: dispersePassesSpec c (j - 1)) ++
      outerPassesSpec c (j + 1) m

/-- The full plan the spec describes for `workgroupSize = 2^w`,
`paddedN = 2^K`, `workgroupCount = 2^c` (with `c = K - w - 1`): one `LocalBMS`
pass at `h = 2^(w+1)`, then the outer passes for `h = 2^(w+2), …, 2^K`. -/
def sortPlanSpec (w K c : ℕ) : List BitonicPass :=
  BitonicPass.mk ((2 ^ (w + 1) : ℕ) : ℚ) .LocalBms :: outerPassesSpec c (w + 2) (K - w - 1)

/-- ℕ-level disperse passes (the parameter-buffer values). -/
def dispersePassesSpecN (c : ℕ) : ℕ → List (ℕ × BitonicPassAlgorithm)
  | 0 => []
  | j + 1 =>
    (if j + 1 ≤ c then ((2 ^ (j + 1) : ℕ), BitonicPassAlgorithm.LocalDisperse)
     else ((2 ^ (j + 1) : ℕ), BitonicPassAlgorithm.BigDisperse)) ::
      dispersePassesSpecN c j

/-- ℕ-level outer passes. -/
def outerPassesSpecN (c : ℕ) : ℕ → ℕ → List (ℕ × BitonicPassAlgorithm)
  | _, 0 => []
  | j, m + 1 =>
    (((2 ^ j : ℕ), BitonicPassAlgorithm.BigFlip) :: dispersePassesSpecN c (j - 1)) ++
      outerPassesSpecN c (j + 1) m

/-- ℕ-level full plan. -/
def sortPlanSpecN (w K c : ℕ) : List (ℕ × BitonicPassAlgorithm) :=
  ((2 ^ (w + 1) : ℕ), BitonicPassAlgorithm.LocalBms) :: outerPassesSpecN c (w + 2) (K - w - 1)

/-- Executing an ℕ-level plan (parameter values already converted). -/
def execPlanN {α : Type} (cmp : α → α → Bool) (n wgs wgc : ℕ)
    (plan : List (ℕ × BitonicPassAlgorithm)) (a : ℕ → α) : ℕ → α :=
  plan.foldl (fun b p => execPass cmp n wgs wgc b p.1 p.2) a

/-- `encode`: the dispatch loop records one dispatch per pass, in recorded
order, all with the same pipeline workgroup count. -/
def encodeDispatches (plan : List BitonicPass) (workGroupCount : ℚ) :
    List (BitonicPass × ℚ) :=
  plan.map fun p => (p, workGroupCount)

/-- The consecutive binding indices `1, 2, …, len` demanded by the assert. -/
def consecutiveFrom1 (len : ℕ) : List ℤ :=
  (List.range len).map fun (i : ℕ) => (i : ℤ) + 1

/-! ## Pair-list view of dispatch execution

Every dispatch is a sequence of guarded compare-and-swaps; collecting the
index pairs in execution order gives an equivalent fold over a pair list,
which the correctness development works on. -/

/-- Guarded compare-and-swap fold over an explicit pair list. -/
def gpairsExec {α : Type} (cmp : α → α → Bool) (n : ℕ) (prs : List (ℕ × ℕ))
    (a : ℕ → α) : ℕ → α :=
  prs.foldl (fun b p => gcas cmp n p.1 p.2 b) a

/-- Pairs of one `big_flip` dispatch (threads `t' < T`). -/
def bigFlipPairs (h T : ℕ) : List (ℕ × ℕ) :=
  (List.range T).map fun tp =>
    (2 * tp / h * h + tp % (h / 2), 2 * tp / h * h + h - tp % (h / 2) - 1)

/-- Pairs of one `big_disperse` dispatch. -/
def bigDispersePairs (h T : ℕ) : List (ℕ × ℕ) :=
  (List.range T).map fun tp =>
    (2 * tp / h * h + tp % (h / 2), 2 * tp / h * h + tp % (h / 2) + h / 2)

/-- Pairs of one workgroup-wide `local_flip` sub-stage (global indices). -/
def localFlipPairs (wgs h offset : ℕ) : List (ℕ × ℕ) :=
  (List.range wgs).map fun t =>
    (offset + (h * (2 * t / h) + t % (h / 2)),
     offset + (h * (2 * t / h) + (h - 1 - t % (h / 2))))

/-- Pairs of one workgroup-wide `local_disperse` sub-stage at distance `hh`. -/
def localDispStagePairs (wgs hh offset : ℕ) : List (ℕ × ℕ) :=
  (List.range wgs).map fun t =>
    (offset + (hh * (2 * t / hh) + t % (hh / 2)),
     offset + (hh * (2 * t / hh) + (hh / 2 + t % (hh / 2))))

/-- Pairs of a whole `local_disperse(h)` cascade of one workgroup. -/
def localDisperseBlockPairs (wgs h offset : ℕ) : List (ℕ × ℕ) :=
  (stageList h).bind fun d => localDispStagePairs wgs d offset

/-- Pairs of a whole `local_bms(h)` of one workgroup. -/
def localBmsBlockPairs (wgs h offset : ℕ) : List (ℕ × ℕ) :=
  (levelList h).bind fun hh =>
    localFlipPairs wgs hh offset ++ localDisperseBlockPairs wgs (hh / 2) offset

/-- Pairs of one whole dispatch. -/
def passPairs (wgs wgc h : ℕ) (alg : BitonicPassAlgorithm) : List (ℕ × ℕ) :=
  match alg with
  | .LocalBms => (List.range wgc).bind fun wg => localBmsBlockPairs wgs h (wgs * 2 * wg)
  | .LocalDisperse =>
    (List.range wgc).bind fun wg => localDisperseBlockPairs wgs h (wgs * 2 * wg)
  | .BigFlip => bigFlipPairs h (wgs * wgc)
  | .BigDisperse => bigDispersePairs h (wgs * wgc)

/-- Pairs of a whole ℕ-level plan. -/
def planPairs (wgs wgc : ℕ) (plan : List (ℕ × BitonicPassAlgorithm)) : List (ℕ × ℕ) :=
  plan.bind fun p => passPairs wgs wgc p.1 p.2

/-! ## Padding: guarded execution as unguarded execution over `Option`

Positions `≥ n` (the virtual power-of-two padding, never materialized) are
modelled as `none`; the lifted swap condition never moves a `none` downwards,
which coincides with the kernel's bound guard because every generated pair has
`x < y`. -/

/-- Unguarded compare-and-swap with an abstract swap condition `sw`:
swap exactly when `sw (b x) (b y)`. -/
def ecas {β : Type} (sw : β → β → Bool) (x y : ℕ) (b : ℕ → β) : ℕ → β :=
  if sw (b x) (b y) then
    fun i => if i = x then b y else if i = y then b x else b i
  else b

/-- Unguarded compare-and-swap fold over a pair list. -/
def casListExec {β : Type} (sw : β → β → Bool) (prs : List (ℕ × ℕ)) (b : ℕ → β) :
    ℕ → β :=
  prs.foldl (fun c p => ecas sw p.1 p.2 c) b

/-- The array padded to the virtual power-of-two domain. -/
def padArr {α : Type} (n : ℕ) (a : ℕ → α) : ℕ → Option α :=
  fun i => if i < n then some (a i) else none

/-- The kernel's swap condition (`_compare(k[y], k[x])`) lifted to the padded
domain: padding compares above everything. -/
def swOpt {α : Type} (cmp : α → α → Bool) : Option α → Option α → Bool
  | _, none => false
  | none, some _ => true
  | some u, some v => cmp v u

/-! ## Zero-one transfer

A compare-and-swap network, run with any swap condition compatible with a
total preorder, is transported along monotone Boolean maps to the same
network on `Bool`. -/

/-- Compatibility of a swap condition `sw` with a total preorder `R`:
`sw u v` (values at the lower/upper position) swaps only out-of-order pairs
and keeps only in-order pairs. -/
structure CasOrder {β : Type} (sw : β → β → Bool) (R : β → β → Prop) : Prop where
  total : ∀ u v, R u v ∨ R v u
  trans : ∀ u v t, R u v → R v t → R u t
  swap_true : ∀ u v, sw u v = true → R v u
  swap_false : ∀ u v, sw u v = false → R u v

/-- The Boolean swap condition: swap exactly the pair `(true, false)`. -/
def sw01 : Bool → Bool → Bool := fun u v => u && !v

/-- Monotone Boolean maps with respect to `R`. -/
def MonoMap {β : Type} (R : β → β → Prop) (g : β → Bool) : Prop :=
  ∀ u v, R u v → g u = true → g v = true

/-! ## Evaluating one barrier-separated sub-stage

Within one sub-stage all pairs are position-disjoint, so the sequential fold
is computed pointwise from the initial state. -/

/-- All positions touched by a pair list. -/
def pairPositions (prs : List (ℕ × ℕ)) : List ℕ :=
  prs.bind fun p => [p.1, p.2]

/-- One barrier-separated sub-stage over the aligned windows `W0 ≤ W < W0+Wn`
of size `2*hf`: thread `t` handles window `W0 + t / hf`, in-window lower slot
`t % hf` paired with in-window upper slot `g0 (t % hf)`. -/
def offsetWindowPairs (hf W0 Wn : ℕ) (g0 : ℕ → ℕ) : List (ℕ × ℕ) :=
  (List.range (Wn * hf)).map fun t =>
    (2 * hf * (W0 + t / hf) + t % hf, 2 * hf * (W0 + t / hf) + g0 (t % hf))

/-- The disperse sub-stage: lower slot `r` paired with `hf + r`. -/
def dispWindowPairs (hf W0 Wn : ℕ) : List (ℕ × ℕ) :=
  offsetWindowPairs hf W0 Wn fun r => hf + r

/-- The flip sub-stage: lower slot `r` paired with the mirror `2*hf - 1 - r`. -/
def flipWindowPairs (hf W0 Wn : ℕ) : List (ℕ × ℕ) :=
  offsetWindowPairs hf W0 Wn fun r => 2 * hf - 1 - r

/-! ## Zero-one window predicates

The Boolean (zero-one) analysis of the network tracks, per aligned window,
sortedness (`false`s then `true`s), interval shape (the `true`s form one run)
and co-interval shape (the `false`s form one run); bitonic is either shape. -/

def SortedOn (c : ℕ → Bool) (o d : ℕ) : Prop :=
  ∀ i j, o ≤ i → i ≤ j → j < o + d → c i = true → c j = true

def IntervalOn (c : ℕ → Bool) (o d : ℕ) : Prop :=
  ∃ p q, ∀ i, o ≤ i → i < o + d → (c i = true ↔ (p ≤ i ∧ i < q))

def CoIntervalOn (c : ℕ → Bool) (o d : ℕ) : Prop :=
  ∃ p q, ∀ i, o ≤ i → i < o + d → (c i = true ↔ ¬(p ≤ i ∧ i < q))

def BitonicOn (c : ℕ → Bool) (o d : ℕ) : Prop :=
  IntervalOn c o d ∨ CoIntervalOn c o d

/-! ## Cascades of disperse sub-stages -/

/-- The canonical pair list of a full disperse cascade over the aligned region
`[o, o+L)`: sub-stages at window sizes `2^e, 2^(e-1), …, 2`. -/
def cascadePairs : ℕ → ℕ → ℕ → List (ℕ × ℕ)
  | 0, _, _ => []
  | e + 1, o, L =>
    dispWindowPairs (2 ^ e) (o / 2 ^ (e + 1)) (L / 2 ^ (e + 1)) ++ cascadePairs e o L

/-- The canonical pair list of one merge level: a flip sub-stage at window
size `2^(l+1)` followed by the disperse cascade at `2^l, …, 2`. -/
def mergePairs (l o L : ℕ) : List (ℕ × ℕ) :=
  flipWindowPairs (2 ^ l) (o / 2 ^ (l + 1)) (L / 2 ^ (l + 1)) ++ cascadePairs l o L

/-- The canonical pair list of a full bitonic sort of the region: merge levels
`l = 0, …, m-1`, sorting windows of size `2^m`. -/
def bmsPairs (m o L : ℕ) : List (ℕ × ℕ) :=
  (List.range m).bind fun l => mergePairs l o L

/-! ## Global invariants of the disperse phase -/

/-- Every aligned window of size `2^e` inside the padded domain is bitonic. -/
def BitAt (K e : ℕ) (c : ℕ → Bool) : Prop :=
  ∀ s, s + 2 ^ e ≤ 2 ^ K → 2 ^ e ∣ s → BitonicOn c s (2 ^ e)

/-- Every aligned window of size `2^e` inside the padded domain is sorted. -/
def AllSortedAt (K e : ℕ) (c : ℕ → Bool) : Prop :=
  ∀ s, s + 2 ^ e ≤ 2 ^ K → 2 ^ e ∣ s → SortedOn c s (2 ^ e)

/-- Positions in the same `2^j` window but in distinct `2^e` sub-windows are
already in order. -/
def CrossAt (K j e : ℕ) (c : ℕ → Bool) : Prop :=
  ∀ i i', i < 2 ^ K → i' < 2 ^ K → i / 2 ^ j = i' / 2 ^ j →
    i / 2 ^ e < i' / 2 ^ e → c i = true → c i' = true

/-! ## From the zero-one principle back to the element order -/

/-- The intended final order of a sort session: ascending means the upper
element is not `lessThan`-below the lower one; descending dually. -/
def modeR {α : Type} (mode : SortMode) (lt : α → α → Bool) : α → α → Prop :=
  fun u v => match mode with
  | SortMode.ascending => lt v u = false
  | SortMode.descending => lt u v = false

/-- The intended final order lifted to the padded domain: padding sorts above
every element. -/
def ROpt {α : Type} (R : α → α → Prop) : Option α → Option α → Prop
  | _, none => True
  | none, some _ => False
  | some u, some v => R u v

/-! ## Theorems -/

theorem jsBitsAux_le_iff {f n : ℕ} (hf : n < 2 ^ f) (k : ℕ) :
    jsBitsAux f n ≤ k ↔ n < 2 ^ k := by
  induction f generalizing n k with
  | zero =>
    simp only [pow_zero, Nat.lt_one_iff] at hf
    subst hf
    simp [jsBitsAux, Nat.pos_pow_of_pos, Nat.pos_of_ne_zero, Nat.two_pow_pos]
  | succ f ih =>
    by_cases hn : n = 0
    · subst hn
      simp [jsBitsAux, Nat.two_pow_pos]
    · rw [jsBitsAux, if_neg hn]
      cases k with
      | zero =>
        simp only [pow_zero, Nat.lt_one_iff]
        omega
      | succ k =>
        have hdiv : n / 2 < 2 ^ f := by
          rw [pow_succ] at hf
          omega
        rw [Nat.succ_le_succ_iff, ih hdiv k, pow_succ]
        omega

theorem jsBitsAux_lt_self {f n : ℕ} (hf : n < 2 ^ f) : n < 2 ^ jsBitsAux f n :=
  (jsBitsAux_le_iff hf _).mp le_rfl

/-- For `1 ≤ n ≤ 2 ^ 31`, `nextPowerOfTwo n = 2 ^ (bit length of (n - 1))`. -/
theorem nextPowerOfTwo_eq_pow {n : ℕ} (h1 : 1 ≤ n) (h31 : n ≤ 2 ^ 31) :
    nextPowerOfTwo n = 2 ^ jsBitsAux 32 (n - 1) := by
  have hn1 : n - 1 < 2 ^ 32 := by
    have : (2 : ℕ) ^ 31 < 2 ^ 32 := by norm_num
    omega
  have htu : toUint32 ((n : ℤ) - 1) = n - 1 := by
    unfold toUint32
    have : (n : ℤ) - 1 = ((n - 1 : ℕ) : ℤ) := by omega
    rw [this, Int.emod_eq_of_lt (by positivity) (by exact_mod_cast hn1)]
    exact Int.toNat_natCast _
  have hmod : (n - 1) % 2 ^ 32 = n - 1 := Nat.mod_eq_of_lt hn1
  have hbits : jsBitsAux 32 (n - 1) ≤ 31 := by
    rw [jsBitsAux_le_iff hn1]
    omega
  unfold nextPowerOfTwo clz32
  rw [htu, hmod]
  have h32 : 32 - (32 - jsBitsAux 32 (n - 1)) = jsBitsAux 32 (n - 1) := by omega
  rw [h32, Nat.mod_eq_of_lt (by omega), Nat.shiftLeft_eq, one_mul]

/-- `nextPowerOfTwo` is, on `1 ≤ n ≤ 2 ^ 31`, the least power of two `≥ n`. -/
theorem nextPowerOfTwo_spec {n : ℕ} (h1 : 1 ≤ n) (h31 : n ≤ 2 ^ 31) :
    n ≤ nextPowerOfTwo n ∧
      (∃ k, nextPowerOfTwo n = 2 ^ k) ∧
      ∀ k, n ≤ 2 ^ k → nextPowerOfTwo n ≤ 2 ^ k := by
  have hn1 : n - 1 < 2 ^ 32 := by
    have : (2 : ℕ) ^ 31 < 2 ^ 32 := by norm_num
    omega
  rw [nextPowerOfTwo_eq_pow h1 h31]
  refine ⟨?_, ⟨_, rfl⟩, ?_⟩
  · have := jsBitsAux_lt_self hn1
    omega
  · intro k hk
    have : jsBitsAux 32 (n - 1) ≤ k := by
      rw [jsBitsAux_le_iff hn1]
      omega
    exact Nat.pow_le_pow_right (by norm_num) this

theorem disperseLoop_char (c : ℕ) :
    ∀ j fuel, j < fuel →
      disperseLoop fuel ((2 : ℚ) ^ c) ((2 : ℚ) ^ j) = some (dispersePassesSpec c j) := by
  intro j
  induction j with
  | zero =>
    intro fuel hf
    obtain ⟨f, rfl⟩ : ∃ f, fuel = f + 1 := ⟨fuel - 1, by omega⟩
    simp [disperseLoop, dispersePassesSpec]
  | succ j ih =>
    intro fuel hf
    obtain ⟨f, rfl⟩ : ∃ f, fuel = f + 1 := ⟨fuel - 1, by omega⟩
    have h1 : (1 : ℚ) < 2 ^ (j + 1) := by
      have : (1 : ℚ) < 2 := by norm_num
      calc (1 : ℚ) < 2 := this
        _ ≤ 2 ^ (j + 1) := le_self_pow₀ (by norm_num) (by omega)
    have hdiv : (2 : ℚ) ^ (j + 1) / 2 = 2 ^ j := by
      rw [pow_succ]
      field_simp
    have hcond : ((2 : ℚ) ^ (j + 1) ≤ 2 ^ c) ↔ (j + 1 ≤ c) :=
      pow_le_pow_iff_right₀ (by norm_num)
    rw [disperseLoop, if_pos h1, hdiv, ih f (by omega)]
    by_cases hc : j + 1 ≤ c
    · rw [dispersePassesSpec]
      simp only [if_pos (hcond.mpr hc), if_pos hc, Option.map_some]
      norm_num
    · rw [dispersePassesSpec]
      simp only [if_neg (fun h => hc (hcond.mp h)), if_neg hc, Option.map_some]
      norm_num

theorem outerLoop_gt {alignedN workGroupCount h : ℚ} {fuel : ℕ} (hfuel : 1 ≤ fuel)
    (hgt : alignedN < h) :
    outerLoop fuel alignedN workGroupCount h = some [] := by
  obtain ⟨f, rfl⟩ : ∃ f, fuel = f + 1 := ⟨fuel - 1, by omega⟩
  rw [outerLoop, if_neg (by exact not_le.mpr hgt)]

theorem outerLoop_char (K c : ℕ) :
    ∀ m j fuel, j + m = K + 1 → 1 ≤ j → m + K + 2 ≤ fuel →
      outerLoop fuel ((2 : ℚ) ^ K) ((2 : ℚ) ^ c) ((2 : ℚ) ^ j) =
        some (outerPassesSpec c j m) := by
  intro m
  induction m with
  | zero =>
    intro j fuel hj h1 hfuel
    have : (2 : ℚ) ^ K < 2 ^ j := by
      apply pow_lt_pow_right₀ (by norm_num)
      omega
    rw [outerLoop_gt (by omega) this, outerPassesSpec]
  | succ m ih =>
    intro j fuel hj h1 hfuel
    obtain ⟨f, rfl⟩ : ∃ f, fuel = f + 1 := ⟨fuel - 1, by omega⟩
    have hle : (2 : ℚ) ^ j ≤ 2 ^ K := pow_le_pow_right₀ (by norm_num) (by omega)
    have hdiv : (2 : ℚ) ^ j / 2 = 2 ^ (j - 1) := by
      obtain ⟨j', rfl⟩ : ∃ j', j = j' + 1 := ⟨j - 1, by omega⟩
      rw [pow_succ]
      field_simp
    have hmul : (2 : ℚ) ^ j * 2 = 2 ^ (j + 1) := by rw [pow_succ]
    rw [outerLoop, if_pos hle, hdiv, hmul,
      disperseLoop_char c (j - 1) (f + 1) (by omega),
      ih (j + 1) f (by omega) (by omega) (by omega)]
    rw [outerPassesSpec]
    push_cast
    rfl

theorem two_mul_le_two_pow_add (K : ℕ) : 2 * K ≤ 2 ^ K + 2 := by
  induction K with
  | zero => norm_num
  | succ K ih =>
    have h1 : 1 ≤ 2 ^ K := Nat.one_le_two_pow
    rw [pow_succ]
    omega

/-- In the power-of-two regime, the recorded pass plan is exactly the plan the
spec describes. -/
theorem sortPassPlan_char (dev : DeviceLimits) (kv n w K : ℕ)
    (hwgs : plannerWorkGroupSize dev kv n = (2 : ℚ) ^ w)
    (hN : nextPowerOfTwo n = 2 ^ K) (hwK : w + 1 ≤ K) :
    sortPassPlan? dev kv n = some (sortPlanSpec w K (K - w - 1)) := by
  have hwgc : plannerWorkGroupCount dev kv n = (2 : ℚ) ^ (K - w - 1) := by
    unfold plannerWorkGroupCount
    rw [hwgs, hN]
    push_cast
    rw [show ((2 : ℚ) ^ w * 2) = 2 ^ (w + 1) by rw [pow_succ]]
    rw [div_eq_iff (by positivity), ← pow_add]
    congr 1
    omega
  have htp : 2 * K ≤ 2 ^ K + 2 := two_mul_le_two_pow_add K
  have hfuel : (K - w - 1) + K + 2 ≤ sortPassFuel dev kv n := by
    unfold sortPassFuel
    rw [hN]
    omega
  unfold sortPassPlan?
  simp only [hwgs, hN, hwgc]
  rw [show (2 : ℚ) ^ w * 2 * 2 = 2 ^ (w + 2) by rw [pow_succ, pow_succ],
    show (((2 : ℕ) ^ K : ℕ) : ℚ) = (2 : ℚ) ^ K by push_cast; rfl,
    outerLoop_char K (K - w - 1) (K - w - 1) (w + 2) _ (by omega) (by omega) hfuel]
  rw [sortPlanSpec]
  push_cast
  rw [pow_succ]
  rfl

/-! ## ℕ-level view of the plan parameters -/

theorem passParamH_natCast (m : ℕ) (hm : m < 2 ^ 32) (alg : BitonicPassAlgorithm) :
    passParamH ⟨(m : ℚ), alg⟩ = m := by
  unfold passParamH toUint32
  rw [show ⌊(⟨(m : ℚ), alg⟩ : BitonicPass).h⌋ = (m : ℤ) from Int.floor_natCast m]
  rw [Int.emod_eq_of_lt (by positivity) (by exact_mod_cast hm)]
  exact Int.toNat_natCast _

theorem execPlan_eq_execPlanN {α : Type} (cmp : α → α → Bool) (n wgs wgc : ℕ)
    (plan : List BitonicPass) (a : ℕ → α) :
    execPlan cmp n wgs wgc plan a =
      execPlanN cmp n wgs wgc (plan.map fun p => (passParamH p, p.algorithm)) a := by
  unfold execPlan execPlanN
  rw [List.foldl_map]

theorem dispersePassesSpec_map (c : ℕ) :
    ∀ j, j < 31 →
      (dispersePassesSpec c j).map (fun p => (passParamH p, p.algorithm)) =
        dispersePassesSpecN c j := by
  intro j
  induction j with
  | zero => intro _; rfl
  | succ j ih =>
    intro hj
    have hpow : (2 : ℕ) ^ (j + 1) < 2 ^ 32 := Nat.pow_lt_pow_right (by norm_num) (by omega)
    rw [dispersePassesSpec, dispersePassesSpecN, List.map_cons, ih (by omega)]
    by_cases hc : j + 1 ≤ c
    · rw [if_pos hc, if_pos hc, passParamH_natCast _ hpow]
    · rw [if_neg hc, if_neg hc, passParamH_natCast _ hpow]

theorem outerPassesSpec_map (c : ℕ) :
    ∀ m j, j + m ≤ 32 → 1 ≤ j →
      (outerPassesSpec c j m).map (fun p => (passParamH p, p.algorithm)) =
        outerPassesSpecN c j m := by
  intro m
  induction m with
  | zero => intro j _ _; rfl
  | succ m ih =>
    intro j hj h1
    have hpow : (2 : ℕ) ^ j < 2 ^ 32 := Nat.pow_lt_pow_right (by norm_num) (by omega)
    rw [outerPassesSpec, outerPassesSpecN, List.map_append, List.map_cons,
      passParamH_natCast _ hpow, dispersePassesSpec_map c (j - 1) (by omega),
      ih (j + 1) (by omega) (by omega)]

theorem sortPlanSpec_map (w K c : ℕ) (hK : K ≤ 31) (hw : w + 1 ≤ K) :
    (sortPlanSpec w K c).map (fun p => (passParamH p, p.algorithm)) =
      sortPlanSpecN w K c := by
  have hpow : (2 : ℕ) ^ (w + 1) < 2 ^ 32 := Nat.pow_lt_pow_right (by norm_num) (by omega)
  rw [sortPlanSpec, sortPlanSpecN, List.map_cons, passParamH_natCast _ hpow,
    outerPassesSpec_map c (K - w - 1) (w + 2) (by omega) (by omega)]

theorem foldl_const {α β : Type} (l : List β) (a : α) :
    l.foldl (fun b _ => b) a = a := by
  induction l generalizing a with
  | nil => rfl
  | cons x xs ih => exact ih a

theorem sortPassFuel_pos (dev : DeviceLimits) (kv n : ℕ) :
    1 ≤ sortPassFuel dev kv n := by
  unfold sortPassFuel
  omega

theorem outerLoop_zero (fuel : ℕ) :
    ∀ (alignedN workGroupCount : ℚ), 0 ≤ alignedN →
      outerLoop fuel alignedN workGroupCount 0 = none := by
  induction fuel with
  | zero => intro _ _ _; rfl
  | succ fuel ih =>
    intro alignedN workGroupCount hN
    rw [outerLoop, if_pos hN]
    have hd : disperseLoop (fuel + 1) workGroupCount (0 / 2) = some [] := by
      rw [disperseLoop, if_neg (by norm_num)]
    rw [hd, show (0 : ℚ) * 2 = 0 by ring, ih alignedN workGroupCount hN]

/-- With a zero workgroup size the scheduler loop never terminates: the fueled
model yields `none` for every fuel. -/
theorem sortPassPlan_none_of_wgs_zero (dev : DeviceLimits) (kv n : ℕ)
    (hwgs : plannerWorkGroupSize dev kv n = 0) :
    sortPassPlan? dev kv n = none := by
  unfold sortPassPlan?
  simp only [hwgs]
  rw [show (0 : ℚ) * 2 * 2 = 0 by ring,
    outerLoop_zero _ _ _ (by positivity)]
  rfl

/-- In the degenerate regime `paddedN = 1` (that is `n ≤ 1`), the scheduler
still records exactly one `LocalBms` pass, with `h = workGroupSize * 2 = 1`. -/
theorem sortPassPlan_trivial (dev : DeviceLimits) (kv n : ℕ)
    (hN : nextPowerOfTwo n = 1)
    (hwgs : plannerWorkGroupSize dev kv n = 1 / 2) :
    sortPassPlan? dev kv n = some [⟨1, .LocalBms⟩] := by
  unfold sortPassPlan?
  simp only [hwgs, hN]
  rw [show (1 / 2 : ℚ) * 2 * 2 = 2 by ring,
    outerLoop_gt (sortPassFuel_pos dev kv n) (by norm_num),
    show (1 / 2 : ℚ) * 2 = 1 by ring]
  rfl

/-- Claim C3, counterexample: with default limits and a 4-byte key, for `n = 1`
(and `n = 0`) the pass plan is *not* empty — one `LocalBms` pass with `h = 1`
is scheduled and dispatched. -/
theorem c3_counterexample :
    sortPassPlan? ⟨256, 16384⟩ 4 1 = some [⟨1, .LocalBms⟩] ∧
    sortPassPlan? ⟨256, 16384⟩ 4 0 = some [⟨1, .LocalBms⟩] ∧
    sortPassPlan? ⟨256, 16384⟩ 4 1 ≠ some [] := by
  have h4 : nextPowerOfTwo 4 = 4 := by decide
  have h1 : nextPowerOfTwo 1 = 1 := by decide
  have h0 : nextPowerOfTwo 0 = 1 := by decide
  have hw1 : plannerWorkGroupSize ⟨256, 16384⟩ 4 1 = 1 / 2 := by
    unfold plannerWorkGroupSize
    rw [h4, h1]
    norm_num [min_def]
  have hw0 : plannerWorkGroupSize ⟨256, 16384⟩ 4 0 = 1 / 2 := by
    unfold plannerWorkGroupSize
    rw [h4, h0]
    norm_num [min_def]
  refine ⟨sortPassPlan_trivial _ _ _ h1 hw1, sortPassPlan_trivial _ _ _ h0 hw0, ?_⟩
  rw [sortPassPlan_trivial _ _ _ h1 hw1]
  simp

/-- Claim C3, amended: for `n ≤ 1` the plan consists of exactly one `LocalBms`
pass with `h = 1`; executing that dispatch performs no compare-and-swap at all
(its level loop `for (hh = 2; hh <= 1; ...)` never runs), so the data is left
unchanged, and for the index sorter the index-initialization kernel writes
`indices = [0]` (for `n = 1`) and touches nothing else. -/
theorem c3_amended (dev : DeviceLimits) (kv n : ℕ)
    (hN : nextPowerOfTwo n = 1)
    (hwgs : plannerWorkGroupSize dev kv n = 1 / 2)
    {α : Type} (cmp : α → α → Bool) (wgs wgc : ℕ) (a : ℕ → α) (aIdx : ℕ → ℕ) :
    sortPassPlan? dev kv n = some [⟨1, .LocalBms⟩] ∧
    execPass cmp n wgs wgc a 1 .LocalBms = a ∧
    setIndicesApply 1 aIdx 0 = 0 ∧ (∀ i, 1 ≤ i → setIndicesApply 1 aIdx i = aIdx i) := by
  refine ⟨sortPassPlan_trivial dev kv n hN hwgs, ?_, rfl, ?_⟩
  · show (List.range wgc).foldl
      (fun b wg => localBmsBlock cmp n wgs 1 (wgs * 2 * wg) b) a = a
    have hblock : ∀ (off : ℕ) (b : ℕ → α), localBmsBlock cmp n wgs 1 off b = b := by
      intro off b
      rfl
    simp only [hblock]
    exact foldl_const _ a
  · intro i hi
    unfold setIndicesApply
    rw [if_neg (by omega)]

theorem c3_amended_witness :
    sortPassPlan? ⟨256, 16384⟩ 4 1 = some [⟨1, .LocalBms⟩] ∧
    execPass (fun x y : ℕ => decide (x < y)) 1 0 1 (fun _ => 0) 1 .LocalBms = (fun _ => 0) ∧
    setIndicesApply 1 (fun _ => 7) 0 = 0 ∧
    (∀ i, 1 ≤ i → setIndicesApply 1 (fun _ => 7) i = 7) := by
  have h4 : nextPowerOfTwo 4 = 4 := by decide
  have h1 : nextPowerOfTwo 1 = 1 := by decide
  have hw1 : plannerWorkGroupSize ⟨256, 16384⟩ 4 1 = 1 / 2 := by
    unfold plannerWorkGroupSize
    rw [h4, h1]
    norm_num [min_def]
  exact c3_amended ⟨256, 16384⟩ 4 1 h1 hw1 (fun x y : ℕ => decide (x < y)) 0 1
    (fun _ => 0) (fun _ => 7)

/-- Claim C4, counterexample: with `maxComputeWorkgroupSizeX = 0` the planner
computes `workGroupSize = 0`, yet construction raises nothing: validation
passes and no `ResourceExhaustedError` (or any error) is thrown — the
scheduler loop simply never terminates (fueled model: `none`). -/
theorem c4_counterexample :
    plannerWorkGroupSize ⟨0, 16384⟩ 4 8 = 0 ∧
    validateSorterConfig (⟨true, none⟩ : ElementTypeDescriptor Unit) = .ok () ∧
    createSorterModel (⟨true, none⟩ : ElementTypeDescriptor Unit) ⟨0, 16384⟩ 4 8 =
      .ok none := by
  have h4 : nextPowerOfTwo 4 = 4 := by decide
  have h8 : nextPowerOfTwo 8 = 8 := by decide
  have hw : plannerWorkGroupSize ⟨0, 16384⟩ 4 8 = 0 := by
    unfold plannerWorkGroupSize
    rw [h4, h8]
    norm_num [min_def]
  refine ⟨hw, rfl, ?_⟩
  unfold createSorterModel
  rw [show validateSorterConfig (⟨true, none⟩ : ElementTypeDescriptor Unit) = .ok ()
      from rfl,
    sortPassPlan_none_of_wgs_zero _ _ _ hw]

/-- Claim C4, amended: the construction path contains no workgroup-size
validation at all.  Whenever the two actual asserts pass, construction
succeeds for arbitrary device limits, and with `workGroupSize = 0` the
scheduler loop diverges instead of raising (fueled model: `none`). -/
theorem c4_amended {β : Type} (ty : ElementTypeDescriptor β) (dev : DeviceLimits)
    (kv n : ℕ) (hok : validateSorterConfig ty = .ok ()) :
    createSorterModel ty dev kv n = .ok (sortPassPlan? dev kv n) ∧
    (plannerWorkGroupSize dev kv n = 0 → sortPassPlan? dev kv n = none) := by
  constructor
  · unfold createSorterModel
    rw [hok]
  · exact sortPassPlan_none_of_wgs_zero dev kv n

theorem c4_amended_witness :
    validateSorterConfig (⟨true, none⟩ : ElementTypeDescriptor Unit) = .ok () ∧
    createSorterModel (⟨true, none⟩ : ElementTypeDescriptor Unit) ⟨0, 16384⟩ 4 8 =
        .ok (sortPassPlan? ⟨0, 16384⟩ 4 8) ∧
    (plannerWorkGroupSize ⟨0, 16384⟩ 4 8 = 0 → sortPassPlan? ⟨0, 16384⟩ 4 8 = none) :=
  ⟨rfl, c4_amended ⟨true, none⟩ ⟨0, 16384⟩ 4 8 rfl⟩

/-- Claim C5, counterexample: `nextPowerOfTwo` wraps for `n > 2^31`:
at `n = 2^31 + 1` it returns `1`, which is not `≥ n`. -/
theorem c5_counterexample :
    nextPowerOfTwo (2 ^ 31 + 1) = 1 ∧ ¬(2 ^ 31 + 1 ≤ nextPowerOfTwo (2 ^ 31 + 1)) := by
  constructor
  · decide
  · decide

/-- Claim C5, amended: for `1 ≤ n ≤ 2^31`, `paddedN = nextPowerOfTwo n` is the
least power of two `≥ n` (and `nextPowerOfTwo 0 = 1`); for every `n`, the
planner computes `workgroupSize = min(maxInvocations,
storageBytes / (2 * nextPowerOfTwo(k + v)), paddedN / 2)` and
`workgroupCount = paddedN / (workgroupSize * 2)`. -/
theorem c5_amended (dev : DeviceLimits) (k v n : ℕ)
    (h1 : 1 ≤ n) (h31 : n ≤ 2 ^ 31) :
    (n ≤ nextPowerOfTwo n ∧ (∃ j, nextPowerOfTwo n = 2 ^ j) ∧
      ∀ j, n ≤ 2 ^ j → nextPowerOfTwo n ≤ 2 ^ j) ∧
    nextPowerOfTwo 0 = 1 ∧
    plannerWorkGroupSize dev (k + v) n =
      min (min (dev.maxComputeWorkgroupSizeX : ℚ)
          ((dev.maxComputeWorkgroupStorageSize : ℚ) /
            (2 * (nextPowerOfTwo (k + v) : ℚ))))
        ((nextPowerOfTwo n : ℚ) / 2) ∧
    plannerWorkGroupCount dev (k + v) n =
      (nextPowerOfTwo n : ℚ) / (plannerWorkGroupSize dev (k + v) n * 2) := by
  refine ⟨nextPowerOfTwo_spec h1 h31, by decide, ?_, rfl⟩
  unfold plannerWorkGroupSize
  rw [div_div]

theorem c5_amended_witness :
    1 ≤ 1000 ∧ 1000 ≤ 2 ^ 31 ∧
    ((1000 ≤ nextPowerOfTwo 1000 ∧ (∃ j, nextPowerOfTwo 1000 = 2 ^ j) ∧
        ∀ j, 1000 ≤ 2 ^ j → nextPowerOfTwo 1000 ≤ 2 ^ j) ∧
      nextPowerOfTwo 0 = 1 ∧
      plannerWorkGroupSize ⟨256, 16384⟩ (4 + 0) 1000 =
        min (min ((256 : ℕ) : ℚ)
            (((16384 : ℕ) : ℚ) / (2 * (nextPowerOfTwo (4 + 0) : ℚ))))
          ((nextPowerOfTwo 1000 : ℚ) / 2) ∧
      plannerWorkGroupCount ⟨256, 16384⟩ (4 + 0) 1000 =
        (nextPowerOfTwo 1000 : ℚ) /
          (plannerWorkGroupSize ⟨256, 16384⟩ (4 + 0) 1000 * 2)) :=
  ⟨by norm_num, by norm_num,
    c5_amended ⟨256, 16384⟩ 4 0 1000 (by norm_num) (by norm_num)⟩

/-- Claim C2: with the planner-computed workgroup size an integral power of
two `2^w` and `paddedN = 2^K` (with `w + 1 ≤ K`, i.e. `n ≥ 2`), the recorded
pass plan is exactly the spec plan — one `LocalBMS` at `h = 2 * wgs = 2^(w+1)`,
then for `h = 4*wgs, 8*wgs, …, paddedN`: one `BigFlip(h)` followed by, for
`hh = h/2, …, 2`: `LocalDisperse(hh)` when `hh ≤ workgroupCount`, else
`BigDisperse(hh)` — and `encode`/`sort` dispatch exactly this sequence in this
order. -/
theorem c2_plan_exact (dev : DeviceLimits) (kv n w K : ℕ)
    (hwgs : plannerWorkGroupSize dev kv n = (2 : ℚ) ^ w)
    (hN : nextPowerOfTwo n = 2 ^ K) (hwK : w + 1 ≤ K) :
    sortPassPlan? dev kv n = some (sortPlanSpec w K (K - w - 1)) ∧
    ∀ plan wgcQ, sortPassPlan? dev kv n = some plan →
      (encodeDispatches plan wgcQ).map Prod.fst = plan := by
  refine ⟨sortPassPlan_char dev kv n w K hwgs hN hwK, ?_⟩
  intro plan wgcQ _
  unfold encodeDispatches
  rw [List.map_map]
  exact List.map_id _

theorem c2_plan_exact_witness :
    plannerWorkGroupSize ⟨256, 16384⟩ 4 1000 = (2 : ℚ) ^ 8 ∧
    nextPowerOfTwo 1000 = 2 ^ 10 ∧ 8 + 1 ≤ 10 ∧
    (sortPassPlan? ⟨256, 16384⟩ 4 1000 = some (sortPlanSpec 8 10 (10 - 8 - 1)) ∧
      ∀ plan wgcQ, sortPassPlan? ⟨256, 16384⟩ 4 1000 = some plan →
        (encodeDispatches plan wgcQ).map Prod.fst = plan) := by
  have h4 : nextPowerOfTwo 4 = 4 := by decide
  have h1000 : nextPowerOfTwo 1000 = 1024 := by decide
  have hw : plannerWorkGroupSize ⟨256, 16384⟩ 4 1000 = (2 : ℚ) ^ 8 := by
    unfold plannerWorkGroupSize
    rw [h4, h1000]
    norm_num [min_def]
  exact ⟨hw, by decide, by norm_num,
    c2_plan_exact ⟨256, 16384⟩ 4 1000 8 10 hw (by decide) (by norm_num)⟩

theorem consecutiveFrom1_length (len : ℕ) : (consecutiveFrom1 len).length = len := by
  unfold consecutiveFrom1
  rw [List.length_map, List.length_range]

theorem consecutiveFrom1_getD (len i : ℕ) (h : i < len) :
    (consecutiveFrom1 len).getD i 0 = (i : ℤ) + 1 := by
  have hl : i < (consecutiveFrom1 len).length := by rw [consecutiveFrom1_length]; exact h
  rw [List.getD_eq_get _ _ hl]
  unfold consecutiveFrom1
  rw [List.get_eq_getElem, List.getElem_map, List.getElem_range]

/-- Claim C6: the normalized auxiliary bind-group list is sorted ascending by
index, and `reifyWGSLDistanceFunction` fails (with its configuration assert)
precisely when the sorted indices are not exactly `1, 2, …, len`; when they
are, it returns the normalized list. -/
theorem c6_bindgroup_validation {β : Type} (bindGroups : Option (List (AuxBindGroup β))) :
    List.Sorted (fun a b : AuxBindGroup β => a.index ≤ b.index)
      ((bindGroups.getD []).insertionSort (fun a b => a.index ≤ b.index)) ∧
    (reifyBindGroups bindGroups = .error .nonConsecutiveBindGroups ↔
      ¬(((bindGroups.getD []).insertionSort (fun a b => a.index ≤ b.index)).map
          AuxBindGroup.index = consecutiveFrom1 (bindGroups.getD []).length)) ∧
    ((∃ gs, reifyBindGroups bindGroups = .ok gs) ↔
      ((bindGroups.getD []).insertionSort (fun a b => a.index ≤ b.index)).map
        AuxBindGroup.index = consecutiveFrom1 (bindGroups.getD []).length) := by
  haveI : IsTotal (AuxBindGroup β) (fun a b => a.index ≤ b.index) :=
    ⟨fun a b => Int.le_total a.index b.index⟩
  haveI : IsTrans (AuxBindGroup β) (fun a b => a.index ≤ b.index) :=
    ⟨fun _ _ _ hab hbc => le_trans hab hbc⟩
  set gs := (bindGroups.getD []).insertionSort (fun a b => a.index ≤ b.index) with hgs
  have hlen : gs.length = (bindGroups.getD []).length := by
    rw [hgs, List.length_insertionSort]
  have hiff : (∀ i, (h : i < gs.length) → (gs.get ⟨i, h⟩).index = i + 1) ↔
      gs.map AuxBindGroup.index = consecutiveFrom1 (bindGroups.getD []).length := by
    constructor
    · intro hall
      apply List.ext_getElem
      · rw [List.length_map, consecutiveFrom1_length, hlen]
      · intro i h1 h2
        have hi : i < gs.length := by rw [List.length_map] at h1; exact h1
        have hc : (consecutiveFrom1 (bindGroups.getD []).length).getD i 0 = (i : ℤ) + 1 :=
          consecutiveFrom1_getD _ i (by omega)
        rw [List.getD_eq_get _ _ h2, List.get_eq_getElem] at hc
        rw [List.getElem_map, hc]
        have := hall i hi
        rw [List.get_eq_getElem] at this
        exact this
    · intro heq i h
      have h1 : i < (gs.map AuxBindGroup.index).length := by
        rw [List.length_map]
        exact h
      have hc : (gs.map AuxBindGroup.index).getD i 0 = (i : ℤ) + 1 := by
        rw [heq]
        exact consecutiveFrom1_getD _ i (by omega)
      rw [List.getD_eq_get _ _ h1, List.get_eq_getElem, List.getElem_map] at hc
      rw [List.get_eq_getElem]
      exact hc
  refine ⟨List.sorted_insertionSort _ _, ?_, ?_⟩
  · unfold reifyBindGroups
    rw [← hgs]
    by_cases hc : ∀ i, (h : i < gs.length) → (gs.get ⟨i, h⟩).index = i + 1
    · rw [if_pos hc]
      simp [hiff.mp hc]
    · rw [if_neg hc]
      simp [hiff.symm.not.mpr hc]
  · unfold reifyBindGroups
    rw [← hgs]
    by_cases hc : ∀ i, (h : i < gs.length) → (gs.get ⟨i, h⟩).index = i + 1
    · rw [if_pos hc]
      simp [hiff.mp hc]
    · rw [if_neg hc]
      simp [hiff.symm.not.mpr hc]

/-- Claim C7, counterexample: with *exactly one* of `comp`/`dist` present
(`dist` only) but non-contiguous auxiliary binding indices, construction still
raises a `ConfigurationError` — so "raises exactly when neither or both are
present" is false as stated. -/
theorem c7_counterexample :
    (⟨false, some (some [⟨2, ()⟩])⟩ : ElementTypeDescriptor Unit).comp = false ∧
    (⟨false, some (some [⟨2, ()⟩])⟩ : ElementTypeDescriptor Unit).dist.isSome = true ∧
    validateSorterConfig (⟨false, some (some [⟨2, ()⟩])⟩ : ElementTypeDescriptor Unit) =
      .error .nonConsecutiveBindGroups ∧
    createSorterModel (⟨false, some (some [⟨2, ()⟩])⟩ : ElementTypeDescriptor Unit)
      ⟨256, 16384⟩ 4 8 = .error .nonConsecutiveBindGroups := by
  refine ⟨rfl, rfl, by rfl, ?_⟩
  unfold createSorterModel
  rw [show validateSorterConfig (⟨false, some (some [⟨2, ()⟩])⟩ : ElementTypeDescriptor Unit) =
      .error .nonConsecutiveBindGroups from rfl]

/-- Claim C7, amended: construction succeeds precisely when exactly one of
`comp`/`dist` is present *and*, when it is `dist`, its auxiliary binding
indices validate; the exactly-one-of check alone passes whenever exactly one
member is present. -/
theorem c7_amended {β : Type} (ty : ElementTypeDescriptor β) :
    (validateSorterConfig ty = .ok () ↔
      ((ty.comp = true ↔ ty.dist = none) ∧
        ∀ bgs, ty.dist = some bgs → ∃ gs, reifyBindGroups bgs = .ok gs)) ∧
    (∀ dev kv n,
      createSorterModel ty dev kv n = .ok (sortPassPlan? dev kv n) ↔
        validateSorterConfig ty = .ok ()) := by
  constructor
  · obtain ⟨c, d⟩ := ty
    cases d with
    | none =>
      cases c with
      | false => simp [validateSorterConfig]
      | true => simp [validateSorterConfig]
    | some bgs =>
      unfold validateSorterConfig
      cases hr : reifyBindGroups bgs with
      | error e =>
        cases c with
        | false =>
          simp only [hr]
          constructor
          · intro h
            exact absurd h (by simp)
          · rintro ⟨-, hall⟩
            obtain ⟨gs, hgs⟩ := hall bgs rfl
            rw [hr] at hgs
            exact absurd hgs (by simp)
        | true =>
          simp only [hr]
          constructor
          · intro h
            exact absurd h (by simp)
          · rintro ⟨hiff, -⟩
            simp at hiff
      | ok gs =>
        cases c with
        | false =>
          simp only [hr]
          constructor
          · intro _
            exact ⟨by simp, fun bgs2 h2 => by
              cases h2
              exact ⟨gs, hr⟩⟩
          · intro _
            rfl
        | true =>
          simp only [hr]
          constructor
          · intro h
            exact absurd h (by simp)
          · rintro ⟨hiff, -⟩
            simp at hiff
  · intro dev kv n
    unfold createSorterModel
    cases hv : validateSorterConfig ty with
    | error e => simp
    | ok u =>
      cases u
      simp

/-- Claim C9: `destroy()` releases exactly the session-created resources — the
per-pass parameter buffers, the distances buffer in distance mode, and (index
sorter only) the indices buffer when the caller did not supply one — and never
the caller's data buffer or a caller-supplied indices buffer. -/
theorem c9_destroy_ownership (hasDist callerSuppliedIndices : Bool) (passCount : ℕ) :
    SorterBuffer.dataBuffer ∉ inPlaceSorterDestroy hasDist passCount ∧
    SorterBuffer.dataBuffer ∉ indexSorterDestroy hasDist callerSuppliedIndices passCount ∧
    SorterBuffer.callerIndices ∉ inPlaceSorterDestroy hasDist passCount ∧
    SorterBuffer.callerIndices ∉ indexSorterDestroy hasDist callerSuppliedIndices passCount ∧
    SorterBuffer.internalIndices ∉ inPlaceSorterDestroy hasDist passCount ∧
    (∀ b, b ∈ inPlaceSorterDestroy hasDist passCount ↔
      ((∃ i, i < passCount ∧ b = .paramBuffer i) ∨
        (hasDist = true ∧ b = .distancesBuffer))) ∧
    (∀ b, b ∈ indexSorterDestroy hasDist callerSuppliedIndices passCount ↔
      ((∃ i, i < passCount ∧ b = .paramBuffer i) ∨
        (hasDist = true ∧ b = .distancesBuffer) ∨
        (callerSuppliedIndices = false ∧ b = .internalIndices))) := by
  unfold inPlaceSorterDestroy indexSorterDestroy
  cases hasDist <;> cases callerSuppliedIndices <;>
    simp [List.mem_append, List.mem_map, eq_comm] <;>
    intro b <;> cases b <;> simp [eq_comm]

/-- Claim C8: every compare-and-swap, global or local, is guarded against the
true element count `n`: if either index of the pair (after adding the
workgroup offset in the local case) is `≥ n`, the compare-and-swap returns
without swapping; consequently no position `≥ n` is ever written by any
compare-and-swap. -/
theorem c8_cas_guards {α : Type} (cmp : α → α → Bool) (n x y offset : ℕ) (a : ℕ → α) :
    ((n ≤ x ∨ n ≤ y) → gcas cmp n x y a = a) ∧
    ((n ≤ offset + x ∨ n ≤ offset + y) → lcas cmp n x y offset a = a) ∧
    (∀ j, n ≤ j → gcas cmp n x y a j = a j) ∧
    (∀ j, n ≤ j → lcas cmp n x y offset a j = a j) := by
  refine ⟨fun h => by rw [gcas, if_pos h], fun h => by rw [lcas, if_pos h], ?_, ?_⟩
  · intro j hj
    unfold gcas
    by_cases hg : n ≤ x ∨ n ≤ y
    · rw [if_pos hg]
    · rw [if_neg hg]
      by_cases hc : cmp (a y) (a x)
      · rw [if_pos hc, if_neg (by omega), if_neg (by omega)]
      · rw [if_neg hc]
  · intro j hj
    unfold lcas
    by_cases hg : n ≤ offset + x ∨ n ≤ offset + y
    · rw [if_pos hg]
    · rw [if_neg hg]
      by_cases hc : cmp (a (offset + y)) (a (offset + x))
      · rw [if_pos hc, if_neg (by omega), if_neg (by omega)]
      · rw [if_neg hc]

theorem c8_cas_guards_witness :
    gcas (fun x y : ℕ => decide (x < y)) 2 1 5 (fun i => i) = (fun i => i) ∧
    lcas (fun x y : ℕ => decide (x < y)) 2 1 5 0 (fun i => i) = (fun i => i) ∧
    gcas (fun x y : ℕ => decide (x < y)) 2 1 5 (fun i => i) 3 = 3 ∧
    lcas (fun x y : ℕ => decide (x < y)) 2 1 5 0 (fun i => i) 3 = 3 := by
  obtain ⟨h1, h2, h3, h4⟩ :=
    c8_cas_guards (fun x y : ℕ => decide (x < y)) 2 1 5 0 (fun i => i)
  exact ⟨h1 (by norm_num), h2 (by norm_num), h3 3 (by norm_num), h4 3 (by norm_num)⟩

theorem dispersePassesSpec_length (c : ℕ) :
    ∀ j, (dispersePassesSpec c j).length = j := by
  intro j
  induction j with
  | zero => rfl
  | succ j ih =>
    rw [dispersePassesSpec]
    by_cases hc : j + 1 ≤ c
    · rw [if_pos hc, List.length_cons, ih]
    · rw [if_neg hc, List.length_cons, ih]

theorem outerPassesSpec_length (c : ℕ) :
    ∀ m j, 1 ≤ j → 2 * (outerPassesSpec c j m).length = m * (2 * j + m - 1) := by
  intro m
  induction m with
  | zero =>
    intro j _
    simp [outerPassesSpec]
  | succ m ih =>
    intro j hj
    rw [outerPassesSpec, List.length_append, List.length_cons,
      dispersePassesSpec_length c (j - 1)]
    have hrec := ih (j + 1) (by omega)
    have hr2 : 2 * (j + 1) + m - 1 = 2 * j + m + 1 := by omega
    rw [hr2] at hrec
    have hs : 2 * j + (m + 1) - 1 = 2 * j + m := by omega
    rw [hs]
    have hexpand : (m + 1) * (2 * j + m) = 2 * j + m * (2 * j + m + 1) := by ring
    rw [hexpand]
    omega

theorem clz32_two_pow (K : ℕ) (hK : K ≤ 31) : clz32 (2 ^ K) = 31 - K := by
  have hlt : (2 : ℕ) ^ K < 2 ^ 32 := Nat.pow_lt_pow_right (by norm_num) (by omega)
  have hmod : (2 : ℕ) ^ K % 2 ^ 32 = 2 ^ K := Nat.mod_eq_of_lt hlt
  have hb1 : jsBitsAux 32 (2 ^ K) ≤ K + 1 := by
    rw [jsBitsAux_le_iff hlt]
    exact Nat.pow_lt_pow_right (by norm_num) (by omega)
  have hb2 : ¬jsBitsAux 32 (2 ^ K) ≤ K := by
    rw [jsBitsAux_le_iff hlt]
    omega
  unfold clz32
  rw [hmod]
  omega

/-- Claim C10, counterexample: at `n = 2^32`, `wgs = 2^15` (powers of two with
`2*wgs ≤ n` and `wgc = 2^16 ≤ 2*wgs`), the scheduler loop of
`initKeyValueInPlaceSort` run with those sizing values records `393` passes,
but `computeNumberOfDispatches` — whose `log2` is `31 - Math.clz32(x)` and
wraps at `2^32` — returns `-135`. -/
theorem c10_counterexample :
    (outerLoop 100 ((2 : ℚ) ^ 32) ((2 : ℚ) ^ 16) ((2 : ℚ) ^ 17)).map
        (fun rest => BitonicPass.mk ((2 ^ 16 : ℕ) : ℚ) .LocalBms :: rest) =
      some (BitonicPass.mk ((2 ^ 16 : ℕ) : ℚ) .LocalBms :: outerPassesSpec 16 17 16) ∧
    (BitonicPass.mk ((2 ^ 16 : ℕ) : ℚ) .LocalBms :: outerPassesSpec 16 17 16).length =
      393 ∧
    computeNumberOfDispatches (2 ^ 32) (2 ^ 15) = -135 := by
  refine ⟨?_, ?_, ?_⟩
  · rw [outerLoop_char 32 16 16 17 100 (by norm_num) (by norm_num) (by norm_num)]
    rfl
  · rw [List.length_cons]
    have := outerPassesSpec_length 16 16 17 (by norm_num)
    omega
  · have h32 : clz32 (2 ^ 32) = 32 := by decide
    have h15 : clz32 (2 ^ 15) = 16 := by decide
    simp only [computeNumberOfDispatches, h32, h15]
    norm_num

/-- Claim C10, amended: for powers of two `paddedN = 2^K` with `K ≤ 31` and
`wgs = 2^w`, `2*wgs ≤ paddedN`, `wgc = paddedN/(2*wgs) ≤ 2*wgs`, the number of
scheduled passes equals `computeNumberOfDispatches(paddedN, wgs)`. -/
theorem c10_amended (dev : DeviceLimits) (kv n w K : ℕ)
    (hwgs : plannerWorkGroupSize dev kv n = (2 : ℚ) ^ w)
    (hN : nextPowerOfTwo n = 2 ^ K) (hwK : w + 1 ≤ K) (hK : K ≤ 31)
    (hwgc : K - w - 1 ≤ w + 1) :
    ∀ plan, sortPassPlan? dev kv n = some plan →
      (plan.length : ℚ) = computeNumberOfDispatches (2 ^ K) (2 ^ w) := by
  intro plan hplan
  rw [sortPassPlan_char dev kv n w K hwgs hN hwK] at hplan
  obtain rfl : sortPlanSpec w K (K - w - 1) = plan := by
    injection hplan
  have hlen := outerPassesSpec_length (K - w - 1) (K - w - 1) (w + 2) (by omega)
  have hKcl : clz32 (2 ^ K) = 31 - K := clz32_two_pow K hK
  have hwcl : clz32 (2 ^ w) = 31 - w := clz32_two_pow w (by omega)
  have hKc : ((31 - K : ℕ) : ℚ) = 31 - K := by
    rw [Nat.cast_sub (by omega)]
    norm_num
  have hwc : ((31 - w : ℕ) : ℚ) = 31 - w := by
    rw [Nat.cast_sub (by omega)]
    norm_num
  have hmc : ((K - w - 1 : ℕ) : ℚ) = (K : ℚ) - w - 1 := by
    rw [Nat.cast_sub (by omega), Nat.cast_sub (by omega)]
    norm_num
  have hf : 2 * (w + 2) + (K - w - 1) - 1 = 2 * w + (K - w - 1) + 3 := by omega
  rw [hf] at hlen
  have hlenc : 2 * (((outerPassesSpec (K - w - 1) (w + 2) (K - w - 1)).length : ℚ)) =
      ((K : ℚ) - w - 1) * (2 * (w : ℚ) + ((K : ℚ) - w - 1) + 3) := by
    have h1 := congrArg (fun t : ℕ => (t : ℚ)) hlen
    push_cast at h1
    rw [hmc] at h1
    linarith
  have hRHS : computeNumberOfDispatches (2 ^ K) (2 ^ w) =
      1 + ((K : ℚ) - w - 1) +
        ((K : ℚ) - w - 1) / 2 * (2 * ((w : ℚ) + 1) + ((K : ℚ) - w - 1) - 1) := by
    simp only [computeNumberOfDispatches, hKcl, hwcl]
    rw [hKc, hwc]
    ring
  rw [hRHS, sortPlanSpec, List.length_cons]
  push_cast
  linear_combination hlenc / 2

theorem c10_amended_witness :
    plannerWorkGroupSize ⟨256, 16384⟩ 4 1000 = (2 : ℚ) ^ 8 ∧
    nextPowerOfTwo 1000 = 2 ^ 10 ∧ 8 + 1 ≤ 10 ∧ 10 ≤ 31 ∧ 10 - 8 - 1 ≤ 8 + 1 ∧
    ((sortPlanSpec 8 10 (10 - 8 - 1)).length : ℚ) =
      computeNumberOfDispatches (2 ^ 10) (2 ^ 8) := by
  have h4 : nextPowerOfTwo 4 = 4 := by decide
  have h1000 : nextPowerOfTwo 1000 = 1024 := by decide
  have hw : plannerWorkGroupSize ⟨256, 16384⟩ 4 1000 = (2 : ℚ) ^ 8 := by
    unfold plannerWorkGroupSize
    rw [h4, h1000]
    norm_num [min_def]
  refine ⟨hw, by decide, by norm_num, by norm_num, by norm_num, ?_⟩
  exact c10_amended ⟨256, 16384⟩ 4 1000 8 10 hw (by decide) (by norm_num) (by norm_num)
    (by norm_num) (sortPlanSpec 8 10 (10 - 8 - 1))
    (sortPassPlan_char ⟨256, 16384⟩ 4 1000 8 10 hw (by decide) (by norm_num))

theorem lcas_eq_gcas {α : Type} (cmp : α → α → Bool) (n x y offset : ℕ) (a : ℕ → α) :
    lcas cmp n x y offset a = gcas cmp n (offset + x) (offset + y) a := rfl

theorem gpairsExec_append {α : Type} (cmp : α → α → Bool) (n : ℕ)
    (l1 l2 : List (ℕ × ℕ)) (a : ℕ → α) :
    gpairsExec cmp n (l1 ++ l2) a = gpairsExec cmp n l2 (gpairsExec cmp n l1 a) := by
  unfold gpairsExec
  rw [List.foldl_append]

theorem gpairsExec_bind {α β : Type} (cmp : α → α → Bool) (n : ℕ)
    (l : List β) (f : β → List (ℕ × ℕ)) (a : ℕ → α) :
    gpairsExec cmp n (l.bind f) a =
      l.foldl (fun b x => gpairsExec cmp n (f x) b) a := by
  induction l generalizing a with
  | nil => rfl
  | cons x xs ih =>
    have hb : (x :: xs).bind f = f x ++ xs.bind f := rfl
    rw [hb, gpairsExec_append, List.foldl_cons, ih]

theorem localFlipStage_eq_pairs {α : Type} (cmp : α → α → Bool) (n wgs h offset : ℕ)
    (a : ℕ → α) :
    localFlipStage cmp n wgs h offset a =
      gpairsExec cmp n (localFlipPairs wgs h offset) a := by
  unfold localFlipStage localFlipPairs gpairsExec
  rw [List.foldl_map]
  rfl

theorem localDispStage_eq_pairs {α : Type} (cmp : α → α → Bool) (n wgs d offset : ℕ)
    (a : ℕ → α) :
    localDisperseStage cmp n wgs d offset a =
      gpairsExec cmp n (localDispStagePairs wgs d offset) a := by
  unfold localDisperseStage localDispStagePairs gpairsExec
  rw [List.foldl_map]
  rfl

theorem localDisperseBlock_eq_pairs {α : Type} (cmp : α → α → Bool) (n wgs h offset : ℕ)
    (a : ℕ → α) :
    localDisperseBlock cmp n wgs h offset a =
      gpairsExec cmp n (localDisperseBlockPairs wgs h offset) a := by
  unfold localDisperseBlock localDisperseBlockPairs
  rw [gpairsExec_bind]
  have hfn : (fun (b : ℕ → α) d => localDisperseStage cmp n wgs d offset b) =
      fun b d => gpairsExec cmp n (localDispStagePairs wgs d offset) b := by
    funext b d
    exact localDispStage_eq_pairs cmp n wgs d offset b
  rw [hfn]

theorem localBmsBlock_eq_pairs {α : Type} (cmp : α → α → Bool) (n wgs h offset : ℕ)
    (a : ℕ → α) :
    localBmsBlock cmp n wgs h offset a =
      gpairsExec cmp n (localBmsBlockPairs wgs h offset) a := by
  unfold localBmsBlock localBmsBlockPairs
  rw [gpairsExec_bind]
  have hfn : (fun (b : ℕ → α) hh => localDisperseBlock cmp n wgs (hh / 2) offset
      (localFlipStage cmp n wgs hh offset b)) =
      fun b hh => gpairsExec cmp n
        (localFlipPairs wgs hh offset ++ localDisperseBlockPairs wgs (hh / 2) offset) b := by
    funext b hh
    rw [gpairsExec_append, localFlipStage_eq_pairs, localDisperseBlock_eq_pairs]
  rw [hfn]

theorem execPass_eq_pairs {α : Type} (cmp : α → α → Bool) (n wgs wgc h : ℕ)
    (alg : BitonicPassAlgorithm) (a : ℕ → α) :
    execPass cmp n wgs wgc a h alg = gpairsExec cmp n (passPairs wgs wgc h alg) a := by
  cases alg with
  | LocalBms =>
    show (List.range wgc).foldl
      (fun b wg => localBmsBlock cmp n wgs h (wgs * 2 * wg) b) a = _
    unfold passPairs
    rw [gpairsExec_bind]
    have hfn : (fun (b : ℕ → α) wg => localBmsBlock cmp n wgs h (wgs * 2 * wg) b) =
        fun b wg => gpairsExec cmp n (localBmsBlockPairs wgs h (wgs * 2 * wg)) b := by
      funext b wg
      exact localBmsBlock_eq_pairs cmp n wgs h _ b
    rw [hfn]
  | LocalDisperse =>
    show (List.range wgc).foldl
      (fun b wg => localDisperseBlock cmp n wgs h (wgs * 2 * wg) b) a = _
    unfold passPairs
    rw [gpairsExec_bind]
    have hfn : (fun (b : ℕ → α) wg => localDisperseBlock cmp n wgs h (wgs * 2 * wg) b) =
        fun b wg => gpairsExec cmp n (localDisperseBlockPairs wgs h (wgs * 2 * wg)) b := by
      funext b wg
      exact localDisperseBlock_eq_pairs cmp n wgs h _ b
    rw [hfn]
  | BigFlip =>
    show (List.range (wgs * wgc)).foldl (fun b tp => big_flip cmp n h tp b) a = _
    unfold passPairs bigFlipPairs gpairsExec
    rw [List.foldl_map]
    rfl
  | BigDisperse =>
    show (List.range (wgs * wgc)).foldl (fun b tp => big_disperse cmp n h tp b) a = _
    unfold passPairs bigDispersePairs gpairsExec
    rw [List.foldl_map]
    rfl

theorem execPlanN_eq_pairs {α : Type} (cmp : α → α → Bool) (n wgs wgc : ℕ)
    (plan : List (ℕ × BitonicPassAlgorithm)) (a : ℕ → α) :
    execPlanN cmp n wgs wgc plan a = gpairsExec cmp n (planPairs wgs wgc plan) a := by
  unfold execPlanN planPairs
  rw [gpairsExec_bind]
  have hfn : (fun (b : ℕ → α) (p : ℕ × BitonicPassAlgorithm) =>
      execPass cmp n wgs wgc b p.1 p.2) =
      fun b p => gpairsExec cmp n (passPairs wgs wgc p.1 p.2) b := by
    funext b p
    exact execPass_eq_pairs cmp n wgs wgc p.1 p.2 b
  rw [hfn]

theorem swOpt_none_right {α : Type} (cmp : α → α → Bool) (u : Option α) :
    swOpt cmp u none = false := by
  cases u <;> rfl

theorem pad_gcas {α : Type} (cmp : α → α → Bool) (n x y : ℕ) (hxy : x < y)
    (a : ℕ → α) :
    padArr n (gcas cmp n x y a) = ecas (swOpt cmp) x y (padArr n a) := by
  by_cases hy : n ≤ y
  · rw [gcas, if_pos (Or.inr hy)]
    have hpy : padArr n a y = none := by
      unfold padArr
      rw [if_neg (by omega)]
    rw [ecas, hpy, swOpt_none_right, if_neg (by simp)]
  · have hx : x < n := by omega
    have hy2 : y < n := by omega
    rw [gcas, if_neg (by omega)]
    have hpx : padArr n a x = some (a x) := by
      unfold padArr
      rw [if_pos hx]
    have hpy : padArr n a y = some (a y) := by
      unfold padArr
      rw [if_pos hy2]
    rw [ecas, hpx, hpy]
    show _ = if cmp (a y) (a x) then _ else _
    by_cases hc : cmp (a y) (a x)
    · rw [if_pos hc, if_pos hc]
      funext i
      by_cases hix : i = x
      · subst hix
        simp [padArr, hx, hy2]
      · by_cases hiy : i = y
        · subst hiy
          simp [padArr, hx, hy2, hix]
        · by_cases hin : i < n
          · simp [padArr, hin, hix, hiy]
          · simp [padArr, hin, hix, hiy]
    · rw [if_neg hc, if_neg hc]

theorem pad_gpairsExec {α : Type} (cmp : α → α → Bool) (n : ℕ) (prs : List (ℕ × ℕ))
    (hlt : ∀ p ∈ prs, p.1 < p.2) (a : ℕ → α) :
    padArr n (gpairsExec cmp n prs a) = casListExec (swOpt cmp) prs (padArr n a) := by
  induction prs generalizing a with
  | nil => rfl
  | cons p ps ih =>
    unfold gpairsExec casListExec
    rw [List.foldl_cons, List.foldl_cons]
    have h1 := pad_gcas cmp n p.1 p.2 (hlt p (by simp)) a
    show padArr n (gpairsExec cmp n ps (gcas cmp n p.1 p.2 a)) =
      casListExec (swOpt cmp) ps (ecas (swOpt cmp) p.1 p.2 (padArr n a))
    rw [← h1]
    exact ih (fun q hq => hlt q (by simp [hq])) _

theorem ecas_of_false {β : Type} (sw : β → β → Bool) (x y : ℕ) (b : ℕ → β)
    (h : sw (b x) (b y) = false) : ecas sw x y b = b := by
  unfold ecas
  rw [h]
  simp

theorem ecas_of_true {β : Type} (sw : β → β → Bool) (x y : ℕ) (b : ℕ → β)
    (h : sw (b x) (b y) = true) :
    ecas sw x y b = fun i => if i = x then b y else if i = y then b x else b i := by
  unfold ecas
  rw [h]
  simp

theorem ecas_transfer {β : Type} {sw : β → β → Bool} {R : β → β → Prop}
    (ord : CasOrder sw R) {g : β → Bool} (hg : MonoMap R g) (x y : ℕ) (b : ℕ → β) :
    (fun i => g (ecas sw x y b i)) = ecas sw01 x y (fun i => g (b i)) := by
  rcases Bool.eq_false_or_eq_true (sw (b x) (b y)) with hsw | hsw
  · -- swap case
    have hR : R (b y) (b x) := ord.swap_true _ _ hsw
    rw [ecas_of_true sw x y b hsw]
    rcases Bool.eq_false_or_eq_true (g (b x)) with hgx | hgx
    · -- g (b x) = true
      rcases Bool.eq_false_or_eq_true (g (b y)) with hgy | hgy
      · -- both true: invisible swap
        rw [ecas_of_false sw01 x y _ (by simp [sw01, hgy])]
        funext i
        by_cases hix : i = x
        · subst hix
          simp [hgx, hgy]
        · by_cases hiy : i = y
          · subst hiy
            simp [hix, hgx, hgy]
          · simp [hix, hiy]
      · -- (true, false): Boolean swap as well
        rw [ecas_of_true sw01 x y _ (by simp [sw01, hgx, hgy])]
        funext i
        by_cases hix : i = x
        · subst hix
          simp
        · by_cases hiy : i = y
          · subst hiy
            simp [hix]
          · simp [hix, hiy]
    · -- g (b x) = false, so by monotonicity g (b y) = false
      have hgy : g (b y) = false := by
        rcases Bool.eq_false_or_eq_true (g (b y)) with hgy | hgy
        · rw [hg _ _ hR hgy] at hgx
          cases hgx
        · exact hgy
      rw [ecas_of_false sw01 x y _ (by simp [sw01, hgx])]
      funext i
      by_cases hix : i = x
      · subst hix
        simp [hgx, hgy]
      · by_cases hiy : i = y
        · subst hiy
          simp [hix, hgx, hgy]
        · simp [hix, hiy]
  · -- no-swap case
    have hR : R (b x) (b y) := ord.swap_false _ _ hsw
    have h01 : sw01 (g (b x)) (g (b y)) = false := by
      rcases Bool.eq_false_or_eq_true (g (b x)) with hgx | hgx
      · have hgy := hg _ _ hR hgx
        simp [sw01, hgy]
      · simp [sw01, hgx]
    rw [ecas_of_false sw x y b hsw, ecas_of_false sw01 x y _ h01]

theorem casListExec_transfer {β : Type} {sw : β → β → Bool} {R : β → β → Prop}
    (ord : CasOrder sw R) {g : β → Bool} (hg : MonoMap R g) (prs : List (ℕ × ℕ))
    (b : ℕ → β) :
    (fun i => g (casListExec sw prs b i)) =
      casListExec sw01 prs (fun i => g (b i)) := by
  induction prs generalizing b with
  | nil => rfl
  | cons p ps ih =>
    unfold casListExec
    rw [List.foldl_cons, List.foldl_cons]
    show (fun i => g (casListExec sw ps (ecas sw p.1 p.2 b) i)) =
      casListExec sw01 ps (ecas sw01 p.1 p.2 (fun i => g (b i)))
    rw [ih (ecas sw p.1 p.2 b), ecas_transfer ord hg]

theorem mem_pairPositions_fst {prs : List (ℕ × ℕ)} {p : ℕ × ℕ} (hp : p ∈ prs) :
    p.1 ∈ pairPositions prs := by
  unfold pairPositions
  rw [List.mem_bind]
  exact ⟨p, hp, by simp⟩

theorem mem_pairPositions_snd {prs : List (ℕ × ℕ)} {p : ℕ × ℕ} (hp : p ∈ prs) :
    p.2 ∈ pairPositions prs := by
  unfold pairPositions
  rw [List.mem_bind]
  exact ⟨p, hp, by simp⟩

theorem ecas_apply_ne {β : Type} (sw : β → β → Bool) (x y i : ℕ) (b : ℕ → β)
    (hix : i ≠ x) (hiy : i ≠ y) : ecas sw x y b i = b i := by
  unfold ecas
  rcases Bool.eq_false_or_eq_true (sw (b x) (b y)) with hsw | hsw
  · rw [hsw]
    simp [hix, hiy]
  · rw [hsw]
    simp [hix, hiy]

theorem ecas_apply_fst {β : Type} (sw : β → β → Bool) (x y : ℕ) (b : ℕ → β) :
    ecas sw x y b x = if sw (b x) (b y) then b y else b x := by
  unfold ecas
  rcases Bool.eq_false_or_eq_true (sw (b x) (b y)) with hsw | hsw
  · rw [hsw]
    simp
  · rw [hsw]
    simp

theorem ecas_apply_snd {β : Type} (sw : β → β → Bool) (x y : ℕ) (b : ℕ → β)
    (hxy : x ≠ y) :
    ecas sw x y b y = if sw (b x) (b y) then b x else b y := by
  unfold ecas
  rcases Bool.eq_false_or_eq_true (sw (b x) (b y)) with hsw | hsw
  · rw [hsw]
    simp [Ne.symm hxy]
  · rw [hsw]
    simp [Ne.symm hxy]

theorem casListExec_eval {β : Type} (sw : β → β → Bool) :
    ∀ (prs : List (ℕ × ℕ)) (b : ℕ → β), (pairPositions prs).Nodup →
      (∀ i, i ∉ pairPositions prs → casListExec sw prs b i = b i) ∧
      (∀ p ∈ prs,
        casListExec sw prs b p.1 = (if sw (b p.1) (b p.2) then b p.2 else b p.1) ∧
        casListExec sw prs b p.2 = (if sw (b p.1) (b p.2) then b p.1 else b p.2)) := by
  intro prs
  induction prs with
  | nil =>
    intro b _
    exact ⟨fun i _ => rfl, fun p hp => absurd hp (List.not_mem_nil p)⟩
  | cons q ps ih =>
    intro b hnd
    have hpp : pairPositions (q :: ps) = q.1 :: q.2 :: pairPositions ps := rfl
    rw [hpp, List.nodup_cons, List.nodup_cons] at hnd
    obtain ⟨hq1, hq2, hps⟩ := hnd
    have hq12 : q.1 ≠ q.2 := fun h => hq1 (by rw [h]; simp)
    have hq1ps : q.1 ∉ pairPositions ps := fun h => hq1 (by simp [h])
    obtain ⟨ih1, ih2⟩ := ih (ecas sw q.1 q.2 b) hps
    have hstep : ∀ i, casListExec sw (q :: ps) b i =
        casListExec sw ps (ecas sw q.1 q.2 b) i := fun i => rfl
    have hb'eq : ∀ i, i ≠ q.1 → i ≠ q.2 → ecas sw q.1 q.2 b i = b i :=
      fun i h1 h2 => ecas_apply_ne sw q.1 q.2 i b h1 h2
    refine ⟨?_, ?_⟩
    · intro i hi
      rw [hpp] at hi
      simp only [List.mem_cons] at hi
      push_neg at hi
      obtain ⟨hi1, hi2, hi3⟩ := hi
      rw [hstep, ih1 i hi3, hb'eq i hi1 hi2]
    · intro p hp
      rcases List.mem_cons.mp hp with rfl | hp2
      · constructor
        · rw [hstep, ih1 p.1 hq1ps, ecas_apply_fst]
        · rw [hstep, ih1 p.2 hq2, ecas_apply_snd sw p.1 p.2 b hq12]
      · obtain ⟨h1, h2⟩ := ih2 p hp2
        have hne1 : p.1 ≠ q.1 := fun h => hq1ps (h ▸ mem_pairPositions_fst hp2)
        have hne2 : p.1 ≠ q.2 := fun h => hq2 (h ▸ mem_pairPositions_fst hp2)
        have hne3 : p.2 ≠ q.1 := fun h => hq1ps (h ▸ mem_pairPositions_snd hp2)
        have hne4 : p.2 ≠ q.2 := fun h => hq2 (h ▸ mem_pairPositions_snd hp2)
        constructor
        · rw [hstep, h1, hb'eq p.1 hne1 hne2, hb'eq p.2 hne3 hne4]
        · rw [hstep, h2, hb'eq p.1 hne1 hne2, hb'eq p.2 hne3 hne4]

theorem window_pos_lt {d A B a b : ℕ} (ha : a < d) (hAB : A < B) :
    d * A + a < d * B + b := by
  have h2 : d * (A + 1) ≤ d * B := Nat.mul_le_mul_left d hAB
  rw [Nat.mul_succ] at h2
  omega

theorem pairPositions_map {T : ℕ} (f g : ℕ → ℕ) :
    pairPositions ((List.range T).map fun t => (f t, g t)) =
      (List.range T).bind fun t => [f t, g t] := by
  unfold pairPositions
  exact List.bind_map _ _ _

theorem mem_pairPositions_map {f g : ℕ → ℕ} {T i : ℕ} :
    i ∈ pairPositions ((List.range T).map fun t => (f t, g t)) ↔
      ∃ t, t < T ∧ (i = f t ∨ i = g t) := by
  rw [pairPositions_map]
  rw [List.mem_bind]
  constructor
  · rintro ⟨t, ht, hmem⟩
    rw [List.mem_range] at ht
    simp only [List.mem_cons, List.not_mem_nil, or_false] at hmem
    exact ⟨t, ht, hmem⟩
  · rintro ⟨t, ht, hmem⟩
    exact ⟨t, List.mem_range.mpr ht, by simpa using hmem⟩

theorem nodup_pairPositions_map {f g : ℕ → ℕ} {T : ℕ}
    (hne : ∀ t, t < T → f t ≠ g t)
    (hdisj : ∀ t t', t < t' → t' < T →
      f t ≠ f t' ∧ f t ≠ g t' ∧ g t ≠ f t' ∧ g t ≠ g t') :
    (pairPositions ((List.range T).map fun t => (f t, g t))).Nodup := by
  rw [pairPositions_map, List.nodup_bind]
  constructor
  · intro t ht
    rw [List.mem_range] at ht
    simp [hne t ht]
  · apply (List.pairwise_lt_range T).imp_of_mem
    intro t t' ht ht' hlt
    rw [List.mem_range] at ht ht'
    obtain ⟨h1, h2, h3, h4⟩ := hdisj t t' hlt ht'
    intro a ha hb
    simp only [List.mem_cons, List.not_mem_nil, or_false] at ha hb
    rcases ha with rfl | rfl <;> rcases hb with h | h <;> simp_all

theorem sw01_lower (u v : Bool) : (if sw01 u v then v else u) = (u && v) := by
  cases u <;> cases v <;> rfl

theorem sw01_upper (u v : Bool) : (if sw01 u v then u else v) = (u || v) := by
  cases u <;> cases v <;> rfl

theorem offsetWindowPairs_eval (hf W0 Wn : ℕ) (g0 : ℕ → ℕ) (hhf : 0 < hf)
    (hg0 : ∀ r, r < hf → hf ≤ g0 r ∧ g0 r < 2 * hf)
    (hg0inj : ∀ r r', r < hf → r' < hf → r ≠ r' → g0 r ≠ g0 r')
    (c : ℕ → Bool) :
    (∀ i, i < 2 * hf * W0 ∨ 2 * hf * (W0 + Wn) ≤ i →
      casListExec sw01 (offsetWindowPairs hf W0 Wn g0) c i = c i) ∧
    (∀ W r, W0 ≤ W → W < W0 + Wn → r < hf →
      casListExec sw01 (offsetWindowPairs hf W0 Wn g0) c (2 * hf * W + r) =
        (c (2 * hf * W + r) && c (2 * hf * W + g0 r)) ∧
      casListExec sw01 (offsetWindowPairs hf W0 Wn g0) c (2 * hf * W + g0 r) =
        (c (2 * hf * W + r) || c (2 * hf * W + g0 r))) := by
  have hlist : offsetWindowPairs hf W0 Wn g0 =
      (List.range (Wn * hf)).map fun t =>
        ((fun t => 2 * hf * (W0 + t / hf) + t % hf) t,
         (fun t => 2 * hf * (W0 + t / hf) + g0 (t % hf)) t) := rfl
  set F : ℕ → ℕ := fun t => 2 * hf * (W0 + t / hf) + t % hf with hF
  set G : ℕ → ℕ := fun t => 2 * hf * (W0 + t / hf) + g0 (t % hf) with hG
  have hmodlt : ∀ t : ℕ, t % hf < hf := fun t => Nat.mod_lt t hhf
  have hnd : (pairPositions ((List.range (Wn * hf)).map fun t => (F t, G t))).Nodup := by
    apply nodup_pairPositions_map
    · intro t ht
      have h1 := hmodlt t
      have h2 := (hg0 (t % hf) h1).1
      show 2 * hf * (W0 + t / hf) + t % hf ≠ 2 * hf * (W0 + t / hf) + g0 (t % hf)
      omega
    · intro t t' hlt ht'
      have hr := hmodlt t
      have hr' := hmodlt t'
      have hg1 := hg0 (t % hf) hr
      have hg2 := hg0 (t' % hf) hr'
      have hdle : t / hf ≤ t' / hf := Nat.div_le_div_right (le_of_lt hlt)
      rcases Nat.lt_or_ge (t / hf) (t' / hf) with hdlt | hdge
      · have hWlt : W0 + t / hf < W0 + t' / hf := by omega
        refine ⟨?_, ?_, ?_, ?_⟩
        · exact Nat.ne_of_lt (window_pos_lt (by omega) hWlt)
        · exact Nat.ne_of_lt (window_pos_lt (by omega) hWlt)
        · exact Nat.ne_of_lt (window_pos_lt (by omega) hWlt)
        · exact Nat.ne_of_lt (window_pos_lt (by omega) hWlt)
      · have hdeq : t' / hf = t / hf := by omega
        have ht1 : t % hf + hf * (t / hf) = t := Nat.mod_add_div t hf
        have ht2 : t' % hf + hf * (t / hf) = t' := by
          rw [← hdeq]
          exact Nat.mod_add_div t' hf
        have hrlt : t % hf < t' % hf := by omega
        have hginj : g0 (t % hf) ≠ g0 (t' % hf) := hg0inj _ _ hr hr' (by omega)
        show 2 * hf * (W0 + t / hf) + t % hf ≠ 2 * hf * (W0 + t' / hf) + t' % hf ∧
          2 * hf * (W0 + t / hf) + t % hf ≠ 2 * hf * (W0 + t' / hf) + g0 (t' % hf) ∧
          2 * hf * (W0 + t / hf) + g0 (t % hf) ≠ 2 * hf * (W0 + t' / hf) + t' % hf ∧
          2 * hf * (W0 + t / hf) + g0 (t % hf) ≠ 2 * hf * (W0 + t' / hf) + g0 (t' % hf)
        rw [hdeq]
        omega
  obtain ⟨core1, core2⟩ := casListExec_eval sw01 _ c hnd
  constructor
  · intro i hout
    rw [hlist]
    apply core1
    rw [mem_pairPositions_map]
    rintro ⟨t, ht, hi⟩
    have hr := hmodlt t
    have hglo : W0 ≤ W0 + t / hf := Nat.le_add_right _ _
    have hdlt : t / hf < Wn := Nat.div_lt_of_lt_mul (by rw [Nat.mul_comm] at ht; exact ht)
    have hlb : 2 * hf * W0 ≤ 2 * hf * (W0 + t / hf) := Nat.mul_le_mul_left _ hglo
    have hub : 2 * hf * (W0 + t / hf) + (2 * hf - 1) < 2 * hf * (W0 + Wn) + 0 :=
      window_pos_lt (by omega) (by omega)
    have hgb := hg0 (t % hf) hr
    have hFe : F t = 2 * hf * (W0 + t / hf) + t % hf := rfl
    have hGe : G t = 2 * hf * (W0 + t / hf) + g0 (t % hf) := rfl
    rcases hi with rfl | rfl
    · omega
    · omega
  · intro W r hW1 hW2 hr
    set t : ℕ := r + (W - W0) * hf with htdef
    have ht : t < Wn * hf := by
      have h1 : t < (W - W0 + 1) * hf := by
        rw [Nat.succ_mul]
        omega
      have h2 : (W - W0 + 1) * hf ≤ Wn * hf := Nat.mul_le_mul_right hf (by omega)
      omega
    have hdiv : t / hf = W - W0 := by
      rw [htdef, Nat.add_mul_div_right _ _ hhf, Nat.div_eq_of_lt hr]
      omega
    have hmod : t % hf = r := by
      rw [htdef, Nat.add_mul_mod_self_right, Nat.mod_eq_of_lt hr]
    have hFt : F t = 2 * hf * W + r := by
      show 2 * hf * (W0 + t / hf) + t % hf = 2 * hf * W + r
      rw [hdiv, hmod, show W0 + (W - W0) = W by omega]
    have hGt : G t = 2 * hf * W + g0 r := by
      show 2 * hf * (W0 + t / hf) + g0 (t % hf) = 2 * hf * W + g0 r
      rw [hdiv, hmod, show W0 + (W - W0) = W by omega]
    have hpmem : (F t, G t) ∈ (List.range (Wn * hf)).map fun t => (F t, G t) :=
      List.mem_map.mpr ⟨t, List.mem_range.mpr ht, rfl⟩
    obtain ⟨hc1, hc2⟩ := core2 (F t, G t) hpmem
    constructor
    · rw [hlist, ← hFt, ← hGt]
      rw [hc1, sw01_lower]
    · rw [hlist, ← hFt, ← hGt]
      rw [hc2, sw01_upper]

theorem dispWindowPairs_eval (hf W0 Wn : ℕ) (hhf : 0 < hf) (c : ℕ → Bool) :
    (∀ i, i < 2 * hf * W0 ∨ 2 * hf * (W0 + Wn) ≤ i →
      casListExec sw01 (dispWindowPairs hf W0 Wn) c i = c i) ∧
    (∀ W r, W0 ≤ W → W < W0 + Wn → r < hf →
      casListExec sw01 (dispWindowPairs hf W0 Wn) c (2 * hf * W + r) =
        (c (2 * hf * W + r) && c (2 * hf * W + (hf + r))) ∧
      casListExec sw01 (dispWindowPairs hf W0 Wn) c (2 * hf * W + (hf + r)) =
        (c (2 * hf * W + r) || c (2 * hf * W + (hf + r)))) :=
  offsetWindowPairs_eval hf W0 Wn _ hhf
    (fun r hr => ⟨Nat.le_add_right _ _, by omega⟩)
    (fun r r' _ _ hne => by omega) c

theorem flipWindowPairs_eval (hf W0 Wn : ℕ) (hhf : 0 < hf) (c : ℕ → Bool) :
    (∀ i, i < 2 * hf * W0 ∨ 2 * hf * (W0 + Wn) ≤ i →
      casListExec sw01 (flipWindowPairs hf W0 Wn) c i = c i) ∧
    (∀ W r, W0 ≤ W → W < W0 + Wn → r < hf →
      casListExec sw01 (flipWindowPairs hf W0 Wn) c (2 * hf * W + r) =
        (c (2 * hf * W + r) && c (2 * hf * W + (2 * hf - 1 - r))) ∧
      casListExec sw01 (flipWindowPairs hf W0 Wn) c (2 * hf * W + (2 * hf - 1 - r)) =
        (c (2 * hf * W + r) || c (2 * hf * W + (2 * hf - 1 - r)))) :=
  offsetWindowPairs_eval hf W0 Wn _ hhf
    (fun r hr => ⟨by omega, by omega⟩)
    (fun r r' hr hr' hne => by omega) c

/-! ## Locality of pair-list execution -/

theorem casListExec_out {β : Type} (sw : β → β → Bool) (prs : List (ℕ × ℕ)) (lo hi : ℕ)
    (hin : ∀ p ∈ prs, lo ≤ p.1 ∧ p.1 < hi ∧ lo ≤ p.2 ∧ p.2 < hi) :
    ∀ (c : ℕ → β) (i : ℕ), i < lo ∨ hi ≤ i → casListExec sw prs c i = c i := by
  induction prs with
  | nil => intro c i _; rfl
  | cons p ps ih =>
    intro c i hout
    obtain ⟨h1, h2, h3, h4⟩ := hin p (by simp)
    show casListExec sw ps (ecas sw p.1 p.2 c) i = c i
    rw [ih (fun q hq => hin q (by simp [hq])) _ i hout,
      ecas_apply_ne sw p.1 p.2 i c (by omega) (by omega)]

theorem casListExec_congrOn {β : Type} (sw : β → β → Bool) (prs : List (ℕ × ℕ))
    (lo hi : ℕ) (hin : ∀ p ∈ prs, lo ≤ p.1 ∧ p.1 < hi ∧ lo ≤ p.2 ∧ p.2 < hi) :
    ∀ (c c' : ℕ → β), (∀ i, lo ≤ i → i < hi → c i = c' i) →
      ∀ i, lo ≤ i → i < hi → casListExec sw prs c i = casListExec sw prs c' i := by
  induction prs with
  | nil => intro c c' hagree i hi1 hi2; exact hagree i hi1 hi2
  | cons p ps ih =>
    intro c c' hagree i hi1 hi2
    obtain ⟨h1, h2, h3, h4⟩ := hin p (by simp)
    show casListExec sw ps (ecas sw p.1 p.2 c) i = casListExec sw ps (ecas sw p.1 p.2 c') i
    apply ih (fun q hq => hin q (by simp [hq]))
    · intro j hj1 hj2
      have hswe : sw (c p.1) (c p.2) = sw (c' p.1) (c' p.2) := by
        rw [hagree p.1 h1 h2, hagree p.2 h3 h4]
      unfold ecas
      rw [← hswe]
      rcases Bool.eq_false_or_eq_true (sw (c p.1) (c p.2)) with hsw | hsw
      · rw [hsw]
        simp only [if_true]
        by_cases hj : j = p.1
        · simp [hj, hagree p.2 h3 h4]
        · by_cases hj' : j = p.2
          · have hpp : ¬ p.2 = p.1 := fun h => hj (hj'.trans h)
            simp [hj, hj', hpp, hagree p.1 h1 h2]
          · simp [hj, hj', hagree j hj1 hj2]
      · rw [hsw]
        simp only [Bool.false_eq_true, if_false]
        exact hagree j hj1 hj2
    · exact hi1
    · exact hi2

theorem casListExec_blocks {β : Type} (sw : β → β → Bool) (P : ℕ → List (ℕ × ℕ)) (L : ℕ)
    (hP : ∀ wg, ∀ p ∈ P wg,
      L * wg ≤ p.1 ∧ p.1 < L * (wg + 1) ∧ L * wg ≤ p.2 ∧ p.2 < L * (wg + 1)) :
    ∀ (M : ℕ) (c : ℕ → β),
      (∀ wg, wg < M → ∀ i, L * wg ≤ i → i < L * (wg + 1) →
        ((List.range M).foldl (fun b w => casListExec sw (P w) b) c) i =
          casListExec sw (P wg) c i) ∧
      (∀ i, L * M ≤ i →
        ((List.range M).foldl (fun b w => casListExec sw (P w) b) c) i = c i) := by
  intro M
  induction M with
  | zero =>
    intro c
    exact ⟨fun wg hwg => absurd hwg (by omega), fun i _ => rfl⟩
  | succ M ih =>
    intro c
    have hsplit : (List.range (M + 1)).foldl (fun b w => casListExec sw (P w) b) c =
        casListExec sw (P M) ((List.range M).foldl (fun b w => casListExec sw (P w) b) c) := by
      rw [List.range_succ, List.foldl_append, List.foldl_cons, List.foldl_nil]
    obtain ⟨ih1, ih2⟩ := ih c
    constructor
    · intro wg hwg i hi1 hi2
      rcases Nat.lt_or_ge wg M with hlt | hge
      · rw [hsplit]
        have hiM : i < L * M := by
          have : L * (wg + 1) ≤ L * M := Nat.mul_le_mul_left L (by omega)
          omega
        rw [casListExec_out sw (P M) (L * M) (L * (M + 1)) (hP M) _ i (Or.inl hiM)]
        exact ih1 wg hlt i hi1 hi2
      · have hwgM : wg = M := by omega
        rw [hsplit, hwgM]
        exact casListExec_congrOn sw (P M) (L * M) (L * (M + 1)) (hP M) _ c
          (fun j hj1 _ => ih2 j hj1) i (hwgM ▸ hi1) (hwgM ▸ hi2)
    · intro i hi
      rw [hsplit,
        casListExec_out sw (P M) (L * M) (L * (M + 1)) (hP M) _ i (Or.inr hi)]
      have : L * M ≤ L * (M + 1) := Nat.mul_le_mul_left L (by omega)
      exact ih2 i (by omega)

/-! ## Kernel pair lists in canonical window form -/

theorem bigFlipPairs_eq (e Wn : ℕ) :
    bigFlipPairs (2 ^ (e + 1)) (Wn * 2 ^ e) = flipWindowPairs (2 ^ e) 0 Wn := by
  unfold bigFlipPairs flipWindowPairs offsetWindowPairs
  apply List.map_congr_left
  intro t _
  have hpos : 0 < (2 : ℕ) ^ e := Nat.pos_pow_of_pos e (by norm_num)
  have hh2 : (2 : ℕ) ^ (e + 1) = 2 * 2 ^ e := by rw [pow_succ]; ring
  have hq : 2 * t / 2 ^ (e + 1) = t / 2 ^ e := by
    rw [hh2, Nat.mul_div_mul_left t (2 ^ e) (by norm_num)]
  have hr : (2 : ℕ) ^ (e + 1) / 2 = 2 ^ e := by rw [hh2, Nat.mul_div_cancel_left _ (by norm_num)]
  have hmod : t % 2 ^ e < 2 ^ e := Nat.mod_lt t hpos
  rw [hq, hr]
  have hmul : t / 2 ^ e * 2 ^ (e + 1) = 2 * 2 ^ e * (0 + t / 2 ^ e) := by
    rw [hh2]; ring
  simp only [Prod.mk.injEq]
  omega

theorem bigDispersePairs_eq (e Wn : ℕ) :
    bigDispersePairs (2 ^ (e + 1)) (Wn * 2 ^ e) = dispWindowPairs (2 ^ e) 0 Wn := by
  unfold bigDispersePairs dispWindowPairs offsetWindowPairs
  apply List.map_congr_left
  intro t _
  have hh2 : (2 : ℕ) ^ (e + 1) = 2 * 2 ^ e := by rw [pow_succ]; ring
  have hq : 2 * t / 2 ^ (e + 1) = t / 2 ^ e := by
    rw [hh2, Nat.mul_div_mul_left t (2 ^ e) (by norm_num)]
  have hr : (2 : ℕ) ^ (e + 1) / 2 = 2 ^ e := by rw [hh2, Nat.mul_div_cancel_left _ (by norm_num)]
  have hpos : 0 < (2 : ℕ) ^ e := Nat.pos_pow_of_pos e (by norm_num)
  have hmod : t % 2 ^ e < 2 ^ e := Nat.mod_lt t hpos
  rw [hq, hr]
  have hmul : t / 2 ^ e * 2 ^ (e + 1) = 2 * 2 ^ e * (0 + t / 2 ^ e) := by
    rw [hh2]; ring
  simp only [Prod.mk.injEq]
  omega

theorem localFlipPairs_eq (e wgs offset : ℕ) (hoff : 2 ^ (e + 1) ∣ offset)
    (hwgs : 2 ^ e ∣ wgs) :
    localFlipPairs wgs (2 ^ (e + 1)) offset =
      flipWindowPairs (2 ^ e) (offset / 2 ^ (e + 1)) (wgs / 2 ^ e) := by
  unfold localFlipPairs flipWindowPairs offsetWindowPairs
  rw [Nat.div_mul_cancel hwgs]
  apply List.map_congr_left
  intro t _
  have hh2 : (2 : ℕ) ^ (e + 1) = 2 * 2 ^ e := by rw [pow_succ]; ring
  have hq : 2 * t / 2 ^ (e + 1) = t / 2 ^ e := by
    rw [hh2, Nat.mul_div_mul_left t (2 ^ e) (by norm_num)]
  have hr : (2 : ℕ) ^ (e + 1) / 2 = 2 ^ e := by rw [hh2, Nat.mul_div_cancel_left _ (by norm_num)]
  rw [hq, hr]
  have hoffm : 2 * 2 ^ e * (offset / 2 ^ (e + 1)) = offset := by
    rw [← hh2]
    exact Nat.mul_div_cancel' hoff
  have hpos : 0 < (2 : ℕ) ^ e := Nat.pos_pow_of_pos e (by norm_num)
  have hmod : t % 2 ^ e < 2 ^ e := Nat.mod_lt t hpos
  have hdist : 2 * 2 ^ e * (offset / 2 ^ (e + 1) + t / 2 ^ e) =
      offset + 2 ^ (e + 1) * (t / 2 ^ e) := by
    rw [Nat.mul_add, hoffm, ← hh2]
  simp only [Prod.mk.injEq]
  omega

theorem localDispStagePairs_eq (e wgs offset : ℕ) (hoff : 2 ^ (e + 1) ∣ offset)
    (hwgs : 2 ^ e ∣ wgs) :
    localDispStagePairs wgs (2 ^ (e + 1)) offset =
      dispWindowPairs (2 ^ e) (offset / 2 ^ (e + 1)) (wgs / 2 ^ e) := by
  unfold localDispStagePairs dispWindowPairs offsetWindowPairs
  rw [Nat.div_mul_cancel hwgs]
  apply List.map_congr_left
  intro t _
  have hh2 : (2 : ℕ) ^ (e + 1) = 2 * 2 ^ e := by rw [pow_succ]; ring
  have hq : 2 * t / 2 ^ (e + 1) = t / 2 ^ e := by
    rw [hh2, Nat.mul_div_mul_left t (2 ^ e) (by norm_num)]
  have hr : (2 : ℕ) ^ (e + 1) / 2 = 2 ^ e := by rw [hh2, Nat.mul_div_cancel_left _ (by norm_num)]
  rw [hq, hr]
  have hoffm : 2 * 2 ^ e * (offset / 2 ^ (e + 1)) = offset := by
    rw [← hh2]
    exact Nat.mul_div_cancel' hoff
  have hpos : 0 < (2 : ℕ) ^ e := Nat.pos_pow_of_pos e (by norm_num)
  have hmod : t % 2 ^ e < 2 ^ e := Nat.mod_lt t hpos
  have hdist : 2 * 2 ^ e * (offset / 2 ^ (e + 1) + t / 2 ^ e) =
      offset + 2 ^ (e + 1) * (t / 2 ^ e) := by
    rw [Nat.mul_add, hoffm, ← hh2]
  simp only [Prod.mk.injEq]
  omega

/-! ## Structure of the stage and level lists at powers of two -/

theorem stageListAux_fuel : ∀ fuel fuel' d, d < fuel → d < fuel' →
    stageListAux fuel d = stageListAux fuel' d := by
  intro fuel
  induction fuel with
  | zero => intro fuel' d h; omega
  | succ f ih =>
    intro fuel' d hd hd'
    obtain ⟨f', rfl⟩ : ∃ g, fuel' = g + 1 := ⟨fuel' - 1, by omega⟩
    by_cases h1 : 1 < d
    · have hhalf : d / 2 < d := Nat.div_lt_self (by omega) (by norm_num)
      rw [stageListAux, stageListAux, if_pos h1, if_pos h1,
        ih f' (d / 2) (by omega) (by omega)]
    · rw [stageListAux, stageListAux, if_neg h1, if_neg h1]

theorem stageList_pow (e : ℕ) : stageList (2 ^ (e + 1)) = 2 ^ (e + 1) :: stageList (2 ^ e) := by
  have hpos : 0 < (2 : ℕ) ^ e := Nat.pos_pow_of_pos e (by norm_num)
  have hh2 : (2 : ℕ) ^ (e + 1) = 2 * 2 ^ e := by rw [pow_succ]; ring
  have h1 : 1 < (2 : ℕ) ^ (e + 1) := by omega
  unfold stageList
  rw [stageListAux, if_pos h1]
  congr 1
  have hhalf : (2 : ℕ) ^ (e + 1) / 2 = 2 ^ e := by
    rw [hh2, Nat.mul_div_cancel_left _ (by norm_num)]
  rw [hhalf]
  exact stageListAux_fuel _ _ _ (by omega) (by omega)

theorem levelListAux_pow : ∀ k fuel s m, m + 1 - s = k → 1 ≤ s → k < fuel →
    levelListAux fuel (2 ^ s) (2 ^ m) = (List.range k).map fun l => 2 ^ (s + l) := by
  intro k
  induction k with
  | zero =>
    intro fuel s m hk hs hfuel
    obtain ⟨f, rfl⟩ : ∃ g, fuel = g + 1 := ⟨fuel - 1, by omega⟩
    have hgt : ¬ ((2 : ℕ) ^ s ≤ 2 ^ m) := by
      intro hle
      have := (Nat.pow_le_pow_iff_right (by norm_num : 1 < 2)).mp hle
      omega
    rw [levelListAux, if_neg hgt]
    rfl
  | succ k ih =>
    intro fuel s m hk hs hfuel
    obtain ⟨f, rfl⟩ : ∃ g, fuel = g + 1 := ⟨fuel - 1, by omega⟩
    have hle : (2 : ℕ) ^ s ≤ 2 ^ m :=
      Nat.pow_le_pow_right (by norm_num) (by omega)
    rw [levelListAux, if_pos hle]
    have hmul : (2 : ℕ) ^ s * 2 = 2 ^ (s + 1) := by rw [pow_succ]
    rw [hmul, ih f (s + 1) m (by omega) (by omega) (by omega)]
    rw [List.range_succ_eq_map, List.map_cons, List.map_map]
    congr 1
    apply List.map_congr_left
    intro l _
    show 2 ^ (s + 1 + l) = 2 ^ (s + (l + 1))
    congr 1
    omega

theorem levelList_pow (m : ℕ) :
    levelList (2 ^ m) = (List.range m).map fun l => 2 ^ (l + 1) := by
  have h := levelListAux_pow m (2 ^ m + 1) 1 m (by omega) (by omega)
    (by have := Nat.lt_two_pow m; omega)
  rw [show (2 : ℕ) ^ 1 = 2 from rfl] at h
  unfold levelList
  rw [h]
  apply List.map_congr_left
  intro l _
  congr 1
  omega

theorem sortedOn_threshold {c : ℕ → Bool} {o d : ℕ} (hs : SortedOn c o d) :
    ∃ t, o ≤ t ∧ t ≤ o + d ∧ ∀ i, o ≤ i → i < o + d → (c i = true ↔ t ≤ i) := by
  by_cases hex : ∃ i, o ≤ i ∧ i < o + d ∧ c i = true
  · haveI : DecidablePred fun i => o ≤ i ∧ i < o + d ∧ c i = true :=
      fun i => Classical.propDecidable _
    obtain ⟨h1, h2, h3⟩ := Nat.find_spec hex
    refine ⟨Nat.find hex, h1, by omega, ?_⟩
    intro i hi1 hi2
    constructor
    · intro hci
      exact Nat.find_min' hex ⟨hi1, hi2, hci⟩
    · intro hti
      exact hs (Nat.find hex) i h1 hti hi2 h3
  · push_neg at hex
    refine ⟨o + d, by omega, le_refl _, ?_⟩
    intro i hi1 hi2
    constructor
    · intro hci
      exact absurd hci (hex i hi1 hi2)
    · intro h
      omega

theorem threshold_sortedOn {c : ℕ → Bool} {o d t : ℕ}
    (ht : ∀ i, o ≤ i → i < o + d → (c i = true ↔ t ≤ i)) : SortedOn c o d := by
  intro i j h1 h2 h3 hci
  rw [ht j (by omega) h3]
  rw [ht i h1 (by omega)] at hci
  omega

theorem sortedOn_bitonic {c : ℕ → Bool} {o d : ℕ} (hs : SortedOn c o d) :
    BitonicOn c o d := by
  obtain ⟨t, _, _, ht⟩ := sortedOn_threshold hs
  exact Or.inl ⟨t, o + d, fun i h1 h2 => by rw [ht i h1 h2]; omega⟩

theorem intervalOn_norm {c : ℕ → Bool} {o d : ℕ} (h : IntervalOn c o d) :
    ∃ p q, o ≤ p ∧ p ≤ q ∧ q ≤ o + d ∧
      ∀ i, o ≤ i → i < o + d → (c i = true ↔ (p ≤ i ∧ i < q)) := by
  obtain ⟨p0, q0, h0⟩ := h
  by_cases hex : ∃ i, o ≤ i ∧ i < o + d ∧ c i = true
  · obtain ⟨i0, hi1, hi2, hi3⟩ := hex
    have hi4 := (h0 i0 hi1 hi2).mp hi3
    refine ⟨max p0 o, min q0 (o + d), by omega, by omega, by omega, ?_⟩
    intro i h1 h2
    rw [h0 i h1 h2]
    omega
  · push_neg at hex
    refine ⟨o, o, le_refl _, le_refl _, by omega, ?_⟩
    intro i h1 h2
    constructor
    · intro hci
      exact absurd hci (hex i h1 h2)
    · intro h
      omega

theorem coIntervalOn_norm {c : ℕ → Bool} {o d : ℕ} (h : CoIntervalOn c o d) :
    ∃ p q, o ≤ p ∧ p ≤ q ∧ q ≤ o + d ∧
      ∀ i, o ≤ i → i < o + d → (c i = true ↔ ¬(p ≤ i ∧ i < q)) := by
  obtain ⟨p0, q0, h0⟩ := h
  by_cases hex : ∃ i, o ≤ i ∧ i < o + d ∧ c i = false
  · obtain ⟨i0, hi1, hi2, hi3⟩ := hex
    have hi4 : ¬ (c i0 = true) := by rw [hi3]; simp
    rw [h0 i0 hi1 hi2] at hi4
    push_neg at hi4
    refine ⟨max p0 o, min q0 (o + d), by omega, by omega, by omega, ?_⟩
    intro i h1 h2
    rw [h0 i h1 h2]
    omega
  · push_neg at hex
    refine ⟨o, o, le_refl _, le_refl _, by omega, ?_⟩
    intro i h1 h2
    constructor
    · intro _
      omega
    · intro _
      rcases Bool.eq_false_or_eq_true (c i) with hci | hci
      · exact hci
      · exact absurd hci (hex i h1 h2)

/-- Effect of one flip sub-stage on one window whose halves are sorted:
both halves become bitonic and the halves are cross-sorted. -/
theorem flip_window (o hf : ℕ) (c c' : ℕ → Bool) (hhf : 0 < hf)
    (hs1 : SortedOn c o hf) (hs2 : SortedOn c (o + hf) hf)
    (hl : ∀ r, r < hf → c' (o + r) = (c (o + r) && c (o + (2 * hf - 1 - r))))
    (hu : ∀ r, r < hf → c' (o + (2 * hf - 1 - r)) = (c (o + r) || c (o + (2 * hf - 1 - r)))) :
    BitonicOn c' o hf ∧ BitonicOn c' (o + hf) hf ∧
      (∀ i j, o ≤ i → i < o + hf → o + hf ≤ j → j < o + 2 * hf →
        c' i = true → c' j = true) := by
  obtain ⟨t1, ht1a, ht1b, hc1⟩ := sortedOn_threshold hs1
  obtain ⟨t2, ht2a, ht2b, hc2⟩ := sortedOn_threshold hs2
  have hl3 : ∀ i, o ≤ i → i < o + hf →
      (c' i = true ↔ (c i = true ∧ c (o + (2 * hf - 1 - (i - o))) = true)) := by
    intro i h1 h2
    have hr := hl (i - o) (by omega)
    rw [show o + (i - o) = i by omega] at hr
    rw [hr, Bool.and_eq_true]
  have hu3 : ∀ j, o + hf ≤ j → j < o + 2 * hf →
      (c' j = true ↔ (c (o + (2 * hf - 1 - (j - o))) = true ∨ c j = true)) := by
    intro j h1 h2
    have hr := hu (2 * hf - 1 - (j - o)) (by omega)
    rw [show o + (2 * hf - 1 - (2 * hf - 1 - (j - o))) = j by omega] at hr
    rw [hr, Bool.or_eq_true]
  refine ⟨Or.inl ⟨t1, o + 2 * hf - (t2 - o), ?_⟩,
    Or.inr ⟨o + 2 * hf - (t1 - o), t2, ?_⟩, ?_⟩
  · intro i h1 h2
    rw [hl3 i h1 h2, hc1 i h1 h2,
      hc2 (o + (2 * hf - 1 - (i - o))) (by omega) (by omega)]
    omega
  · intro j h1 h2
    rw [hu3 j h1 (by omega), hc2 j h1 (by omega),
      hc1 (o + (2 * hf - 1 - (j - o))) (by omega) (by omega)]
    omega
  · intro i j h1 h2 h3 h4 hci
    rw [hl3 i h1 h2, hc1 i h1 h2,
      hc2 (o + (2 * hf - 1 - (i - o))) (by omega) (by omega)] at hci
    rw [hu3 j h3 h4, hc2 j h3 (by omega),
      hc1 (o + (2 * hf - 1 - (j - o))) (by omega) (by omega)]
    omega

/-- Effect of one disperse sub-stage (the half-cleaner) on one bitonic window:
both halves become bitonic and the halves are cross-sorted. -/
theorem disperse_window (o hf : ℕ) (c c' : ℕ → Bool) (hhf : 0 < hf)
    (hb : BitonicOn c o (2 * hf))
    (hl : ∀ r, r < hf → c' (o + r) = (c (o + r) && c (o + (hf + r))))
    (hu : ∀ r, r < hf → c' (o + (hf + r)) = (c (o + r) || c (o + (hf + r)))) :
    BitonicOn c' o hf ∧ BitonicOn c' (o + hf) hf ∧
      (∀ i j, o ≤ i → i < o + hf → o + hf ≤ j → j < o + 2 * hf →
        c' i = true → c' j = true) := by
  have hl3 : ∀ i, o ≤ i → i < o + hf →
      (c' i = true ↔ (c i = true ∧ c (i + hf) = true)) := by
    intro i h1 h2
    have hr := hl (i - o) (by omega)
    rw [show o + (i - o) = i by omega, show o + (hf + (i - o)) = i + hf by omega] at hr
    rw [hr, Bool.and_eq_true]
  have hu3 : ∀ j, o + hf ≤ j → j < o + 2 * hf →
      (c' j = true ↔ (c (j - hf) = true ∨ c j = true)) := by
    intro j h1 h2
    have hr := hu (j - (o + hf)) (by omega)
    rw [show o + (j - (o + hf)) = j - hf by omega,
      show o + (hf + (j - (o + hf))) = j by omega] at hr
    rw [hr, Bool.or_eq_true]
  rcases hb with hint | hco
  · obtain ⟨p, q, hp1, hp2, hp3, hc⟩ := intervalOn_norm hint
    by_cases hpq : p + hf ≤ q
    · refine ⟨Or.inl ⟨p, q - hf, ?_⟩, Or.inl ⟨o, o + 2 * hf, ?_⟩, ?_⟩
      · intro i h1 h2
        rw [hl3 i h1 h2, hc i (by omega) (by omega), hc (i + hf) (by omega) (by omega)]
        omega
      · intro j h1 h2
        rw [hu3 j h1 (by omega), hc (j - hf) (by omega) (by omega), hc j (by omega) (by omega)]
        omega
      · intro i j h1 h2 h3 h4 hci
        rw [hu3 j h3 h4, hc (j - hf) (by omega) (by omega), hc j (by omega) (by omega)]
        omega
    · have hlow : ∀ i, o ≤ i → i < o + hf → (c' i = true ↔ (o ≤ i ∧ i < o)) := by
        intro i h1 h2
        rw [hl3 i h1 h2, hc i (by omega) (by omega), hc (i + hf) (by omega) (by omega)]
        omega
      have hcross : ∀ i j, o ≤ i → i < o + hf → o + hf ≤ j → j < o + 2 * hf →
          c' i = true → c' j = true := by
        intro i j h1 h2 h3 h4 hci
        rw [hlow i h1 h2] at hci
        omega
      by_cases hq : q ≤ o + hf
      · refine ⟨Or.inl ⟨o, o, hlow⟩, Or.inl ⟨p + hf, q + hf, ?_⟩, hcross⟩
        intro j h1 h2
        rw [hu3 j h1 (by omega), hc (j - hf) (by omega) (by omega), hc j (by omega) (by omega)]
        omega
      · by_cases hp : o + hf ≤ p
        · refine ⟨Or.inl ⟨o, o, hlow⟩, Or.inl ⟨p, q, ?_⟩, hcross⟩
          intro j h1 h2
          rw [hu3 j h1 (by omega), hc (j - hf) (by omega) (by omega), hc j (by omega) (by omega)]
          omega
        · refine ⟨Or.inl ⟨o, o, hlow⟩, Or.inr ⟨q, p + hf, ?_⟩, hcross⟩
          intro j h1 h2
          rw [hu3 j h1 (by omega), hc (j - hf) (by omega) (by omega), hc j (by omega) (by omega)]
          omega
  · obtain ⟨p, q, hp1, hp2, hp3, hc⟩ := coIntervalOn_norm hco
    by_cases hpq : p + hf ≤ q
    · refine ⟨Or.inl ⟨o, o, ?_⟩, Or.inr ⟨p + hf, q, ?_⟩, ?_⟩
      · intro i h1 h2
        rw [hl3 i h1 h2, hc i (by omega) (by omega), hc (i + hf) (by omega) (by omega)]
        omega
      · intro j h1 h2
        rw [hu3 j h1 (by omega), hc (j - hf) (by omega) (by omega), hc j (by omega) (by omega)]
        omega
      · intro i j h1 h2 h3 h4 hci
        rw [hl3 i h1 h2, hc i (by omega) (by omega), hc (i + hf) (by omega) (by omega)] at hci
        omega
    · by_cases hq : q ≤ o + hf
      · refine ⟨Or.inr ⟨p, q, ?_⟩, Or.inl ⟨o, o + 2 * hf, ?_⟩, ?_⟩
        · intro i h1 h2
          rw [hl3 i h1 h2, hc i (by omega) (by omega), hc (i + hf) (by omega) (by omega)]
          omega
        · intro j h1 h2
          rw [hu3 j h1 (by omega), hc (j - hf) (by omega) (by omega), hc j (by omega) (by omega)]
          omega
        · intro i j h1 h2 h3 h4 hci
          rw [hu3 j h3 h4, hc (j - hf) (by omega) (by omega), hc j (by omega) (by omega)]
          omega
      · by_cases hp : o + hf ≤ p
        · refine ⟨Or.inr ⟨p - hf, q - hf, ?_⟩, Or.inl ⟨o, o + 2 * hf, ?_⟩, ?_⟩
          · intro i h1 h2
            rw [hl3 i h1 h2, hc i (by omega) (by omega), hc (i + hf) (by omega) (by omega)]
            omega
          · intro j h1 h2
            rw [hu3 j h1 (by omega), hc (j - hf) (by omega) (by omega), hc j (by omega) (by omega)]
            omega
          · intro i j h1 h2 h3 h4 hci
            rw [hu3 j h3 h4, hc (j - hf) (by omega) (by omega), hc j (by omega) (by omega)]
            omega
        · refine ⟨Or.inl ⟨q - hf, p, ?_⟩, Or.inr ⟨p + hf, q, ?_⟩, ?_⟩
          · intro i h1 h2
            rw [hl3 i h1 h2, hc i (by omega) (by omega), hc (i + hf) (by omega) (by omega)]
            omega
          · intro j h1 h2
            rw [hu3 j h1 (by omega), hc (j - hf) (by omega) (by omega), hc j (by omega) (by omega)]
            omega
          · intro i j h1 h2 h3 h4 hci
            rw [hl3 i h1 h2, hc i (by omega) (by omega),
              hc (i + hf) (by omega) (by omega)] at hci
            rw [hu3 j h3 h4, hc (j - hf) (by omega) (by omega), hc j (by omega) (by omega)]
            omega

theorem casListExec_append {β : Type} (sw : β → β → Bool) (l1 l2 : List (ℕ × ℕ))
    (b : ℕ → β) :
    casListExec sw (l1 ++ l2) b = casListExec sw l2 (casListExec sw l1 b) := by
  unfold casListExec
  rw [List.foldl_append]

theorem sortedOn_one (c : ℕ → Bool) (s : ℕ) : SortedOn c s 1 := by
  intro i j h1 h2 h3 hci
  have : i = j := by omega
  rwa [← this]

/-- An aligned half-size window sits in an aligned full-size window of an
aligned region, as its lower or its upper half. -/
theorem half_decompose {e o L s' : ℕ} (ho : 2 ^ (e + 1) ∣ o) (hL : 2 ^ (e + 1) ∣ L)
    (hs : 2 ^ e ∣ s') (h1 : o ≤ s') (h2 : s' + 2 ^ e ≤ o + L) :
    ∃ s, 2 ^ (e + 1) ∣ s ∧ o ≤ s ∧ s + 2 ^ (e + 1) ≤ o + L ∧
      (s' = s ∨ s' = s + 2 ^ e) := by
  obtain ⟨k, hk⟩ := hs
  obtain ⟨a, ha⟩ := ho
  obtain ⟨b, hb⟩ := hL
  have hpos : 0 < (2 : ℕ) ^ e := Nat.pos_pow_of_pos e (by norm_num)
  have hpow : (2 : ℕ) ^ (e + 1) = 2 ^ e * 2 := pow_succ 2 e
  have hoL : o + L = 2 ^ (e + 1) * (a + b) := by rw [ha, hb, Nat.mul_add]
  rcases Nat.even_or_odd k with ⟨k', hk'⟩ | ⟨k', hk'⟩
  · have hseq : s' = 2 ^ (e + 1) * k' := by
      rw [hk, hk', hpow]
      ring
    refine ⟨s', ⟨k', hseq⟩, h1, ?_, Or.inl rfl⟩
    have hlt : 2 ^ (e + 1) * k' < 2 ^ (e + 1) * (a + b) := by
      rw [← hseq, ← hoL]
      omega
    have hk'lt : k' < a + b := Nat.lt_of_mul_lt_mul_left hlt
    have : 2 ^ (e + 1) * (k' + 1) ≤ 2 ^ (e + 1) * (a + b) :=
      Nat.mul_le_mul_left _ (by omega)
    rw [Nat.mul_add, Nat.mul_one] at this
    omega
  · have hseq : s' = 2 ^ (e + 1) * k' + 2 ^ e := by
      rw [hk, hk', hpow]
      ring
    have hup : 2 ^ (e + 1) * k' + 2 ^ (e + 1) = s' + 2 ^ e := by
      rw [hseq, hpow]
      ring
    refine ⟨2 ^ (e + 1) * k', Dvd.intro k' rfl, ?_, by omega, Or.inr (by omega)⟩
    have hlt : 2 ^ (e + 1) * a < 2 ^ (e + 1) * (k' + 1) := by
      rw [Nat.mul_add, Nat.mul_one]
      omega
    have hak : a ≤ k' := by
      have := Nat.lt_of_mul_lt_mul_left hlt
      omega
    calc o = 2 ^ (e + 1) * a := ha
      _ ≤ 2 ^ (e + 1) * k' := Nat.mul_le_mul_left _ hak

/-- Values produced by one paired sub-stage on a window are monotone images of
the old window values: a new `true` needs an old `true`, and an all-`true`
window stays all-`true`. -/
theorem pair_stage_transport (o hf : ℕ) (c c₁ : ℕ → Bool) (g0 : ℕ → ℕ)
    (hg : ∀ r, r < hf → hf ≤ g0 r ∧ g0 r < 2 * hf)
    (hl : ∀ r, r < hf → c₁ (o + r) = (c (o + r) && c (o + g0 r)))
    (hu : ∀ r, r < hf → c₁ (o + g0 r) = (c (o + r) || c (o + g0 r)))
    (hsurj : ∀ j, hf ≤ j → j < 2 * hf → ∃ r, r < hf ∧ g0 r = j) :
    (∀ i, o ≤ i → i < o + 2 * hf → c₁ i = true →
      ∃ i', o ≤ i' ∧ i' < o + 2 * hf ∧ c i' = true) ∧
    ((∀ i, o ≤ i → i < o + 2 * hf → c i = true) →
      ∀ i, o ≤ i → i < o + 2 * hf → c₁ i = true) := by
  constructor
  · intro i hi1 hi2 hci
    rcases Nat.lt_or_ge i (o + hf) with hlow | hup
    · have hr := hl (i - o) (by omega)
      rw [show o + (i - o) = i by omega] at hr
      rw [hr, Bool.and_eq_true] at hci
      exact ⟨i, hi1, by omega, hci.1⟩
    · obtain ⟨r, hr1, hr2⟩ := hsurj (i - o) (by omega) (by omega)
      have hr := hu r hr1
      rw [hr2, show o + (i - o) = i by omega] at hr
      rw [hr, Bool.or_eq_true] at hci
      obtain ⟨hb1, hb2⟩ := hg r hr1
      rcases hci with hci | hci
      · exact ⟨o + r, by omega, by omega, hci⟩
      · exact ⟨i, hi1, hi2, hci⟩
  · intro hall i hi1 hi2
    rcases Nat.lt_or_ge i (o + hf) with hlow | hup
    · have hr := hl (i - o) (by omega)
      rw [show o + (i - o) = i by omega] at hr
      obtain ⟨hb1, hb2⟩ := hg (i - o) (by omega)
      rw [hr, Bool.and_eq_true]
      exact ⟨hall i hi1 (by omega), hall (o + g0 (i - o)) (by omega) (by omega)⟩
    · obtain ⟨r, hr1, hr2⟩ := hsurj (i - o) (by omega) (by omega)
      have hr := hu r hr1
      rw [hr2, show o + (i - o) = i by omega] at hr
      obtain ⟨hb1, hb2⟩ := hg r hr1
      rw [hr, Bool.or_eq_true]
      exact Or.inr (hall i hi1 hi2)

/-- Combining sorted cross-ordered halves into a sorted window, given that the
half values descend monotonically from the cross-ordered intermediate state. -/
theorem halves_to_window {c₁ c₂ : ℕ → Bool} {s hf : ℕ}
    (hcross : ∀ i j, s ≤ i → i < s + hf → s + hf ≤ j → j < s + 2 * hf →
      c₁ i = true → c₁ j = true)
    (hsl : SortedOn c₂ s hf) (hsu : SortedOn c₂ (s + hf) hf)
    (hTl : ∀ i, s ≤ i → i < s + hf → c₂ i = true →
      ∃ i', s ≤ i' ∧ i' < s + hf ∧ c₁ i' = true)
    (hAu : (∀ i, s + hf ≤ i → i < s + hf + hf → c₁ i = true) →
      ∀ i, s + hf ≤ i → i < s + hf + hf → c₂ i = true) :
    SortedOn c₂ s (2 * hf) := by
  intro i j h1 h2 h3 hci
  rcases Nat.lt_or_ge i (s + hf) with hi | hi
  · rcases Nat.lt_or_ge j (s + hf) with hj | hj
    · exact hsl i j h1 h2 hj hci
    · obtain ⟨i', hi'1, hi'2, hi'3⟩ := hTl i h1 hi hci
      have hallc1 : ∀ i'', s + hf ≤ i'' → i'' < s + hf + hf → c₁ i'' = true := by
        intro i'' hq1 hq2
        exact hcross i' i'' hi'1 hi'2 hq1 (by omega) hi'3
      exact hAu hallc1 j hj (by omega)
  · exact hsu i j hi h2 (by omega) hci

theorem cascade_run : ∀ (e o L : ℕ) (c : ℕ → Bool),
    2 ^ e ∣ o → 2 ^ e ∣ L →
    (∀ s, o ≤ s → s + 2 ^ e ≤ o + L → 2 ^ e ∣ s → BitonicOn c s (2 ^ e)) →
    (∀ i, i < o ∨ o + L ≤ i → casListExec sw01 (cascadePairs e o L) c i = c i) ∧
    (∀ s, o ≤ s → s + 2 ^ e ≤ o + L → 2 ^ e ∣ s →
      SortedOn (casListExec sw01 (cascadePairs e o L) c) s (2 ^ e) ∧
      (∀ i, s ≤ i → i < s + 2 ^ e →
        casListExec sw01 (cascadePairs e o L) c i = true →
        ∃ i', s ≤ i' ∧ i' < s + 2 ^ e ∧ c i' = true) ∧
      ((∀ i, s ≤ i → i < s + 2 ^ e → c i = true) →
        ∀ i, s ≤ i → i < s + 2 ^ e →
          casListExec sw01 (cascadePairs e o L) c i = true)) := by
  intro e
  induction e with
  | zero =>
    intro o L c _ _ _
    refine ⟨fun i _ => rfl, fun s hs1 hs2 _ => ⟨sortedOn_one c s, ?_, ?_⟩⟩
    · intro i h1 h2 hci
      exact ⟨i, h1, h2, hci⟩
    · intro hall i h1 h2
      exact hall i h1 h2
  | succ e ih =>
    intro o L c ho hL hbit
    have hpos : 0 < (2 : ℕ) ^ e := Nat.pos_pow_of_pos e (by norm_num)
    have hpow : (2 : ℕ) ^ (e + 1) = 2 * 2 ^ e := by rw [pow_succ]; ring
    have hoe : 2 ^ e ∣ o := dvd_trans (pow_dvd_pow 2 (Nat.le_succ e)) ho
    have hLe : 2 ^ e ∣ L := dvd_trans (pow_dvd_pow 2 (Nat.le_succ e)) hL
    set W0 : ℕ := o / 2 ^ (e + 1) with hW0
    set Wn : ℕ := L / 2 ^ (e + 1) with hWn
    have hoW : 2 * 2 ^ e * W0 = o := by
      rw [← hpow, hW0]
      exact Nat.mul_div_cancel' ho
    have hLW : 2 * 2 ^ e * Wn = L := by
      rw [← hpow, hWn]
      exact Nat.mul_div_cancel' hL
    have hoLW : 2 * 2 ^ e * (W0 + Wn) = o + L := by
      rw [Nat.mul_add, hoW, hLW]
    have hcp : cascadePairs (e + 1) o L =
        dispWindowPairs (2 ^ e) W0 Wn ++ cascadePairs e o L := rfl
    set c₁ : ℕ → Bool := casListExec sw01 (dispWindowPairs (2 ^ e) W0 Wn) c with hc₁
    have hexec : ∀ i, casListExec sw01 (cascadePairs (e + 1) o L) c i =
        casListExec sw01 (cascadePairs e o L) c₁ i := by
      intro i
      rw [hcp, casListExec_append]
    obtain ⟨ev1, ev2⟩ := dispWindowPairs_eval (2 ^ e) W0 Wn hpos c
    -- translation of window data
    have hwin : ∀ s, o ≤ s → s + 2 ^ (e + 1) ≤ o + L → 2 ^ (e + 1) ∣ s →
        (W0 ≤ s / 2 ^ (e + 1) ∧ s / 2 ^ (e + 1) < W0 + Wn ∧
          2 * 2 ^ e * (s / 2 ^ (e + 1)) = s) := by
      intro s hs1 hs2 hsd
      have hsW : 2 * 2 ^ e * (s / 2 ^ (e + 1)) = s := by
        rw [← hpow]
        exact Nat.mul_div_cancel' hsd
      refine ⟨?_, ?_, hsW⟩
      · rw [hW0]
        exact Nat.div_le_div_right hs1
      · have h1 : 2 * 2 ^ e * (s / 2 ^ (e + 1) + 1) ≤ 2 * 2 ^ e * (W0 + Wn) := by
          rw [Nat.mul_add, hsW, Nat.mul_one, hoLW]
          omega
        have := Nat.le_of_mul_le_mul_left h1 (by omega)
        omega
    -- the sub-stage on each full window
    have hstage : ∀ s, o ≤ s → s + 2 ^ (e + 1) ≤ o + L → 2 ^ (e + 1) ∣ s →
        BitonicOn c₁ s (2 ^ e) ∧ BitonicOn c₁ (s + 2 ^ e) (2 ^ e) ∧
          (∀ i j, s ≤ i → i < s + 2 ^ e → s + 2 ^ e ≤ j → j < s + 2 * 2 ^ e →
            c₁ i = true → c₁ j = true) ∧
          (∀ i, s ≤ i → i < s + 2 * 2 ^ e → c₁ i = true →
            ∃ i', s ≤ i' ∧ i' < s + 2 * 2 ^ e ∧ c i' = true) ∧
          ((∀ i, s ≤ i → i < s + 2 * 2 ^ e → c i = true) →
            ∀ i, s ≤ i → i < s + 2 * 2 ^ e → c₁ i = true) := by
      intro s hs1 hs2 hsd
      obtain ⟨hWa, hWb, hsW⟩ := hwin s hs1 hs2 hsd
      have hl : ∀ r, r < 2 ^ e → c₁ (s + r) = (c (s + r) && c (s + (2 ^ e + r))) := by
        intro r hr
        have := (ev2 (s / 2 ^ (e + 1)) r hWa hWb hr).1
        rwa [hsW] at this
      have hu : ∀ r, r < 2 ^ e → c₁ (s + (2 ^ e + r)) = (c (s + r) || c (s + (2 ^ e + r))) := by
        intro r hr
        have := (ev2 (s / 2 ^ (e + 1)) r hWa hWb hr).2
        rwa [hsW] at this
      have hb : BitonicOn c s (2 * 2 ^ e) := by
        have := hbit s hs1 hs2 hsd
        rwa [hpow] at this
      obtain ⟨hb1, hb2, hcross⟩ := disperse_window s (2 ^ e) c c₁ hpos hb hl hu
      have hgb : ∀ r, r < 2 ^ e →
          2 ^ e ≤ (fun r => 2 ^ e + r) r ∧ (fun r => 2 ^ e + r) r < 2 * 2 ^ e := by
        intro r hr
        show 2 ^ e ≤ 2 ^ e + r ∧ 2 ^ e + r < 2 * 2 ^ e
        omega
      have hgs : ∀ j, 2 ^ e ≤ j → j < 2 * 2 ^ e →
          ∃ r, r < 2 ^ e ∧ (fun r => 2 ^ e + r) r = j := by
        intro j h1 h2
        refine ⟨j - 2 ^ e, by omega, ?_⟩
        show 2 ^ e + (j - 2 ^ e) = j
        omega
      obtain ⟨hT, hA⟩ := pair_stage_transport s (2 ^ e) c c₁ (fun r => 2 ^ e + r)
        hgb hl hu hgs
      exact ⟨hb1, hb2, hcross, hT, hA⟩
    -- every aligned half window is bitonic for the remaining cascade
    have hbit' : ∀ s', o ≤ s' → s' + 2 ^ e ≤ o + L → 2 ^ e ∣ s' →
        BitonicOn c₁ s' (2 ^ e) := by
      intro s' h1 h2 h3
      obtain ⟨s, hsd, hso, hsL, hcase⟩ := half_decompose ho hL h3 h1 h2
      obtain ⟨hb1, hb2, _, _, _⟩ := hstage s hso hsL hsd
      rcases hcase with rfl | rfl
      · exact hb1
      · exact hb2
    obtain ⟨ih1, ih2⟩ := ih o L c₁ hoe hLe hbit'
    constructor
    · intro i hi
      rw [hexec i, ih1 i hi, hc₁]
      apply ev1
      rcases hi with hi | hi
      · left
        rw [hoW]
        exact hi
      · right
        rw [hoLW]
        exact hi
    · intro s hs1 hs2 hsd
      obtain ⟨hb1, hb2, hcross, hT1, hA1⟩ := hstage s hs1 hs2 hsd
      have hse : 2 ^ e ∣ s := dvd_trans (pow_dvd_pow 2 (Nat.le_succ e)) hsd
      have hse2 : 2 ^ e ∣ s + 2 ^ e := Dvd.dvd.add hse dvd_rfl
      have hlow := ih2 s hs1 (by rw [hpow] at hs2; omega) hse
      have hup := ih2 (s + 2 ^ e) (by omega) (by rw [hpow] at hs2; omega) hse2
      obtain ⟨hsortl, hTl, hAl⟩ := hlow
      obtain ⟨hsortu, hTu, hAu⟩ := hup
      have hexec' : casListExec sw01 (cascadePairs (e + 1) o L) c =
          casListExec sw01 (cascadePairs e o L) c₁ := funext hexec
      rw [hexec']
      refine ⟨?_, ?_, ?_⟩
      · -- sorted on the full window
        have hsorted : SortedOn (casListExec sw01 (cascadePairs e o L) c₁) s (2 * 2 ^ e) :=
          halves_to_window hcross hsortl hsortu hTl hAu
        rw [hpow]
        exact hsorted
      · -- a new true needs an old true
        intro i h1 h2 hci
        rw [hpow] at h2
        rcases Nat.lt_or_ge i (s + 2 ^ e) with hi | hi
        · obtain ⟨i', hi'1, hi'2, hi'3⟩ := hTl i h1 hi hci
          obtain ⟨i'', hi''1, hi''2, hi''3⟩ := hT1 i' hi'1 (by omega) hi'3
          exact ⟨i'', hi''1, by rw [hpow]; omega, hi''3⟩
        · obtain ⟨i', hi'1, hi'2, hi'3⟩ := hTu i hi (by omega) hci
          obtain ⟨i'', hi''1, hi''2, hi''3⟩ := hT1 i' (by omega) (by omega) hi'3
          exact ⟨i'', hi''1, by rw [hpow]; omega, hi''3⟩
      · -- all-true windows stay all-true
        intro hall i h1 h2
        rw [hpow] at h2
        have hallc₁ : ∀ i', s ≤ i' → i' < s + 2 * 2 ^ e → c₁ i' = true := by
          apply hA1
          intro i' h1' h2'
          exact hall i' h1' (by rw [hpow]; omega)
        rcases Nat.lt_or_ge i (s + 2 ^ e) with hi | hi
        · exact hAl (fun i' ha hb => hallc₁ i' ha (by omega)) i h1 hi
        · exact hAu (fun i' ha hb => hallc₁ i' (by omega) (by omega)) i hi (by omega)

theorem merge_run (l o L : ℕ) (c : ℕ → Bool)
    (ho : 2 ^ (l + 1) ∣ o) (hL : 2 ^ (l + 1) ∣ L)
    (hs : ∀ s, o ≤ s → s + 2 ^ l ≤ o + L → 2 ^ l ∣ s → SortedOn c s (2 ^ l)) :
    (∀ i, i < o ∨ o + L ≤ i → casListExec sw01 (mergePairs l o L) c i = c i) ∧
    (∀ s, o ≤ s → s + 2 ^ (l + 1) ≤ o + L → 2 ^ (l + 1) ∣ s →
      SortedOn (casListExec sw01 (mergePairs l o L) c) s (2 ^ (l + 1)) ∧
      (∀ i, s ≤ i → i < s + 2 ^ (l + 1) →
        casListExec sw01 (mergePairs l o L) c i = true →
        ∃ i', s ≤ i' ∧ i' < s + 2 ^ (l + 1) ∧ c i' = true) ∧
      ((∀ i, s ≤ i → i < s + 2 ^ (l + 1) → c i = true) →
        ∀ i, s ≤ i → i < s + 2 ^ (l + 1) →
          casListExec sw01 (mergePairs l o L) c i = true)) := by
  have hpos : 0 < (2 : ℕ) ^ l := Nat.pos_pow_of_pos l (by norm_num)
  have hpow : (2 : ℕ) ^ (l + 1) = 2 * 2 ^ l := by rw [pow_succ]; ring
  have hoe : 2 ^ l ∣ o := dvd_trans (pow_dvd_pow 2 (Nat.le_succ l)) ho
  have hLe : 2 ^ l ∣ L := dvd_trans (pow_dvd_pow 2 (Nat.le_succ l)) hL
  set W0 : ℕ := o / 2 ^ (l + 1) with hW0
  set Wn : ℕ := L / 2 ^ (l + 1) with hWn
  have hoW : 2 * 2 ^ l * W0 = o := by
    rw [← hpow, hW0]
    exact Nat.mul_div_cancel' ho
  have hLW : 2 * 2 ^ l * Wn = L := by
    rw [← hpow, hWn]
    exact Nat.mul_div_cancel' hL
  have hoLW : 2 * 2 ^ l * (W0 + Wn) = o + L := by
    rw [Nat.mul_add, hoW, hLW]
  have hcp : mergePairs l o L =
      flipWindowPairs (2 ^ l) W0 Wn ++ cascadePairs l o L := rfl
  set c₁ : ℕ → Bool := casListExec sw01 (flipWindowPairs (2 ^ l) W0 Wn) c with hc₁
  have hexec : ∀ i, casListExec sw01 (mergePairs l o L) c i =
      casListExec sw01 (cascadePairs l o L) c₁ i := by
    intro i
    rw [hcp, casListExec_append]
  obtain ⟨ev1, ev2⟩ := flipWindowPairs_eval (2 ^ l) W0 Wn hpos c
  have hwin : ∀ s, o ≤ s → s + 2 ^ (l + 1) ≤ o + L → 2 ^ (l + 1) ∣ s →
      (W0 ≤ s / 2 ^ (l + 1) ∧ s / 2 ^ (l + 1) < W0 + Wn ∧
        2 * 2 ^ l * (s / 2 ^ (l + 1)) = s) := by
    intro s hs1 hs2 hsd
    have hsW : 2 * 2 ^ l * (s / 2 ^ (l + 1)) = s := by
      rw [← hpow]
      exact Nat.mul_div_cancel' hsd
    refine ⟨?_, ?_, hsW⟩
    · rw [hW0]
      exact Nat.div_le_div_right hs1
    · have h1 : 2 * 2 ^ l * (s / 2 ^ (l + 1) + 1) ≤ 2 * 2 ^ l * (W0 + Wn) := by
        rw [Nat.mul_add, hsW, Nat.mul_one, hoLW]
        omega
      have := Nat.le_of_mul_le_mul_left h1 (by omega)
      omega
  have hstage : ∀ s, o ≤ s → s + 2 ^ (l + 1) ≤ o + L → 2 ^ (l + 1) ∣ s →
      BitonicOn c₁ s (2 ^ l) ∧ BitonicOn c₁ (s + 2 ^ l) (2 ^ l) ∧
        (∀ i j, s ≤ i → i < s + 2 ^ l → s + 2 ^ l ≤ j → j < s + 2 * 2 ^ l →
          c₁ i = true → c₁ j = true) ∧
        (∀ i, s ≤ i → i < s + 2 * 2 ^ l → c₁ i = true →
          ∃ i', s ≤ i' ∧ i' < s + 2 * 2 ^ l ∧ c i' = true) ∧
        ((∀ i, s ≤ i → i < s + 2 * 2 ^ l → c i = true) →
          ∀ i, s ≤ i → i < s + 2 * 2 ^ l → c₁ i = true) := by
    intro s hs1 hs2 hsd
    obtain ⟨hWa, hWb, hsW⟩ := hwin s hs1 hs2 hsd
    have hl : ∀ r, r < 2 ^ l →
        c₁ (s + r) = (c (s + r) && c (s + (2 * 2 ^ l - 1 - r))) := by
      intro r hr
      have := (ev2 (s / 2 ^ (l + 1)) r hWa hWb hr).1
      rwa [hsW] at this
    have hu : ∀ r, r < 2 ^ l →
        c₁ (s + (2 * 2 ^ l - 1 - r)) = (c (s + r) || c (s + (2 * 2 ^ l - 1 - r))) := by
      intro r hr
      have := (ev2 (s / 2 ^ (l + 1)) r hWa hWb hr).2
      rwa [hsW] at this
    have hpw2 : s + 2 ^ l + 2 ^ l ≤ o + L := by
      rw [hpow] at hs2
      omega
    have hs1' : SortedOn c s (2 ^ l) :=
      hs s hs1 (by omega) (dvd_trans (pow_dvd_pow 2 (Nat.le_succ l)) hsd)
    have hs2' : SortedOn c (s + 2 ^ l) (2 ^ l) :=
      hs (s + 2 ^ l) (by omega) hpw2
        (Dvd.dvd.add (dvd_trans (pow_dvd_pow 2 (Nat.le_succ l)) hsd) dvd_rfl)
    obtain ⟨hb1, hb2, hcross⟩ := flip_window s (2 ^ l) c c₁ hpos hs1' hs2' hl hu
    have hgb : ∀ r, r < 2 ^ l →
        2 ^ l ≤ (fun r => 2 * 2 ^ l - 1 - r) r ∧
          (fun r => 2 * 2 ^ l - 1 - r) r < 2 * 2 ^ l := by
      intro r hr
      show 2 ^ l ≤ 2 * 2 ^ l - 1 - r ∧ 2 * 2 ^ l - 1 - r < 2 * 2 ^ l
      omega
    have hgs : ∀ j, 2 ^ l ≤ j → j < 2 * 2 ^ l →
        ∃ r, r < 2 ^ l ∧ (fun r => 2 * 2 ^ l - 1 - r) r = j := by
      intro j h1 h2
      refine ⟨2 * 2 ^ l - 1 - j, by omega, ?_⟩
      show 2 * 2 ^ l - 1 - (2 * 2 ^ l - 1 - j) = j
      omega
    obtain ⟨hT, hA⟩ := pair_stage_transport s (2 ^ l) c c₁ (fun r => 2 * 2 ^ l - 1 - r)
      hgb hl hu hgs
    exact ⟨hb1, hb2, hcross, hT, hA⟩
  have hbit' : ∀ s', o ≤ s' → s' + 2 ^ l ≤ o + L → 2 ^ l ∣ s' →
      BitonicOn c₁ s' (2 ^ l) := by
    intro s' h1 h2 h3
    obtain ⟨s, hsd, hso, hsL, hcase⟩ := half_decompose ho hL h3 h1 h2
    obtain ⟨hb1, hb2, _, _, _⟩ := hstage s hso hsL hsd
    rcases hcase with rfl | rfl
    · exact hb1
    · exact hb2
  obtain ⟨ih1, ih2⟩ := cascade_run l o L c₁ hoe hLe hbit'
  constructor
  · intro i hi
    rw [hexec i, ih1 i hi, hc₁]
    apply ev1
    rcases hi with hi | hi
    · left
      rw [hoW]
      exact hi
    · right
      rw [hoLW]
      exact hi
  · intro s hs1 hs2 hsd
    obtain ⟨hb1, hb2, hcross, hT1, hA1⟩ := hstage s hs1 hs2 hsd
    have hse : 2 ^ l ∣ s := dvd_trans (pow_dvd_pow 2 (Nat.le_succ l)) hsd
    have hse2 : 2 ^ l ∣ s + 2 ^ l := Dvd.dvd.add hse dvd_rfl
    obtain ⟨hsortl, hTl, hAl⟩ := ih2 s hs1 (by rw [hpow] at hs2; omega) hse
    obtain ⟨hsortu, hTu, hAu⟩ := ih2 (s + 2 ^ l) (by omega) (by rw [hpow] at hs2; omega) hse2
    have hexec' : casListExec sw01 (mergePairs l o L) c =
        casListExec sw01 (cascadePairs l o L) c₁ := funext hexec
    rw [hexec']
    refine ⟨?_, ?_, ?_⟩
    · have hsorted : SortedOn (casListExec sw01 (cascadePairs l o L) c₁) s (2 * 2 ^ l) :=
        halves_to_window hcross hsortl hsortu hTl hAu
      rw [hpow]
      exact hsorted
    · intro i h1 h2 hci
      rw [hpow] at h2
      rcases Nat.lt_or_ge i (s + 2 ^ l) with hi | hi
      · obtain ⟨i', hi'1, hi'2, hi'3⟩ := hTl i h1 hi hci
        obtain ⟨i'', hi''1, hi''2, hi''3⟩ := hT1 i' hi'1 (by omega) hi'3
        exact ⟨i'', hi''1, by rw [hpow]; omega, hi''3⟩
      · obtain ⟨i', hi'1, hi'2, hi'3⟩ := hTu i hi (by omega) hci
        obtain ⟨i'', hi''1, hi''2, hi''3⟩ := hT1 i' (by omega) (by omega) hi'3
        exact ⟨i'', hi''1, by rw [hpow]; omega, hi''3⟩
    · intro hall i h1 h2
      rw [hpow] at h2
      have hallc₁ : ∀ i', s ≤ i' → i' < s + 2 * 2 ^ l → c₁ i' = true := by
        apply hA1
        intro i' h1' h2'
        exact hall i' h1' (by rw [hpow]; omega)
      rcases Nat.lt_or_ge i (s + 2 ^ l) with hi | hi
      · exact hAl (fun i' ha hb => hallc₁ i' ha (by omega)) i h1 hi
      · exact hAu (fun i' ha hb => hallc₁ i' (by omega) (by omega)) i hi (by omega)

theorem bms_run : ∀ (m o L : ℕ) (c : ℕ → Bool), 2 ^ m ∣ o → 2 ^ m ∣ L →
    (∀ i, i < o ∨ o + L ≤ i → casListExec sw01 (bmsPairs m o L) c i = c i) ∧
    (∀ s, o ≤ s → s + 2 ^ m ≤ o + L → 2 ^ m ∣ s →
      SortedOn (casListExec sw01 (bmsPairs m o L) c) s (2 ^ m)) := by
  intro m
  induction m with
  | zero =>
    intro o L c _ _
    exact ⟨fun i _ => rfl, fun s _ _ _ => sortedOn_one c s⟩
  | succ m ih =>
    intro o L c ho hL
    have hom : 2 ^ m ∣ o := dvd_trans (pow_dvd_pow 2 (Nat.le_succ m)) ho
    have hLm : 2 ^ m ∣ L := dvd_trans (pow_dvd_pow 2 (Nat.le_succ m)) hL
    have hsplit : bmsPairs (m + 1) o L = bmsPairs m o L ++ mergePairs m o L := by
      unfold bmsPairs
      rw [List.range_succ]
      rw [show ((List.range m ++ [m]).bind fun l => mergePairs l o L) =
        ((List.range m).bind fun l => mergePairs l o L) ++
          ([m].bind fun l => mergePairs l o L) from List.append_bind _ _ _]
      simp
    set c₁ : ℕ → Bool := casListExec sw01 (bmsPairs m o L) c with hc₁
    have hexec : ∀ i, casListExec sw01 (bmsPairs (m + 1) o L) c i =
        casListExec sw01 (mergePairs m o L) c₁ i := by
      intro i
      rw [hsplit, casListExec_append]
    obtain ⟨ih1, ih2⟩ := ih o L c hom hLm
    obtain ⟨hm1, hm2⟩ := merge_run m o L c₁ ho hL ih2
    constructor
    · intro i hi
      rw [hexec i, hm1 i hi, hc₁, ih1 i hi]
    · intro s hs1 hs2 hsd
      have := (hm2 s hs1 hs2 hsd).1
      intro i j h1 h2 h3 hci
      rw [hexec i] at hci
      rw [hexec j]
      exact this i j h1 h2 h3 hci

/-! ## Position bounds of the canonical pair lists -/

theorem casListExec_bind {β γ : Type} (sw : β → β → Bool) (l : List γ)
    (f : γ → List (ℕ × ℕ)) (b : ℕ → β) :
    casListExec sw (l.bind f) b =
      l.foldl (fun c x => casListExec sw (f x) c) b := by
  induction l generalizing b with
  | nil => rfl
  | cons x xs ih =>
    have hb : (x :: xs).bind f = f x ++ xs.bind f := rfl
    rw [hb, casListExec_append, List.foldl_cons, ih]

theorem offsetWindowPairs_bounds (hf W0 Wn : ℕ) (g0 : ℕ → ℕ) (hhf : 0 < hf)
    (hg0 : ∀ r, r < hf → hf ≤ g0 r ∧ g0 r < 2 * hf) :
    ∀ p ∈ offsetWindowPairs hf W0 Wn g0,
      2 * hf * W0 ≤ p.1 ∧ p.1 < p.2 ∧ p.2 < 2 * hf * (W0 + Wn) := by
  intro p hp
  unfold offsetWindowPairs at hp
  rw [List.mem_map] at hp
  obtain ⟨t, ht, rfl⟩ := hp
  rw [List.mem_range] at ht
  have hr : t % hf < hf := Nat.mod_lt t hhf
  have hgb := hg0 (t % hf) hr
  have hdlt : t / hf < Wn := Nat.div_lt_of_lt_mul (by rw [Nat.mul_comm] at ht; exact ht)
  have hlb : 2 * hf * W0 ≤ 2 * hf * (W0 + t / hf) :=
    Nat.mul_le_mul_left _ (Nat.le_add_right _ _)
  have hub : 2 * hf * (W0 + t / hf) + (2 * hf - 1) < 2 * hf * (W0 + Wn) + 0 :=
    window_pos_lt (by omega) (by omega)
  refine ⟨by omega, by omega, by omega⟩

theorem dispWindowPairs_bounds (hf W0 Wn : ℕ) (hhf : 0 < hf) :
    ∀ p ∈ dispWindowPairs hf W0 Wn,
      2 * hf * W0 ≤ p.1 ∧ p.1 < p.2 ∧ p.2 < 2 * hf * (W0 + Wn) :=
  offsetWindowPairs_bounds hf W0 Wn _ hhf (fun r hr => ⟨Nat.le_add_right _ _, by omega⟩)

theorem flipWindowPairs_bounds (hf W0 Wn : ℕ) (hhf : 0 < hf) :
    ∀ p ∈ flipWindowPairs hf W0 Wn,
      2 * hf * W0 ≤ p.1 ∧ p.1 < p.2 ∧ p.2 < 2 * hf * (W0 + Wn) :=
  offsetWindowPairs_bounds hf W0 Wn _ hhf (fun r hr => ⟨by omega, by omega⟩)

theorem cascadePairs_bounds : ∀ e o L, 2 ^ e ∣ o → 2 ^ e ∣ L →
    ∀ p ∈ cascadePairs e o L, o ≤ p.1 ∧ p.1 < p.2 ∧ p.2 < o + L := by
  intro e
  induction e with
  | zero => intro o L _ _ p hp; cases hp
  | succ e ih =>
    intro o L ho hL p hp
    have hpos : 0 < (2 : ℕ) ^ e := Nat.pos_pow_of_pos e (by norm_num)
    have hpow : (2 : ℕ) ^ (e + 1) = 2 * 2 ^ e := by rw [pow_succ]; ring
    have hoW : 2 * 2 ^ e * (o / 2 ^ (e + 1)) = o := by
      rw [← hpow]
      exact Nat.mul_div_cancel' ho
    have hoLW : 2 * 2 ^ e * (o / 2 ^ (e + 1) + L / 2 ^ (e + 1)) = o + L := by
      rw [Nat.mul_add, hoW, ← hpow, Nat.mul_div_cancel' hL]
    have hcp : cascadePairs (e + 1) o L =
        dispWindowPairs (2 ^ e) (o / 2 ^ (e + 1)) (L / 2 ^ (e + 1)) ++
          cascadePairs e o L := rfl
    rw [hcp, List.mem_append] at hp
    rcases hp with hp | hp
    · have := dispWindowPairs_bounds (2 ^ e) (o / 2 ^ (e + 1)) (L / 2 ^ (e + 1)) hpos p hp
      rw [hoW, hoLW] at this
      exact this
    · exact ih o L (dvd_trans (pow_dvd_pow 2 (Nat.le_succ e)) ho)
        (dvd_trans (pow_dvd_pow 2 (Nat.le_succ e)) hL) p hp

theorem mergePairs_bounds (l o L : ℕ) (ho : 2 ^ (l + 1) ∣ o) (hL : 2 ^ (l + 1) ∣ L) :
    ∀ p ∈ mergePairs l o L, o ≤ p.1 ∧ p.1 < p.2 ∧ p.2 < o + L := by
  intro p hp
  have hpos : 0 < (2 : ℕ) ^ l := Nat.pos_pow_of_pos l (by norm_num)
  have hpow : (2 : ℕ) ^ (l + 1) = 2 * 2 ^ l := by rw [pow_succ]; ring
  have hoW : 2 * 2 ^ l * (o / 2 ^ (l + 1)) = o := by
    rw [← hpow]
    exact Nat.mul_div_cancel' ho
  have hoLW : 2 * 2 ^ l * (o / 2 ^ (l + 1) + L / 2 ^ (l + 1)) = o + L := by
    rw [Nat.mul_add, hoW, ← hpow, Nat.mul_div_cancel' hL]
  unfold mergePairs at hp
  rw [List.mem_append] at hp
  rcases hp with hp | hp
  · have := flipWindowPairs_bounds (2 ^ l) (o / 2 ^ (l + 1)) (L / 2 ^ (l + 1)) hpos p hp
    rw [hoW, hoLW] at this
    exact this
  · exact cascadePairs_bounds l o L (dvd_trans (pow_dvd_pow 2 (Nat.le_succ l)) ho)
      (dvd_trans (pow_dvd_pow 2 (Nat.le_succ l)) hL) p hp

theorem bmsPairs_bounds (m o L : ℕ) (ho : 2 ^ m ∣ o) (hL : 2 ^ m ∣ L) :
    ∀ p ∈ bmsPairs m o L, o ≤ p.1 ∧ p.1 < p.2 ∧ p.2 < o + L := by
  intro p hp
  unfold bmsPairs at hp
  rw [List.mem_bind] at hp
  obtain ⟨l, hl, hp⟩ := hp
  rw [List.mem_range] at hl
  exact mergePairs_bounds l o L (dvd_trans (pow_dvd_pow 2 (by omega)) ho)
    (dvd_trans (pow_dvd_pow 2 (by omega)) hL) p hp

/-! ## The local kernel blocks in canonical form -/

theorem localDisperseBlockPairs_eq (w : ℕ) : ∀ e offset, e ≤ w + 1 →
    2 ^ (w + 1) ∣ offset →
    localDisperseBlockPairs (2 ^ w) (2 ^ e) offset =
      cascadePairs e offset (2 * 2 ^ w) := by
  intro e
  induction e with
  | zero =>
    intro offset _ _
    unfold localDisperseBlockPairs
    rw [show (2 : ℕ) ^ 0 = 1 from rfl]
    rw [show stageList 1 = [] from rfl]
    rfl
  | succ e ih =>
    intro offset he hoff
    unfold localDisperseBlockPairs
    rw [stageList_pow]
    have hb : ((2 ^ (e + 1) :: stageList (2 ^ e)).bind fun d =>
        localDispStagePairs (2 ^ w) d offset) =
        localDispStagePairs (2 ^ w) (2 ^ (e + 1)) offset ++
          ((stageList (2 ^ e)).bind fun d => localDispStagePairs (2 ^ w) d offset) := rfl
    rw [hb]
    have hoffe : 2 ^ (e + 1) ∣ offset :=
      dvd_trans (pow_dvd_pow 2 (by omega)) hoff
    have hwgs : 2 ^ e ∣ 2 ^ w := pow_dvd_pow 2 (by omega)
    rw [localDispStagePairs_eq e (2 ^ w) offset hoffe hwgs]
    have hih := ih offset (by omega) hoff
    unfold localDisperseBlockPairs at hih
    rw [hih]
    have hcp : cascadePairs (e + 1) offset (2 * 2 ^ w) =
        dispWindowPairs (2 ^ e) (offset / 2 ^ (e + 1)) (2 * 2 ^ w / 2 ^ (e + 1)) ++
          cascadePairs e offset (2 * 2 ^ w) := rfl
    rw [hcp]
    congr 2
    rw [show 2 * 2 ^ w = 2 ^ (w + 1) by rw [pow_succ]; ring,
      Nat.pow_div (by omega) (by norm_num),
      Nat.pow_div (by omega) (by norm_num)]
    congr 1
    omega

theorem localBmsBlockPairs_eq (w offset : ℕ) (hoff : 2 ^ (w + 1) ∣ offset) :
    localBmsBlockPairs (2 ^ w) (2 ^ (w + 1)) offset =
      bmsPairs (w + 1) offset (2 * 2 ^ w) := by
  unfold localBmsBlockPairs bmsPairs
  rw [levelList_pow]
  rw [show (((List.range (w + 1)).map fun l => 2 ^ (l + 1)).bind fun hh =>
      localFlipPairs (2 ^ w) hh offset ++
        localDisperseBlockPairs (2 ^ w) (hh / 2) offset) =
    (List.range (w + 1)).bind fun l =>
      localFlipPairs (2 ^ w) (2 ^ (l + 1)) offset ++
        localDisperseBlockPairs (2 ^ w) (2 ^ (l + 1) / 2) offset from
    List.bind_map _ _ _]
  apply List.bind_congr
  intro l hl
  rw [List.mem_range] at hl
  have hl2 : (2 : ℕ) ^ (l + 1) / 2 = 2 ^ l := by
    rw [pow_succ, Nat.mul_div_cancel _ (by norm_num)]
  rw [hl2, localFlipPairs_eq l (2 ^ w) offset
      (dvd_trans (pow_dvd_pow 2 (by omega)) hoff) (pow_dvd_pow 2 (by omega)),
    localDisperseBlockPairs_eq w l offset (by omega) hoff]
  unfold mergePairs
  congr 2
  rw [show 2 * 2 ^ w = 2 ^ (w + 1) by rw [pow_succ]; ring,
    Nat.pow_div (by omega) (by norm_num),
    Nat.pow_div (by omega) (by norm_num)]
  congr 1
  omega

theorem div_pow_congr {a b e f : ℕ} (hef : e ≤ f) (h : a / 2 ^ e = b / 2 ^ e) :
    a / 2 ^ f = b / 2 ^ f := by
  have hf : (2 : ℕ) ^ f = 2 ^ e * 2 ^ (f - e) := by
    rw [← pow_add]
    congr 1
    omega
  rw [hf, ← Nat.div_div_eq_div_mul, ← Nat.div_div_eq_div_mul, h]

theorem window_facts (e i : ℕ) :
    2 ^ e * (i / 2 ^ e) ≤ i ∧ i < 2 ^ e * (i / 2 ^ e) + 2 ^ e ∧
      2 ^ e ∣ 2 ^ e * (i / 2 ^ e) := by
  have hpos : 0 < (2 : ℕ) ^ e := Nat.pos_pow_of_pos e (by norm_num)
  have h1 := Nat.div_add_mod i (2 ^ e)
  have h2 : i % 2 ^ e < 2 ^ e := Nat.mod_lt i hpos
  exact ⟨by omega, by omega, Dvd.intro _ rfl⟩

theorem window_end {e K i : ℕ} (he : e ≤ K) (hi : i < 2 ^ K) :
    2 ^ e * (i / 2 ^ e) + 2 ^ e ≤ 2 ^ K := by
  have hK : (2 : ℕ) ^ K = 2 ^ e * 2 ^ (K - e) := by
    rw [← pow_add]
    congr 1
    omega
  have hdiv : i / 2 ^ e < 2 ^ (K - e) := Nat.div_lt_of_lt_mul (by rw [← hK]; exact hi)
  have h2 := Nat.mul_le_mul_left (2 ^ e) (show i / 2 ^ e + 1 ≤ 2 ^ (K - e) by omega)
  rw [Nat.mul_add, Nat.mul_one] at h2
  omega

theorem div_of_mem_window {e s v : ℕ} (hd : 2 ^ e ∣ s) (h1 : s ≤ v)
    (h2 : v < s + 2 ^ e) : v / 2 ^ e = s / 2 ^ e := by
  have hpos : 0 < (2 : ℕ) ^ e := Nat.pos_pow_of_pos e (by norm_num)
  obtain ⟨q, rfl⟩ := hd
  rw [Nat.mul_div_cancel_left q hpos]
  rw [show v = 2 ^ e * q + (v - 2 ^ e * q) by omega, Nat.mul_add_div hpos,
    Nat.div_eq_of_lt (by omega)]
  omega

theorem sortedOn_sub {c : ℕ → Bool} {s d s' d' : ℕ} (hs : SortedOn c s d)
    (h1 : s ≤ s') (h2 : s' + d' ≤ s + d) : SortedOn c s' d' := by
  intro i j ha hb hc hci
  exact hs i j (by omega) hb (by omega) hci

/-- Distinct aligned sub-windows of the same window are separated by the
half boundary. -/
theorem same_parent_halves {e s i i' : ℕ} (hd : 2 ^ (e + 1) ∣ s)
    (hi : s ≤ i) (hi2 : i < s + 2 ^ (e + 1)) (hi' : s ≤ i') (hi2' : i' < s + 2 ^ (e + 1))
    (hlt : i / 2 ^ e < i' / 2 ^ e) :
    i < s + 2 ^ e ∧ s + 2 ^ e ≤ i' := by
  have hpow : (2 : ℕ) ^ (e + 1) = 2 * 2 ^ e := by rw [pow_succ]; ring
  have hde : 2 ^ e ∣ s := dvd_trans (pow_dvd_pow 2 (Nat.le_succ e)) hd
  have hde2 : 2 ^ e ∣ s + 2 ^ e := Dvd.dvd.add hde dvd_rfl
  have hii : i < i' := by
    by_contra hcon
    push_neg at hcon
    have := Nat.div_le_div_right (c := 2 ^ e) hcon
    omega
  constructor
  · by_contra hcon
    push_neg at hcon
    have d1 : i / 2 ^ e = (s + 2 ^ e) / 2 ^ e :=
      div_of_mem_window hde2 hcon (by omega)
    have d2 : i' / 2 ^ e = (s + 2 ^ e) / 2 ^ e :=
      div_of_mem_window hde2 (by omega) (by omega)
    omega
  · by_contra hcon
    push_neg at hcon
    have d1 : i / 2 ^ e = s / 2 ^ e := div_of_mem_window hde hi (by omega)
    have d2 : i' / 2 ^ e = s / 2 ^ e := div_of_mem_window hde hi' (by omega)
    omega

/-- Descent of the cross-ordering invariant through one sub-stage acting on
the aligned `2^(e+1)` windows. -/
theorem cross_descend {K j e : ℕ} {c c₂ : ℕ → Bool}
    (hej : e + 1 ≤ j) (hjK : j ≤ K)
    (hsib : ∀ s, 2 ^ (e + 1) ∣ s → s + 2 ^ (e + 1) ≤ 2 ^ K →
      ∀ i i', s ≤ i → i < s + 2 ^ e → s + 2 ^ e ≤ i' → i' < s + 2 ^ (e + 1) →
        c₂ i = true → c₂ i' = true)
    (hT : ∀ s, 2 ^ (e + 1) ∣ s → s + 2 ^ (e + 1) ≤ 2 ^ K →
      ∀ i, s ≤ i → i < s + 2 ^ (e + 1) → c₂ i = true →
        ∃ u, s ≤ u ∧ u < s + 2 ^ (e + 1) ∧ c u = true)
    (hA : ∀ s, 2 ^ (e + 1) ∣ s → s + 2 ^ (e + 1) ≤ 2 ^ K →
      (∀ i, s ≤ i → i < s + 2 ^ (e + 1) → c i = true) →
      ∀ i, s ≤ i → i < s + 2 ^ (e + 1) → c₂ i = true)
    (hcross : CrossAt K j (e + 1) c) :
    CrossAt K j e c₂ := by
  intro i i' hiK hiK' hj he hci
  obtain ⟨hw1, hw2, hw3⟩ := window_facts (e + 1) i
  obtain ⟨hw1', hw2', hw3'⟩ := window_facts (e + 1) i'
  have hend := window_end (show e + 1 ≤ K by omega) hiK
  have hend' := window_end (show e + 1 ≤ K by omega) hiK'
  rcases eq_or_ne (i / 2 ^ (e + 1)) (i' / 2 ^ (e + 1)) with hsame | hdiff
  · -- same parent window: the sibling cross applies
    set s : ℕ := 2 ^ (e + 1) * (i / 2 ^ (e + 1)) with hsdef
    have hi'in : s ≤ i' ∧ i' < s + 2 ^ (e + 1) := by
      rw [hsdef, hsame]
      exact ⟨hw1', hw2'⟩
    obtain ⟨hhalf1, hhalf2⟩ := same_parent_halves hw3 hw1 hw2 hi'in.1 hi'in.2 he
    exact hsib s hw3 hend i i' hw1 hhalf1 hhalf2 hi'in.2 hci
  · -- different parent windows: transport, cross at the coarser level, refill
    have hple : i / 2 ^ (e + 1) ≤ i' / 2 ^ (e + 1) := by
      have h1 : i / 2 ^ (e + 1) = i / 2 ^ e / 2 := by
        rw [Nat.div_div_eq_div_mul, ← pow_succ]
      have h2 : i' / 2 ^ (e + 1) = i' / 2 ^ e / 2 := by
        rw [Nat.div_div_eq_div_mul, ← pow_succ]
      rw [h1, h2]
      exact Nat.div_le_div_right (by omega)
    have hplt : i / 2 ^ (e + 1) < i' / 2 ^ (e + 1) := by omega
    obtain ⟨u, hu1, hu2, hu3⟩ := hT _ hw3 hend i hw1 hw2 hci
    have hudiv : u / 2 ^ (e + 1) = i / 2 ^ (e + 1) := by
      have ha := div_of_mem_window hw3 hu1 hu2
      have hb := div_of_mem_window hw3 hw1 hw2
      omega
    have hall : ∀ v, 2 ^ (e + 1) * (i' / 2 ^ (e + 1)) ≤ v →
        v < 2 ^ (e + 1) * (i' / 2 ^ (e + 1)) + 2 ^ (e + 1) → c v = true := by
      intro v hv1 hv2
      have hvdiv : v / 2 ^ (e + 1) = i' / 2 ^ (e + 1) := by
        have ha := div_of_mem_window hw3' hv1 hv2
        have hb := div_of_mem_window hw3' hw1' hw2'
        omega
      apply hcross u v (by omega) (by omega) ?_ ?_ hu3
      · have h1 : u / 2 ^ j = i / 2 ^ j := div_pow_congr hej hudiv
        have h2 : v / 2 ^ j = i' / 2 ^ j := div_pow_congr hej hvdiv
        rw [h1, h2, hj]
      · rw [hudiv, hvdiv]
        exact hplt
    exact hA _ hw3' hend' hall i' hw1' hw2'

/-- One `big_disperse` dispatch at distance `2^(e+1)`, acting on the whole
padded domain. -/
theorem bigDisp_step {K j e : ℕ} (c : ℕ → Bool) (hej : e + 1 ≤ j) (hjK : j ≤ K)
    (hbit : BitAt K (e + 1) c) (hcr : CrossAt K j (e + 1) c) :
    BitAt K e (casListExec sw01 (dispWindowPairs (2 ^ e) 0 (2 ^ (K - e - 1))) c) ∧
      CrossAt K j e (casListExec sw01 (dispWindowPairs (2 ^ e) 0 (2 ^ (K - e - 1))) c) := by
  have hpos : 0 < (2 : ℕ) ^ e := Nat.pos_pow_of_pos e (by norm_num)
  have hpow : (2 : ℕ) ^ (e + 1) = 2 * 2 ^ e := by rw [pow_succ]; ring
  have hDom : 2 * 2 ^ e * (0 + 2 ^ (K - e - 1)) = 2 ^ K := by
    rw [Nat.zero_add, ← hpow, ← pow_add]
    congr 1
    omega
  set c₂ : ℕ → Bool := casListExec sw01 (dispWindowPairs (2 ^ e) 0 (2 ^ (K - e - 1))) c
    with hc₂
  obtain ⟨ev1, ev2⟩ := dispWindowPairs_eval (2 ^ e) 0 (2 ^ (K - e - 1)) hpos c
  have hwin : ∀ s, 2 ^ (e + 1) ∣ s → s + 2 ^ (e + 1) ≤ 2 ^ K →
      (s / 2 ^ (e + 1) < 0 + 2 ^ (K - e - 1) ∧ 2 * 2 ^ e * (s / 2 ^ (e + 1)) = s) := by
    intro s hsd hse
    have hsW : 2 * 2 ^ e * (s / 2 ^ (e + 1)) = s := by
      rw [← hpow]
      exact Nat.mul_div_cancel' hsd
    refine ⟨?_, hsW⟩
    have h1 : 2 * 2 ^ e * (s / 2 ^ (e + 1) + 1) ≤ 2 * 2 ^ e * (0 + 2 ^ (K - e - 1)) := by
      rw [Nat.mul_add, hsW, Nat.mul_one, hDom]
      omega
    have := Nat.le_of_mul_le_mul_left h1 (by omega)
    omega
  have hstage : ∀ s, 2 ^ (e + 1) ∣ s → s + 2 ^ (e + 1) ≤ 2 ^ K →
      BitonicOn c₂ s (2 ^ e) ∧ BitonicOn c₂ (s + 2 ^ e) (2 ^ e) ∧
        (∀ i j', s ≤ i → i < s + 2 ^ e → s + 2 ^ e ≤ j' → j' < s + 2 * 2 ^ e →
          c₂ i = true → c₂ j' = true) ∧
        (∀ i, s ≤ i → i < s + 2 * 2 ^ e → c₂ i = true →
          ∃ i', s ≤ i' ∧ i' < s + 2 * 2 ^ e ∧ c i' = true) ∧
        ((∀ i, s ≤ i → i < s + 2 * 2 ^ e → c i = true) →
          ∀ i, s ≤ i → i < s + 2 * 2 ^ e → c₂ i = true) := by
    intro s hsd hse
    obtain ⟨hWb, hsW⟩ := hwin s hsd hse
    have hl : ∀ r, r < 2 ^ e → c₂ (s + r) = (c (s + r) && c (s + (2 ^ e + r))) := by
      intro r hr
      have := (ev2 (s / 2 ^ (e + 1)) r (Nat.zero_le _) hWb hr).1
      rwa [hsW] at this
    have hu : ∀ r, r < 2 ^ e → c₂ (s + (2 ^ e + r)) = (c (s + r) || c (s + (2 ^ e + r))) := by
      intro r hr
      have := (ev2 (s / 2 ^ (e + 1)) r (Nat.zero_le _) hWb hr).2
      rwa [hsW] at this
    have hb : BitonicOn c s (2 * 2 ^ e) := by
      have := hbit s hse hsd
      rwa [hpow] at this
    obtain ⟨hb1, hb2, hcross⟩ := disperse_window s (2 ^ e) c c₂ hpos hb hl hu
    have hgb : ∀ r, r < 2 ^ e →
        2 ^ e ≤ (fun r => 2 ^ e + r) r ∧ (fun r => 2 ^ e + r) r < 2 * 2 ^ e := by
      intro r hr
      show 2 ^ e ≤ 2 ^ e + r ∧ 2 ^ e + r < 2 * 2 ^ e
      omega
    have hgs : ∀ j', 2 ^ e ≤ j' → j' < 2 * 2 ^ e →
        ∃ r, r < 2 ^ e ∧ (fun r => 2 ^ e + r) r = j' := by
      intro j' h1 h2
      refine ⟨j' - 2 ^ e, by omega, ?_⟩
      show 2 ^ e + (j' - 2 ^ e) = j'
      omega
    obtain ⟨hT, hA⟩ := pair_stage_transport s (2 ^ e) c c₂ (fun r => 2 ^ e + r) hgb hl hu hgs
    exact ⟨hb1, hb2, hcross, hT, hA⟩
  constructor
  · intro s' hse hsd
    obtain ⟨s, hsd2, _, hsend, hcase⟩ := half_decompose (dvd_zero _)
      (pow_dvd_pow 2 (show e + 1 ≤ K by omega)) hsd (Nat.zero_le s') (by omega)
    rw [Nat.zero_add] at hsend
    obtain ⟨hb1, hb2, _, _, _⟩ := hstage s hsd2 hsend
    rcases hcase with rfl | rfl
    · exact hb1
    · exact hb2
  · apply cross_descend hej hjK ?_ ?_ ?_ hcr
    · intro s hsd hse i i' h1 h2 h3 h4 hci
      obtain ⟨_, _, hcross, _, _⟩ := hstage s hsd hse
      exact hcross i i' h1 h2 h3 (by rw [hpow] at h4; omega) hci
    · intro s hsd hse i h1 h2 hci
      obtain ⟨_, _, _, hT, _⟩ := hstage s hsd hse
      obtain ⟨u, hu1, hu2, hu3⟩ := hT i h1 (by rw [hpow] at h2; omega) hci
      exact ⟨u, hu1, by rw [hpow]; omega, hu3⟩
    · intro s hsd hse hall i h1 h2
      obtain ⟨_, _, _, _, hA⟩ := hstage s hsd hse
      exact hA (fun i' ha hb => hall i' ha (by rw [hpow]; omega)) i h1 (by rw [hpow] at h2; omega)

/-- One `big_flip` dispatch over windows of size `2^(e+1)`, acting on the
whole padded domain of sorted `2^e` windows. -/
theorem bigFlip_step {K e : ℕ} (c : ℕ → Bool) (heK : e + 1 ≤ K)
    (hsort : AllSortedAt K e c) :
    BitAt K e (casListExec sw01 (flipWindowPairs (2 ^ e) 0 (2 ^ (K - e - 1))) c) ∧
      CrossAt K (e + 1) e (casListExec sw01 (flipWindowPairs (2 ^ e) 0 (2 ^ (K - e - 1))) c) := by
  have hpos : 0 < (2 : ℕ) ^ e := Nat.pos_pow_of_pos e (by norm_num)
  have hpow : (2 : ℕ) ^ (e + 1) = 2 * 2 ^ e := by rw [pow_succ]; ring
  have hDom : 2 * 2 ^ e * (0 + 2 ^ (K - e - 1)) = 2 ^ K := by
    rw [Nat.zero_add, ← hpow, ← pow_add]
    congr 1
    omega
  set c₂ : ℕ → Bool := casListExec sw01 (flipWindowPairs (2 ^ e) 0 (2 ^ (K - e - 1))) c
    with hc₂
  obtain ⟨ev1, ev2⟩ := flipWindowPairs_eval (2 ^ e) 0 (2 ^ (K - e - 1)) hpos c
  have hwin : ∀ s, 2 ^ (e + 1) ∣ s → s + 2 ^ (e + 1) ≤ 2 ^ K →
      (s / 2 ^ (e + 1) < 0 + 2 ^ (K - e - 1) ∧ 2 * 2 ^ e * (s / 2 ^ (e + 1)) = s) := by
    intro s hsd hse
    have hsW : 2 * 2 ^ e * (s / 2 ^ (e + 1)) = s := by
      rw [← hpow]
      exact Nat.mul_div_cancel' hsd
    refine ⟨?_, hsW⟩
    have h1 : 2 * 2 ^ e * (s / 2 ^ (e + 1) + 1) ≤ 2 * 2 ^ e * (0 + 2 ^ (K - e - 1)) := by
      rw [Nat.mul_add, hsW, Nat.mul_one, hDom]
      omega
    have := Nat.le_of_mul_le_mul_left h1 (by omega)
    omega
  have hstage : ∀ s, 2 ^ (e + 1) ∣ s → s + 2 ^ (e + 1) ≤ 2 ^ K →
      BitonicOn c₂ s (2 ^ e) ∧ BitonicOn c₂ (s + 2 ^ e) (2 ^ e) ∧
        (∀ i j', s ≤ i → i < s + 2 ^ e → s + 2 ^ e ≤ j' → j' < s + 2 * 2 ^ e →
          c₂ i = true → c₂ j' = true) := by
    intro s hsd hse
    obtain ⟨hWb, hsW⟩ := hwin s hsd hse
    have hl : ∀ r, r < 2 ^ e →
        c₂ (s + r) = (c (s + r) && c (s + (2 * 2 ^ e - 1 - r))) := by
      intro r hr
      have := (ev2 (s / 2 ^ (e + 1)) r (Nat.zero_le _) hWb hr).1
      rwa [hsW] at this
    have hu : ∀ r, r < 2 ^ e →
        c₂ (s + (2 * 2 ^ e - 1 - r)) = (c (s + r) || c (s + (2 * 2 ^ e - 1 - r))) := by
      intro r hr
      have := (ev2 (s / 2 ^ (e + 1)) r (Nat.zero_le _) hWb hr).2
      rwa [hsW] at this
    have hde : 2 ^ e ∣ s := dvd_trans (pow_dvd_pow 2 (Nat.le_succ e)) hsd
    have hs1 : SortedOn c s (2 ^ e) := hsort s (by rw [hpow] at hse; omega) hde
    have hs2 : SortedOn c (s + 2 ^ e) (2 ^ e) :=
      hsort (s + 2 ^ e) (by rw [hpow] at hse; omega) (Dvd.dvd.add hde dvd_rfl)
    exact flip_window s (2 ^ e) c c₂ hpos hs1 hs2 hl hu
  constructor
  · intro s' hse hsd
    obtain ⟨s, hsd2, _, hsend, hcase⟩ := half_decompose (dvd_zero _)
      (pow_dvd_pow 2 (show e + 1 ≤ K by omega)) hsd (Nat.zero_le s') (by omega)
    rw [Nat.zero_add] at hsend
    obtain ⟨hb1, hb2, _⟩ := hstage s hsd2 hsend
    rcases hcase with rfl | rfl
    · exact hb1
    · exact hb2
  · intro i i' hiK hiK' hj he hci
    obtain ⟨hw1, hw2, hw3⟩ := window_facts (e + 1) i
    have hend := window_end (show e + 1 ≤ K by omega) hiK
    have hi'in : 2 ^ (e + 1) * (i / 2 ^ (e + 1)) ≤ i' ∧
        i' < 2 ^ (e + 1) * (i / 2 ^ (e + 1)) + 2 ^ (e + 1) := by
      obtain ⟨hw1', hw2', _⟩ := window_facts (e + 1) i'
      rw [hj]
      exact ⟨hw1', hw2'⟩
    obtain ⟨hhalf1, hhalf2⟩ := same_parent_halves hw3 hw1 hw2 hi'in.1 hi'in.2 he
    obtain ⟨_, _, hcross⟩ := hstage _ hw3 hend
    exact hcross i i' hw1 hhalf1 hhalf2 (by have h5 := hi'in.2; omega) hci

theorem dvd_lt_add_le {m x y : ℕ} (hm : 0 < m) (hx : m ∣ x) (hy : m ∣ y)
    (hxy : x < y) : x + m ≤ y := by
  obtain ⟨a, rfl⟩ := hx
  obtain ⟨b, rfl⟩ := hy
  have hab : a < b := Nat.lt_of_mul_lt_mul_left hxy
  have := Nat.mul_le_mul_left m (show a + 1 ≤ b by omega)
  rw [Nat.mul_add, Nat.mul_one] at this
  omega

/-- One `LocalDisperse` dispatch at distance `2^e ≤ 2·wgs`: every workgroup
block runs its full cascade, leaving every aligned `2^e` window sorted. -/
theorem localDisp_step {K j e w cw : ℕ} (c : ℕ → Bool)
    (hK : K = w + 1 + cw) (he : e ≤ w + 1) (hej : e ≤ j) (hjK : j ≤ K)
    (hbit : BitAt K e c) (hcr : CrossAt K j e c) :
    AllSortedAt K e (casListExec sw01 ((List.range (2 ^ cw)).bind fun wg =>
      cascadePairs e (2 * 2 ^ w * wg) (2 * 2 ^ w)) c) ∧
    CrossAt K j e (casListExec sw01 ((List.range (2 ^ cw)).bind fun wg =>
      cascadePairs e (2 * 2 ^ w * wg) (2 * 2 ^ w)) c) := by
  have hpos : 0 < (2 : ℕ) ^ e := Nat.pos_pow_of_pos e (by norm_num)
  have hL : (2 : ℕ) * 2 ^ w = 2 ^ (w + 1) := by rw [pow_succ]; ring
  have hLpos : 0 < 2 * 2 ^ w := by
    have : 0 < (2 : ℕ) ^ w := Nat.pos_pow_of_pos w (by norm_num)
    omega
  have hdL : 2 ^ e ∣ 2 * 2 ^ w := by
    rw [hL]
    exact pow_dvd_pow 2 (by omega)
  have hdO : ∀ wg : ℕ, 2 ^ e ∣ 2 * 2 ^ w * wg := fun wg => Dvd.dvd.mul_right hdL wg
  have hKL : 2 * 2 ^ w * 2 ^ cw = 2 ^ K := by
    rw [hL, ← pow_add]
    congr 1
    omega
  set c₂ : ℕ → Bool := casListExec sw01 ((List.range (2 ^ cw)).bind fun wg =>
    cascadePairs e (2 * 2 ^ w * wg) (2 * 2 ^ w)) c with hc₂
  have hfold : c₂ = (List.range (2 ^ cw)).foldl
      (fun b wg => casListExec sw01 (cascadePairs e (2 * 2 ^ w * wg) (2 * 2 ^ w)) b) c := by
    rw [hc₂, casListExec_bind]
  have hP : ∀ wg, ∀ p ∈ cascadePairs e (2 * 2 ^ w * wg) (2 * 2 ^ w),
      2 * 2 ^ w * wg ≤ p.1 ∧ p.1 < 2 * 2 ^ w * (wg + 1) ∧
        2 * 2 ^ w * wg ≤ p.2 ∧ p.2 < 2 * 2 ^ w * (wg + 1) := by
    intro wg p hp
    obtain ⟨h1, h2, h3⟩ :=
      cascadePairs_bounds e (2 * 2 ^ w * wg) (2 * 2 ^ w) (hdO wg) hdL p hp
    have : 2 * 2 ^ w * (wg + 1) = 2 * 2 ^ w * wg + 2 * 2 ^ w := by ring
    omega
  obtain ⟨bl1, bl2⟩ := casListExec_blocks sw01
    (fun wg => cascadePairs e (2 * 2 ^ w * wg) (2 * 2 ^ w)) (2 * 2 ^ w) hP (2 ^ cw) c
  have hblock : ∀ wg, wg < 2 ^ cw →
      (∀ i, i < 2 * 2 ^ w * wg ∨ 2 * 2 ^ w * wg + 2 * 2 ^ w ≤ i →
        casListExec sw01 (cascadePairs e (2 * 2 ^ w * wg) (2 * 2 ^ w)) c i = c i) ∧
      (∀ s, 2 * 2 ^ w * wg ≤ s → s + 2 ^ e ≤ 2 * 2 ^ w * wg + 2 * 2 ^ w → 2 ^ e ∣ s →
        SortedOn (casListExec sw01 (cascadePairs e (2 * 2 ^ w * wg) (2 * 2 ^ w)) c) s (2 ^ e) ∧
        (∀ i, s ≤ i → i < s + 2 ^ e →
          casListExec sw01 (cascadePairs e (2 * 2 ^ w * wg) (2 * 2 ^ w)) c i = true →
          ∃ i', s ≤ i' ∧ i' < s + 2 ^ e ∧ c i' = true) ∧
        ((∀ i, s ≤ i → i < s + 2 ^ e → c i = true) →
          ∀ i, s ≤ i → i < s + 2 ^ e →
            casListExec sw01 (cascadePairs e (2 * 2 ^ w * wg) (2 * 2 ^ w)) c i = true)) := by
    intro wg hwg
    apply cascade_run e (2 * 2 ^ w * wg) (2 * 2 ^ w) c (hdO wg) hdL
    intro s hs1 hs2 hsd
    apply hbit s ?_ hsd
    have hblocke : 2 * 2 ^ w * wg + 2 * 2 ^ w ≤ 2 ^ K := by
      have h1 : 2 * 2 ^ w * (wg + 1) ≤ 2 * 2 ^ w * 2 ^ cw :=
        Nat.mul_le_mul_left _ (by omega)
      rw [Nat.mul_add, Nat.mul_one] at h1
      omega
    omega
  -- locate the block of an aligned window
  have hwinblock : ∀ s, s + 2 ^ e ≤ 2 ^ K → 2 ^ e ∣ s →
      (s / (2 * 2 ^ w) < 2 ^ cw ∧ 2 * 2 ^ w * (s / (2 * 2 ^ w)) ≤ s ∧
        s + 2 ^ e ≤ 2 * 2 ^ w * (s / (2 * 2 ^ w)) + 2 * 2 ^ w) := by
    intro s hse hsd
    have hdm := Nat.div_add_mod s (2 * 2 ^ w)
    have hmod : s % (2 * 2 ^ w) < 2 * 2 ^ w := Nat.mod_lt s hLpos
    have hwg : s / (2 * 2 ^ w) < 2 ^ cw := by
      apply Nat.div_lt_of_lt_mul
      rw [hKL]
      omega
    refine ⟨hwg, by omega, ?_⟩
    apply dvd_lt_add_le hpos hsd
    · apply Dvd.dvd.add (hdO _) hdL
    · omega
  constructor
  · intro s hse hsd
    obtain ⟨hwg, hb1, hb2⟩ := hwinblock s hse hsd
    set wg : ℕ := s / (2 * 2 ^ w) with hwgdef
    obtain ⟨hsort, _, _⟩ := (hblock wg hwg).2 s hb1 hb2 hsd
    intro i i' h1 h2 h3 hci
    have hrw : ∀ v, s ≤ v → v < s + 2 ^ e → c₂ v =
        casListExec sw01 (cascadePairs e (2 * 2 ^ w * wg) (2 * 2 ^ w)) c v := by
      intro v hv1 hv2
      rw [hfold]
      exact bl1 wg hwg v (by omega) (by rw [Nat.mul_add, Nat.mul_one]; omega)
    rw [hrw i' (by omega) h3]
    rw [hrw i h1 (by omega)] at hci
    exact hsort i i' h1 h2 h3 hci
  · intro i i' hiK hiK' hj he' hci
    have heK : e ≤ K := by omega
    obtain ⟨hw1, hw2, hw3⟩ := window_facts e i
    obtain ⟨hw1', hw2', hw3'⟩ := window_facts e i'
    have hend := window_end heK hiK
    have hend' := window_end heK hiK'
    obtain ⟨hwg, hb1, hb2⟩ := hwinblock _ hend hw3
    obtain ⟨hwg', hb1', hb2'⟩ := hwinblock _ hend' hw3'
    set s : ℕ := 2 ^ e * (i / 2 ^ e)
    set s' : ℕ := 2 ^ e * (i' / 2 ^ e)
    set wg : ℕ := s / (2 * 2 ^ w)
    set wg' : ℕ := s' / (2 * 2 ^ w)
    have hrw : ∀ v, s ≤ v → v < s + 2 ^ e → c₂ v =
        casListExec sw01 (cascadePairs e (2 * 2 ^ w * wg) (2 * 2 ^ w)) c v := by
      intro v hv1 hv2
      rw [hfold]
      exact bl1 wg hwg v (by omega) (by rw [Nat.mul_add, Nat.mul_one]; omega)
    have hrw' : ∀ v, s' ≤ v → v < s' + 2 ^ e → c₂ v =
        casListExec sw01 (cascadePairs e (2 * 2 ^ w * wg') (2 * 2 ^ w)) c v := by
      intro v hv1 hv2
      rw [hfold]
      exact bl1 wg' hwg' v (by omega) (by rw [Nat.mul_add, Nat.mul_one]; omega)
    obtain ⟨_, hT, _⟩ := (hblock wg hwg).2 s hb1 hb2 hw3
    obtain ⟨_, _, hA⟩ := (hblock wg' hwg').2 s' hb1' hb2' hw3'
    rw [hrw i hw1 hw2] at hci
    obtain ⟨u, hu1, hu2, hu3⟩ := hT i hw1 hw2 hci
    have hall : ∀ v, s' ≤ v → v < s' + 2 ^ e → c v = true := by
      intro v hv1 hv2
      apply hcr u v (by omega) (by omega) ?_ ?_ hu3
      · have d1 : u / 2 ^ e = i / 2 ^ e := by
          have ha := div_of_mem_window hw3 hu1 hu2
          have hb := div_of_mem_window hw3 hw1 hw2
          omega
        have d2 : v / 2 ^ e = i' / 2 ^ e := by
          have ha := div_of_mem_window hw3' hv1 hv2
          have hb := div_of_mem_window hw3' hw1' hw2'
          omega
        have j1 : u / 2 ^ j = i / 2 ^ j := div_pow_congr hej d1
        have j2 : v / 2 ^ j = i' / 2 ^ j := div_pow_congr hej d2
        rw [j1, j2, hj]
      · have d1 : u / 2 ^ e = i / 2 ^ e := by
          have ha := div_of_mem_window hw3 hu1 hu2
          have hb := div_of_mem_window hw3 hw1 hw2
          omega
        have d2 : v / 2 ^ e = i' / 2 ^ e := by
          have ha := div_of_mem_window hw3' hv1 hv2
          have hb := div_of_mem_window hw3' hw1' hw2'
          omega
        omega
    rw [hrw' i' hw1' hw2']
    exact hA hall i' hw1' hw2'

/-- Sorted windows with cross-ordering yield the next invariant level down. -/
theorem inv_of_sorted {K j e : ℕ} {c : ℕ → Bool} (hej : e + 1 ≤ j) (heK : e + 1 ≤ K)
    (hsort : AllSortedAt K (e + 1) c) (hcr : CrossAt K j (e + 1) c) :
    BitAt K e c ∧ CrossAt K j e c := by
  constructor
  · intro s' hse hsd
    obtain ⟨s, hsd2, _, hsend, hcase⟩ := half_decompose (dvd_zero _)
      (pow_dvd_pow 2 heK) hsd (Nat.zero_le s') (by omega)
    rw [Nat.zero_add] at hsend
    have hsorted := hsort s hsend hsd2
    apply sortedOn_bitonic
    rcases hcase with rfl | rfl
    · exact sortedOn_sub hsorted (le_refl _) (by
        have hpow : (2 : ℕ) ^ (e + 1) = 2 * 2 ^ e := by rw [pow_succ]; ring
        omega)
    · exact sortedOn_sub hsorted (by omega) (by
        have hpow : (2 : ℕ) ^ (e + 1) = 2 * 2 ^ e := by rw [pow_succ]; ring
        omega)
  · intro i i' hiK hiK' hj he hci
    rcases eq_or_ne (i / 2 ^ (e + 1)) (i' / 2 ^ (e + 1)) with hsame | hdiff
    · -- same parent: sortedness of that window
      obtain ⟨hw1, hw2, hw3⟩ := window_facts (e + 1) i
      have hend := window_end heK hiK
      have hii : i < i' := by
        by_contra hcon
        push_neg at hcon
        have := Nat.div_le_div_right (c := 2 ^ e) hcon
        omega
      have hi' : 2 ^ (e + 1) * (i / 2 ^ (e + 1)) ≤ i' ∧
          i' < 2 ^ (e + 1) * (i / 2 ^ (e + 1)) + 2 ^ (e + 1) := by
        obtain ⟨hw1', hw2', _⟩ := window_facts (e + 1) i'
        rw [hsame]
        exact ⟨hw1', hw2'⟩
      exact hsort _ hend hw3 i i' hw1 (by omega) hi'.2 hci
    · have hple : i / 2 ^ (e + 1) < i' / 2 ^ (e + 1) := by
        have h1 : i / 2 ^ (e + 1) = i / 2 ^ e / 2 := by
          rw [Nat.div_div_eq_div_mul, ← pow_succ]
        have h2 : i' / 2 ^ (e + 1) = i' / 2 ^ e / 2 := by
          rw [Nat.div_div_eq_div_mul, ← pow_succ]
        have h3 : i / 2 ^ e / 2 ≤ i' / 2 ^ e / 2 := Nat.div_le_div_right (by omega)
        omega
      exact hcr i i' hiK hiK' hj hple hci

/-- Cross-ordering at unit granularity is sortedness of the `2^j` windows. -/
theorem sorted_of_cross0 {K j : ℕ} {c : ℕ → Bool} (hcr : CrossAt K j 0 c) :
    AllSortedAt K j c := by
  intro s hse hsd i i' h1 h2 h3 hci
  rcases eq_or_ne i i' with rfl | hne
  · exact hci
  · apply hcr i i' (by omega) (by omega) ?_ ?_ hci
    · have d1 : i / 2 ^ j = s / 2 ^ j := div_of_mem_window hsd h1 (by omega)
      have d2 : i' / 2 ^ j = s / 2 ^ j := div_of_mem_window hsd (by omega) h3
      omega
    · show i / 2 ^ 0 < i' / 2 ^ 0
      simpa using (by omega : i < i')

/-! ## The scheduled passes in canonical form -/

theorem planPairs_cons (wgs wgc : ℕ) (p : ℕ × BitonicPassAlgorithm)
    (rest : List (ℕ × BitonicPassAlgorithm)) :
    planPairs wgs wgc (p :: rest) =
      passPairs wgs wgc p.1 p.2 ++ planPairs wgs wgc rest := rfl

theorem planPairs_append (wgs wgc : ℕ) (l1 l2 : List (ℕ × BitonicPassAlgorithm)) :
    planPairs wgs wgc (l1 ++ l2) = planPairs wgs wgc l1 ++ planPairs wgs wgc l2 := by
  unfold planPairs
  exact List.append_bind _ _ _

theorem passPairs_localBms (w cw : ℕ) :
    passPairs (2 ^ w) (2 ^ cw) (2 ^ (w + 1)) BitonicPassAlgorithm.LocalBms =
      (List.range (2 ^ cw)).bind fun wg =>
        bmsPairs (w + 1) (2 * 2 ^ w * wg) (2 * 2 ^ w) := by
  unfold passPairs
  apply List.bind_congr
  intro wg _
  rw [show (2 : ℕ) ^ w * 2 * wg = 2 * 2 ^ w * wg by ring]
  exact localBmsBlockPairs_eq w (2 * 2 ^ w * wg)
    (Dvd.dvd.mul_right (by rw [show (2 : ℕ) * 2 ^ w = 2 ^ (w + 1) by rw [pow_succ]; ring]) wg)

theorem passPairs_localDisp (w cw e : ℕ) (he : e ≤ w + 1) :
    passPairs (2 ^ w) (2 ^ cw) (2 ^ e) BitonicPassAlgorithm.LocalDisperse =
      (List.range (2 ^ cw)).bind fun wg =>
        cascadePairs e (2 * 2 ^ w * wg) (2 * 2 ^ w) := by
  unfold passPairs
  apply List.bind_congr
  intro wg _
  rw [show (2 : ℕ) ^ w * 2 * wg = 2 * 2 ^ w * wg by ring]
  exact localDisperseBlockPairs_eq w e (2 * 2 ^ w * wg) he
    (Dvd.dvd.mul_right (by rw [show (2 : ℕ) * 2 ^ w = 2 ^ (w + 1) by rw [pow_succ]; ring]) wg)

theorem passPairs_bigDisp (w cw e K : ℕ) (hK : K = w + 1 + cw) (heK : e + 1 ≤ K) :
    passPairs (2 ^ w) (2 ^ cw) (2 ^ (e + 1)) BitonicPassAlgorithm.BigDisperse =
      dispWindowPairs (2 ^ e) 0 (2 ^ (K - e - 1)) := by
  unfold passPairs
  rw [show (2 : ℕ) ^ w * 2 ^ cw = 2 ^ (K - e - 1) * 2 ^ e by
    rw [← pow_add, ← pow_add]
    congr 1
    omega]
  exact bigDispersePairs_eq e (2 ^ (K - e - 1))

theorem passPairs_bigFlip (w cw e K : ℕ) (hK : K = w + 1 + cw) (heK : e + 1 ≤ K) :
    passPairs (2 ^ w) (2 ^ cw) (2 ^ (e + 1)) BitonicPassAlgorithm.BigFlip =
      flipWindowPairs (2 ^ e) 0 (2 ^ (K - e - 1)) := by
  unfold passPairs
  rw [show (2 : ℕ) ^ w * 2 ^ cw = 2 ^ (K - e - 1) * 2 ^ e by
    rw [← pow_add, ← pow_add]
    congr 1
    omega]
  exact bigFlipPairs_eq e (2 ^ (K - e - 1))

/-- Running the disperse passes `2^eh, …, 2` of one outer level sorts every
`2^j` window, in the regime `workgroupCount ≤ 2·workgroupSize`. -/
theorem disp_list_run {K j w cw : ℕ} (hK : K = w + 1 + cw) (hreg : cw ≤ w + 1)
    (hjK : j ≤ K) :
    ∀ eh (c : ℕ → Bool), eh + 1 ≤ j → BitAt K eh c → CrossAt K j eh c →
      AllSortedAt K j (casListExec sw01
        (planPairs (2 ^ w) (2 ^ cw) (dispersePassesSpecN cw eh)) c) := by
  intro eh
  induction eh with
  | zero =>
    intro c _ _ hcr
    exact sorted_of_cross0 hcr
  | succ eh ih =>
    intro c hehj hbit hcr
    have hsplit : dispersePassesSpecN cw (eh + 1) =
        (if eh + 1 ≤ cw then ((2 ^ (eh + 1) : ℕ), BitonicPassAlgorithm.LocalDisperse)
         else ((2 ^ (eh + 1) : ℕ), BitonicPassAlgorithm.BigDisperse)) ::
          dispersePassesSpecN cw eh := rfl
    by_cases hc : eh + 1 ≤ cw
    · rw [hsplit, if_pos hc, planPairs_cons, casListExec_append]
      rw [show (((2 ^ (eh + 1) : ℕ), BitonicPassAlgorithm.LocalDisperse)).1 = 2 ^ (eh + 1)
        from rfl,
        show (((2 ^ (eh + 1) : ℕ), BitonicPassAlgorithm.LocalDisperse)).2 =
          BitonicPassAlgorithm.LocalDisperse from rfl,
        passPairs_localDisp w cw (eh + 1) (by omega)]
      obtain ⟨hsort, hcr2⟩ := localDisp_step c hK (by omega) (by omega) hjK hbit hcr
      obtain ⟨hbit', hcr'⟩ := inv_of_sorted (by omega) (by omega) hsort hcr2
      exact ih _ (by omega) hbit' hcr'
    · rw [hsplit, if_neg hc, planPairs_cons, casListExec_append]
      rw [show (((2 ^ (eh + 1) : ℕ), BitonicPassAlgorithm.BigDisperse)).1 = 2 ^ (eh + 1)
        from rfl,
        show (((2 ^ (eh + 1) : ℕ), BitonicPassAlgorithm.BigDisperse)).2 =
          BitonicPassAlgorithm.BigDisperse from rfl,
        passPairs_bigDisp w cw eh K hK (by omega)]
      obtain ⟨hbit', hcr'⟩ := bigDisp_step c (by omega) hjK hbit hcr
      exact ih _ (by omega) hbit' hcr'

/-- Running the outer levels `j, j+1, …, K` of the schedule sorts the whole
padded domain, in the regime `workgroupCount ≤ 2·workgroupSize`. -/
theorem outer_run {K w cw : ℕ} (hK : K = w + 1 + cw) (hreg : cw ≤ w + 1) :
    ∀ m j (c : ℕ → Bool), j + m = K + 1 → w + 2 ≤ j → AllSortedAt K (j - 1) c →
      AllSortedAt K K (casListExec sw01
        (planPairs (2 ^ w) (2 ^ cw) (outerPassesSpecN cw j m)) c) := by
  intro m
  induction m with
  | zero =>
    intro j c hjm hwj hsort
    have hjK : j - 1 = K := by omega
    show AllSortedAt K K c
    rw [← hjK]
    rw [← hjK] at hsort
    exact hsort
  | succ m ih =>
    intro j c hjm hwj hsort
    have hjK : j ≤ K := by omega
    have hj1 : j = (j - 1) + 1 := by omega
    have hsplit : outerPassesSpecN cw j (m + 1) =
        (((2 ^ j : ℕ), BitonicPassAlgorithm.BigFlip) :: dispersePassesSpecN cw (j - 1)) ++
          outerPassesSpecN cw (j + 1) m := rfl
    rw [hsplit, planPairs_append, casListExec_append, planPairs_cons, casListExec_append]
    rw [show (((2 ^ j : ℕ), BitonicPassAlgorithm.BigFlip)).1 = 2 ^ j from rfl,
      show (((2 ^ j : ℕ), BitonicPassAlgorithm.BigFlip)).2 =
        BitonicPassAlgorithm.BigFlip from rfl]
    have hflip := passPairs_bigFlip w cw (j - 1) K hK (by omega)
    rw [← hj1] at hflip
    rw [hflip]
    obtain ⟨hbit, hcr⟩ := bigFlip_step c (show (j - 1) + 1 ≤ K by omega) hsort
    rw [← hj1] at hcr
    have hstep := disp_list_run hK hreg hjK (j - 1) _ (by omega) hbit hcr
    exact ih (j + 1) _ (by omega) (by omega)
      (by rw [show j + 1 - 1 = j from rfl]; exact hstep)

/-- The initial `LocalBMS` dispatch sorts every workgroup block. -/
theorem localBms_step {K w cw : ℕ} (hK : K = w + 1 + cw) (c : ℕ → Bool) :
    AllSortedAt K (w + 1) (casListExec sw01 ((List.range (2 ^ cw)).bind fun wg =>
      bmsPairs (w + 1) (2 * 2 ^ w * wg) (2 * 2 ^ w)) c) := by
  have hL : (2 : ℕ) * 2 ^ w = 2 ^ (w + 1) := by rw [pow_succ]; ring
  have hLpos : 0 < 2 * 2 ^ w := by
    have : 0 < (2 : ℕ) ^ w := Nat.pos_pow_of_pos w (by norm_num)
    omega
  have hdL : 2 ^ (w + 1) ∣ 2 * 2 ^ w := by rw [hL]
  have hdO : ∀ wg : ℕ, 2 ^ (w + 1) ∣ 2 * 2 ^ w * wg := fun wg => Dvd.dvd.mul_right hdL wg
  have hKL : 2 * 2 ^ w * 2 ^ cw = 2 ^ K := by
    rw [hL, ← pow_add]
    congr 1
    omega
  set c₂ : ℕ → Bool := casListExec sw01 ((List.range (2 ^ cw)).bind fun wg =>
    bmsPairs (w + 1) (2 * 2 ^ w * wg) (2 * 2 ^ w)) c with hc₂
  have hfold : c₂ = (List.range (2 ^ cw)).foldl
      (fun b wg => casListExec sw01 (bmsPairs (w + 1) (2 * 2 ^ w * wg) (2 * 2 ^ w)) b) c := by
    rw [hc₂, casListExec_bind]
  have hP : ∀ wg, ∀ p ∈ bmsPairs (w + 1) (2 * 2 ^ w * wg) (2 * 2 ^ w),
      2 * 2 ^ w * wg ≤ p.1 ∧ p.1 < 2 * 2 ^ w * (wg + 1) ∧
        2 * 2 ^ w * wg ≤ p.2 ∧ p.2 < 2 * 2 ^ w * (wg + 1) := by
    intro wg p hp
    obtain ⟨h1, h2, h3⟩ :=
      bmsPairs_bounds (w + 1) (2 * 2 ^ w * wg) (2 * 2 ^ w) (hdO wg) hdL p hp
    have : 2 * 2 ^ w * (wg + 1) = 2 * 2 ^ w * wg + 2 * 2 ^ w := by ring
    omega
  obtain ⟨bl1, bl2⟩ := casListExec_blocks sw01
    (fun wg => bmsPairs (w + 1) (2 * 2 ^ w * wg) (2 * 2 ^ w)) (2 * 2 ^ w) hP (2 ^ cw) c
  intro s hse hsd
  -- the aligned window of size `2^(w+1)` is exactly one workgroup block
  obtain ⟨q, hq⟩ := hsd
  have hsd2 : 2 ^ (w + 1) ∣ s := ⟨q, hq⟩
  have hsq : s = 2 * 2 ^ w * q := by rw [hq, ← hL]
  have hqlt : q < 2 ^ cw := by
    have h1 : 2 * 2 ^ w * (q + 1) ≤ 2 * 2 ^ w * 2 ^ cw := by
      rw [Nat.mul_add, Nat.mul_one, hKL]
      omega
    have := Nat.le_of_mul_le_mul_left h1 (by omega)
    omega
  obtain ⟨_, hbms⟩ := bms_run (w + 1) (2 * 2 ^ w * q) (2 * 2 ^ w) c (hdO q) hdL
  have hsortb := hbms s (by omega) (by omega) hsd2
  intro i i' h1 h2 h3 hci
  have hrw : ∀ v, s ≤ v → v < s + 2 ^ (w + 1) → c₂ v =
      casListExec sw01 (bmsPairs (w + 1) (2 * 2 ^ w * q) (2 * 2 ^ w)) c v := by
    intro v hv1 hv2
    rw [hfold]
    exact bl1 q hqlt v (by omega) (by rw [Nat.mul_add, Nat.mul_one]; omega)
  rw [hrw i' (by omega) h3]
  rw [hrw i h1 (by omega)] at hci
  exact hsortb i i' h1 h2 h3 hci

/-- The zero-one core: in the regime `workgroupCount ≤ 2·workgroupSize`
(`K ≤ 2w+2`), the scheduled compare-and-swap network sorts every Boolean
array on the padded domain. -/
theorem boolPlanSorts {K w : ℕ} (hwK : w + 1 ≤ K) (hreg : K ≤ 2 * w + 2)
    (c : ℕ → Bool) :
    SortedOn (casListExec sw01
      (planPairs (2 ^ w) (2 ^ (K - w - 1)) (sortPlanSpecN w K (K - w - 1))) c)
      0 (2 ^ K) := by
  set cw : ℕ := K - w - 1 with hcw
  have hK : K = w + 1 + cw := by omega
  have hreg' : cw ≤ w + 1 := by omega
  have hsplit : sortPlanSpecN w K cw =
      ((2 ^ (w + 1) : ℕ), BitonicPassAlgorithm.LocalBms) ::
        outerPassesSpecN cw (w + 2) (K - w - 1) := rfl
  rw [hsplit, planPairs_cons, casListExec_append]
  rw [show (((2 ^ (w + 1) : ℕ), BitonicPassAlgorithm.LocalBms)).1 = 2 ^ (w + 1) from rfl,
    show (((2 ^ (w + 1) : ℕ), BitonicPassAlgorithm.LocalBms)).2 =
      BitonicPassAlgorithm.LocalBms from rfl]
  rw [passPairs_localBms w cw]
  have hbms := localBms_step hK c
  rcases Nat.eq_or_lt_of_le hwK with hKeq | hKlt
  · -- no outer levels: the single block is the whole domain
    have hcw0 : cw = 0 := by omega
    rw [hcw0] at hbms ⊢
    have hexec : ∀ b : ℕ → Bool,
        casListExec sw01 (planPairs (2 ^ w) (2 ^ 0) (outerPassesSpecN 0 (w + 2) 0)) b = b :=
      fun b => rfl
    rw [show K - w - 1 = 0 by omega, hexec]
    have := hbms 0 (by
      have h2 : (2 : ℕ) ^ (w + 1) = 2 ^ K := by rw [hKeq]
      omega) (dvd_zero _)
    rw [show (2 : ℕ) ^ K = 2 ^ (w + 1) by rw [hKeq]]
    exact this
  · have hsortK := outer_run hK hreg' cw (w + 2) _ (by omega) (by omega)
      (by rw [show w + 2 - 1 = w + 1 from rfl]; exact hbms)
    exact hsortK 0 (by omega) (dvd_zero _)

/-- For a strict-weak-order comparison entry point, the generated `_compare`
swap condition is compatible with the intended final order, in both modes. -/
theorem casOrder_mode {α : Type} (lt : α → α → Bool) (mode : SortMode)
    (hasym : ∀ x y, lt x y = true → lt y x = false)
    (hcotrans : ∀ x y z, lt x y = true → lt x z = true ∨ lt z y = true) :
    CasOrder (fun u v => compareFn mode lt v u) (modeR mode lt) := by
  cases mode
  · refine ⟨?_, ?_, ?_, ?_⟩
    · intro u v
      rcases Bool.eq_false_or_eq_true (lt v u) with h | h
      · exact Or.inr (hasym v u h)
      · exact Or.inl h
    · intro u v t h1 h2
      show lt t u = false
      rcases Bool.eq_false_or_eq_true (lt t u) with h | h
      · rcases hcotrans t u v h with hcase | hcase
        · rw [h2] at hcase
          cases hcase
        · rw [h1] at hcase
          cases hcase
      · exact h
    · intro u v h
      exact hasym v u h
    · intro u v h
      exact h
  · refine ⟨?_, ?_, ?_, ?_⟩
    · intro u v
      rcases Bool.eq_false_or_eq_true (lt u v) with h | h
      · exact Or.inr (hasym u v h)
      · exact Or.inl h
    · intro u v t h1 h2
      show lt u t = false
      rcases Bool.eq_false_or_eq_true (lt u t) with h | h
      · rcases hcotrans u t v h with hcase | hcase
        · rw [h1] at hcase
          cases hcase
        · rw [h2] at hcase
          cases hcase
      · exact h
    · intro u v h
      have h2 : lt v u = false := by
        have hb : (!(lt v u)) = true := h
        rw [Bool.not_eq_true'] at hb
        exact hb
      exact h2
    · intro u v h
      have h2 : lt v u = true := by
        have hb : (!(lt v u)) = false := h
        rcases Bool.eq_false_or_eq_true (lt v u) with h3 | h3
        · exact h3
        · rw [h3] at hb
          simp at hb
      exact hasym v u h2

theorem casOrder_opt {α : Type} (cmp : α → α → Bool) (R : α → α → Prop)
    (ord : CasOrder (fun u v => cmp v u) R) :
    CasOrder (swOpt cmp) (ROpt R) := by
  refine ⟨?_, ?_, ?_, ?_⟩
  · intro u v
    cases u with
    | none =>
      cases v with
      | none => exact Or.inl trivial
      | some x => exact Or.inr trivial
    | some x =>
      cases v with
      | none => exact Or.inl trivial
      | some y => exact ord.total x y
  · intro u v t h1 h2
    cases t with
    | none => cases u <;> trivial
    | some z =>
      cases v with
      | none => cases h2
      | some y =>
        cases u with
        | none => cases h1
        | some x => exact ord.trans x y z h1 h2
  · intro u v h
    cases v with
    | none => rw [swOpt_none_right] at h; cases h
    | some y =>
      cases u with
      | none => trivial
      | some x => exact ord.swap_true x y h
  · intro u v h
    cases u with
    | none =>
      cases v with
      | none => trivial
      | some y => cases h
    | some x =>
      cases v with
      | none => trivial
      | some y => exact ord.swap_false x y h

/-- The zero-one principle: if the network sorts every Boolean image of the
input, it sorts the input itself. -/
theorem zero_one_sorted {β : Type} {sw : β → β → Bool} {R : β → β → Prop}
    (ord : CasOrder sw R) (prs : List (ℕ × ℕ)) (b : ℕ → β) (N : ℕ)
    (hsorted : ∀ g : β → Bool, MonoMap R g →
      SortedOn (casListExec sw01 prs (fun i => g (b i))) 0 N) :
    ∀ i j, i ≤ j → j < N →
      R (casListExec sw prs b i) (casListExec sw prs b j) := by
  intro i j hij hj
  classical
  set g : β → Bool := fun u => decide (R (casListExec sw prs b i) u) with hg
  have hmono : MonoMap R g := by
    intro u v huv hu
    rw [hg] at hu ⊢
    rw [decide_eq_true_eq] at hu ⊢
    exact ord.trans _ _ _ hu huv
  have htrans := casListExec_transfer ord hmono prs b
  have hgi : g (casListExec sw prs b i) = true := by
    rw [hg, decide_eq_true_eq]
    rcases ord.total (casListExec sw prs b i) (casListExec sw prs b i) with h | h
    · exact h
    · exact h
  have h1 : casListExec sw01 prs (fun k => g (b k)) i = true := by
    rw [← congrFun htrans i]
    exact hgi
  have h2 := hsorted g hmono i j (Nat.zero_le i) hij (by omega) h1
  have h3 : g (casListExec sw prs b j) = true := by
    rw [congrFun htrans j]
    exact h2
  rw [hg, decide_eq_true_eq] at h3
  exact h3

/-! ## Permutation of the live prefix -/

theorem map_swap_perm {α : Type} (a : ℕ → α) (n x y : ℕ) (hx : x < n) (hy : y < n) :
    ((List.range n).map fun i => if i = x then a y else if i = y then a x else a i).Perm
      ((List.range n).map a) := by
  have h1 : ((List.range n).map fun i => if i = x then a y else if i = y then a x else a i) =
      ((List.range n).map (Equiv.swap x y)).map a := by
    rw [List.map_map]
    apply List.map_congr_left
    intro i _
    show (if i = x then a y else if i = y then a x else a i) = a (Equiv.swap x y i)
    rw [Equiv.swap_apply_def]
    by_cases h1 : i = x
    · simp [h1]
    · by_cases h2 : i = y
      · by_cases h3 : y = x
        · simp [h1, h2, h3]
        · simp [h1, h2, h3]
      · simp [h1, h2]
  rw [h1]
  apply List.Perm.map
  apply (List.perm_ext_iff_of_nodup ?_ (List.nodup_range n)).mpr
  · intro v
    rw [List.mem_map]
    constructor
    · rintro ⟨u, hu, rfl⟩
      rw [List.mem_range] at hu
      rw [List.mem_range, Equiv.swap_apply_def]
      by_cases h1 : u = x
      · simp [h1]
        omega
      · by_cases h2 : u = y
        · simp [h1, h2]
          split_ifs <;> omega
        · simp [h1, h2]
          omega
    · intro hv
      rw [List.mem_range] at hv
      refine ⟨Equiv.swap x y v, ?_, Equiv.swap_apply_self x y v⟩
      rw [List.mem_range, Equiv.swap_apply_def]
      by_cases h1 : v = x
      · simp [h1]
        omega
      · by_cases h2 : v = y
        · simp [h1, h2]
          split_ifs <;> omega
        · simp [h1, h2]
          omega
  · exact List.Nodup.map (Equiv.injective _) (List.nodup_range n)

/-- Device-side execution only swaps in-bounds elements: the live prefix of
the result is a permutation of the live prefix of the input. -/
theorem gpairsExec_perm {α : Type} (cmp : α → α → Bool) (n : ℕ)
    (prs : List (ℕ × ℕ)) :
    ∀ a : ℕ → α,
      ((List.range n).map (gpairsExec cmp n prs a)).Perm ((List.range n).map a) := by
  induction prs with
  | nil => intro a; exact List.Perm.refl _
  | cons p ps ih =>
    intro a
    have hstep : gpairsExec cmp n (p :: ps) a = gpairsExec cmp n ps (gcas cmp n p.1 p.2 a) :=
      rfl
    rw [hstep]
    apply (ih (gcas cmp n p.1 p.2 a)).trans
    by_cases hg : n ≤ p.1 ∨ n ≤ p.2
    · rw [gcas, if_pos hg]
    · rw [gcas, if_neg hg]
      push_neg at hg
      by_cases hc : cmp (a p.2) (a p.1)
      · rw [if_pos hc]
        exact map_swap_perm a n p.1 p.2 hg.1 hg.2
      · rw [if_neg hc]

/-! ## Every scheduled pair is ordered lower-before-upper -/

theorem planPairs_disperse_lt {K w cw : ℕ} (hK : K = w + 1 + cw) (hreg : cw ≤ w + 1) :
    ∀ eh, eh + 1 ≤ K →
      ∀ p ∈ planPairs (2 ^ w) (2 ^ cw) (dispersePassesSpecN cw eh), p.1 < p.2 := by
  intro eh
  induction eh with
  | zero =>
    intro _ p hp
    cases hp
  | succ eh ih =>
    intro heK p hp
    have hpos : 0 < (2 : ℕ) ^ eh := Nat.pos_pow_of_pos eh (by norm_num)
    have hsplit : dispersePassesSpecN cw (eh + 1) =
        (if eh + 1 ≤ cw then ((2 ^ (eh + 1) : ℕ), BitonicPassAlgorithm.LocalDisperse)
         else ((2 ^ (eh + 1) : ℕ), BitonicPassAlgorithm.BigDisperse)) ::
          dispersePassesSpecN cw eh := rfl
    rw [hsplit, planPairs_cons, List.mem_append] at hp
    rcases hp with hp | hp
    · by_cases hc : eh + 1 ≤ cw
      · rw [if_pos hc] at hp
        rw [show ((((2 ^ (eh + 1) : ℕ), BitonicPassAlgorithm.LocalDisperse)).1) = 2 ^ (eh + 1)
            from rfl,
          show ((((2 ^ (eh + 1) : ℕ), BitonicPassAlgorithm.LocalDisperse)).2) =
            BitonicPassAlgorithm.LocalDisperse from rfl,
          passPairs_localDisp w cw (eh + 1) (by omega)] at hp
        rw [List.mem_bind] at hp
        obtain ⟨wg, _, hp⟩ := hp
        have hL : (2 : ℕ) * 2 ^ w = 2 ^ (w + 1) := by rw [pow_succ]; ring
        have hdL : 2 ^ (eh + 1) ∣ 2 * 2 ^ w := by
          rw [hL]
          exact pow_dvd_pow 2 (by omega)
        exact (cascadePairs_bounds (eh + 1) (2 * 2 ^ w * wg) (2 * 2 ^ w)
          (Dvd.dvd.mul_right hdL wg) hdL p hp).2.1
      · rw [if_neg hc] at hp
        rw [show ((((2 ^ (eh + 1) : ℕ), BitonicPassAlgorithm.BigDisperse)).1) = 2 ^ (eh + 1)
            from rfl,
          show ((((2 ^ (eh + 1) : ℕ), BitonicPassAlgorithm.BigDisperse)).2) =
            BitonicPassAlgorithm.BigDisperse from rfl,
          passPairs_bigDisp w cw eh K hK (by omega)] at hp
        exact (dispWindowPairs_bounds (2 ^ eh) 0 (2 ^ (K - eh - 1)) hpos p hp).2.1
    · exact ih (by omega) p hp

theorem planPairs_outer_lt {K w cw : ℕ} (hK : K = w + 1 + cw) (hreg : cw ≤ w + 1) :
    ∀ m j, j + m = K + 1 → w + 2 ≤ j →
      ∀ p ∈ planPairs (2 ^ w) (2 ^ cw) (outerPassesSpecN cw j m), p.1 < p.2 := by
  intro m
  induction m with
  | zero =>
    intro j _ _ p hp
    cases hp
  | succ m ih =>
    intro j hjm hwj p hp
    have hj1 : j = (j - 1) + 1 := by omega
    have hpos : 0 < (2 : ℕ) ^ (j - 1) := Nat.pos_pow_of_pos _ (by norm_num)
    have hsplit : outerPassesSpecN cw j (m + 1) =
        (((2 ^ j : ℕ), BitonicPassAlgorithm.BigFlip) :: dispersePassesSpecN cw (j - 1)) ++
          outerPassesSpecN cw (j + 1) m := rfl
    rw [hsplit, planPairs_append, List.mem_append, planPairs_cons, List.mem_append] at hp
    rcases hp with (hp | hp) | hp
    · rw [show (((2 ^ j : ℕ), BitonicPassAlgorithm.BigFlip)).1 = 2 ^ j from rfl,
        show (((2 ^ j : ℕ), BitonicPassAlgorithm.BigFlip)).2 =
          BitonicPassAlgorithm.BigFlip from rfl] at hp
      have hflip := passPairs_bigFlip w cw (j - 1) K hK (by omega)
      rw [← hj1] at hflip
      rw [hflip] at hp
      exact (flipWindowPairs_bounds (2 ^ (j - 1)) 0 (2 ^ (K - (j - 1) - 1)) hpos p hp).2.1
    · exact planPairs_disperse_lt hK hreg (j - 1) (by omega) p hp
    · exact ih (j + 1) (by omega) (by omega) p hp

theorem planPairs_plan_lt {K w : ℕ} (hwK : w + 1 ≤ K) (hreg : K ≤ 2 * w + 2) :
    ∀ p ∈ planPairs (2 ^ w) (2 ^ (K - w - 1)) (sortPlanSpecN w K (K - w - 1)),
      p.1 < p.2 := by
  intro p hp
  have hK : K = w + 1 + (K - w - 1) := by omega
  have hreg' : K - w - 1 ≤ w + 1 := by omega
  have hsplit : sortPlanSpecN w K (K - w - 1) =
      ((2 ^ (w + 1) : ℕ), BitonicPassAlgorithm.LocalBms) ::
        outerPassesSpecN (K - w - 1) (w + 2) (K - w - 1) := rfl
  rw [hsplit, planPairs_cons, List.mem_append] at hp
  rcases hp with hp | hp
  · rw [show (((2 ^ (w + 1) : ℕ), BitonicPassAlgorithm.LocalBms)).1 = 2 ^ (w + 1) from rfl,
      show (((2 ^ (w + 1) : ℕ), BitonicPassAlgorithm.LocalBms)).2 =
        BitonicPassAlgorithm.LocalBms from rfl,
      passPairs_localBms w (K - w - 1)] at hp
    rw [List.mem_bind] at hp
    obtain ⟨wg, _, hp⟩ := hp
    have hL : (2 : ℕ) * 2 ^ w = 2 ^ (w + 1) := by rw [pow_succ]; ring
    have hdL : 2 ^ (w + 1) ∣ 2 * 2 ^ w := by rw [hL]
    exact (bmsPairs_bounds (w + 1) (2 * 2 ^ w * wg) (2 * 2 ^ w)
      (Dvd.dvd.mul_right hdL wg) hdL p hp).2.1
  · exact planPairs_outer_lt hK hreg' (K - w - 1) (w + 2) (by omega) (by omega) p hp

/-- The `nextPowerOfTwo` formula never exceeds `2^31` (the shift count is
masked modulo 32). -/
theorem nextPowerOfTwo_le_pow31 (v : ℕ) : nextPowerOfTwo v ≤ 2 ^ 31 := by
  unfold nextPowerOfTwo
  rw [Nat.shiftLeft_eq, one_mul]
  apply Nat.pow_le_pow_right (by norm_num)
  have := Nat.mod_lt (32 - clz32 (toUint32 ((v : ℤ) - 1))) (show 0 < 32 by norm_num)
  omega

/-- C1 (amended): in the power-of-two planner regime with
`workgroupCount ≤ 2·workgroupSize` (`K ≤ 2w+2`) and `n ≤ paddedN`, for every
comparison entry point that is a strict weak order (asymmetric and
co-transitive), executing the recorded passes of the in-place sorter on any
initial array yields a permutation of the first `n` elements that is
non-decreasing under `lt` in ascending mode and non-increasing in descending
mode. -/
theorem c1_amended {α : Type} (dev : DeviceLimits) (kv n w K : ℕ)
    (lt : α → α → Bool) (mode : SortMode) (a : ℕ → α)
    (hwgs : plannerWorkGroupSize dev kv n = (2 : ℚ) ^ w)
    (hN : nextPowerOfTwo n = 2 ^ K) (hwK : w + 1 ≤ K) (hreg : K ≤ 2 * w + 2)
    (hn : n ≤ 2 ^ K)
    (hasym : ∀ x y, lt x y = true → lt y x = false)
    (hcotrans : ∀ x y z, lt x y = true → lt x z = true ∨ lt z y = true) :
    sortPassPlan? dev kv n = some (sortPlanSpec w K (K - w - 1)) ∧
    ((List.range n).map (execPlan (compareFn mode lt) n (2 ^ w) (2 ^ (K - w - 1))
        (sortPlanSpec w K (K - w - 1)) a)).Perm ((List.range n).map a) ∧
    (∀ i j, i < j → j < n →
      match mode with
      | SortMode.ascending =>
        lt (execPlan (compareFn mode lt) n (2 ^ w) (2 ^ (K - w - 1))
              (sortPlanSpec w K (K - w - 1)) a j)
           (execPlan (compareFn mode lt) n (2 ^ w) (2 ^ (K - w - 1))
              (sortPlanSpec w K (K - w - 1)) a i) = false
      | SortMode.descending =>
        lt (execPlan (compareFn mode lt) n (2 ^ w) (2 ^ (K - w - 1))
              (sortPlanSpec w K (K - w - 1)) a i)
           (execPlan (compareFn mode lt) n (2 ^ w) (2 ^ (K - w - 1))
              (sortPlanSpec w K (K - w - 1)) a j) = false) := by
  have hplan := sortPassPlan_char dev kv n w K hwgs hN hwK
  have hK31 : K ≤ 31 := by
    have h := nextPowerOfTwo_le_pow31 n
    rw [hN] at h
    exact (Nat.pow_le_pow_iff_right (by norm_num : 1 < 2)).mp h
  set cmp : α → α → Bool := compareFn mode lt with hcmp
  have hmap := sortPlanSpec_map w K (K - w - 1) hK31 hwK
  have hexecN : execPlan cmp n (2 ^ w) (2 ^ (K - w - 1)) (sortPlanSpec w K (K - w - 1)) a =
      execPlanN cmp n (2 ^ w) (2 ^ (K - w - 1)) (sortPlanSpecN w K (K - w - 1)) a := by
    rw [execPlan_eq_execPlanN, hmap]
  have hpairs : execPlanN cmp n (2 ^ w) (2 ^ (K - w - 1)) (sortPlanSpecN w K (K - w - 1)) a =
      gpairsExec cmp n
        (planPairs (2 ^ w) (2 ^ (K - w - 1)) (sortPlanSpecN w K (K - w - 1))) a :=
    execPlanN_eq_pairs cmp n (2 ^ w) (2 ^ (K - w - 1)) (sortPlanSpecN w K (K - w - 1)) a
  refine ⟨hplan, ?_, ?_⟩
  · rw [hexecN, hpairs]
    exact gpairsExec_perm cmp n _ a
  · rw [hexecN, hpairs]
    set res : ℕ → α := gpairsExec cmp n
      (planPairs (2 ^ w) (2 ^ (K - w - 1)) (sortPlanSpecN w K (K - w - 1))) a with hres
    have hlt := planPairs_plan_lt hwK hreg
    have hpad : padArr n res = casListExec (swOpt cmp)
        (planPairs (2 ^ w) (2 ^ (K - w - 1)) (sortPlanSpecN w K (K - w - 1)))
        (padArr n a) := by
      rw [hres]
      exact pad_gpairsExec cmp n _ hlt a
    have hord := casOrder_opt cmp (modeR mode lt) (casOrder_mode lt mode hasym hcotrans)
    have hzo := zero_one_sorted hord
      (planPairs (2 ^ w) (2 ^ (K - w - 1)) (sortPlanSpecN w K (K - w - 1)))
      (padArr n a) (2 ^ K)
      (fun g hg => boolPlanSorts hwK hreg (fun i => g (padArr n a i)))
    intro i j hij hjn
    have h1 := hzo i j (le_of_lt hij) (by omega)
    rw [← hpad] at h1
    have hpi : padArr n res i = some (res i) := by
      unfold padArr
      rw [if_pos (by omega)]
    have hpj : padArr n res j = some (res j) := by
      unfold padArr
      rw [if_pos (by omega)]
    rw [hpi, hpj] at h1
    have h2 : modeR mode lt (res i) (res j) := h1
    cases mode with
    | ascending => exact h2
    | descending => exact h2

set_option maxRecDepth 2000000 in
/-- C1 (counterexample): with `keySize + valueSize = 8192` bytes on a
`(256, 16384)` device the planner chooses `workgroupSize = 1`,
`workgroupCount = 4 > 2·workgroupSize`; the scheduled passes then include a
`LocalDisperse` whose merge distance exceeds the workgroup block, and sorting
the 8-element reversed array `7,6,…,0` ascending leaves `2` before `0`:
the execution is not non-decreasing on the first `n` elements, refuting the
unrestricted claim. -/
theorem c1_counterexample :
    sortPassPlan? ⟨256, 16384⟩ 8192 8 = some (sortPlanSpec 0 3 (3 - 0 - 1)) ∧
    execPlan (compareFn SortMode.ascending fun x y : ℕ => decide (x < y)) 8 (2 ^ 0)
      (2 ^ (3 - 0 - 1)) (sortPlanSpec 0 3 (3 - 0 - 1)) (fun i => 7 - i) 1 = 2 ∧
    execPlan (compareFn SortMode.ascending fun x y : ℕ => decide (x < y)) 8 (2 ^ 0)
      (2 ^ (3 - 0 - 1)) (sortPlanSpec 0 3 (3 - 0 - 1)) (fun i => 7 - i) 2 = 0 ∧
    (fun x y : ℕ => decide (x < y))
      (execPlan (compareFn SortMode.ascending fun x y : ℕ => decide (x < y)) 8 (2 ^ 0)
        (2 ^ (3 - 0 - 1)) (sortPlanSpec 0 3 (3 - 0 - 1)) (fun i => 7 - i) 2)
      (execPlan (compareFn SortMode.ascending fun x y : ℕ => decide (x < y)) 8 (2 ^ 0)
        (2 ^ (3 - 0 - 1)) (sortPlanSpec 0 3 (3 - 0 - 1)) (fun i => 7 - i) 1) = true := by
  have h8192 : nextPowerOfTwo 8192 = 8192 := by decide
  have h8 : nextPowerOfTwo 8 = 8 := by decide
  have hw : plannerWorkGroupSize ⟨256, 16384⟩ 8192 8 = (2 : ℚ) ^ 0 := by
    unfold plannerWorkGroupSize
    rw [h8192, h8]
    norm_num [min_def]
  refine ⟨sortPassPlan_char ⟨256, 16384⟩ 8192 8 0 3 hw (by decide) (by norm_num),
    ?_, ?_, ?_⟩ <;>
  · rw [execPlan_eq_execPlanN, sortPlanSpec_map 0 3 (3 - 0 - 1) (by norm_num) (by norm_num)]
    decide

theorem c1_amended_witness :
    plannerWorkGroupSize ⟨256, 16384⟩ 4096 2 = (2 : ℚ) ^ 0 ∧
    nextPowerOfTwo 2 = 2 ^ 1 ∧ 0 + 1 ≤ 1 ∧ 1 ≤ 2 * 0 + 2 ∧ 2 ≤ 2 ^ 1 ∧
    (sortPassPlan? ⟨256, 16384⟩ 4096 2 = some (sortPlanSpec 0 1 (1 - 0 - 1)) ∧
      ((List.range 2).map (execPlan (compareFn SortMode.ascending
          fun x y : ℕ => decide (x < y)) 2 (2 ^ 0) (2 ^ (1 - 0 - 1))
          (sortPlanSpec 0 1 (1 - 0 - 1)) (fun i => 1 - i))).Perm
        ((List.range 2).map (fun i => 1 - i)) ∧
      (∀ i j, i < j → j < 2 →
        (fun x y : ℕ => decide (x < y))
            (execPlan (compareFn SortMode.ascending fun x y : ℕ => decide (x < y)) 2
              (2 ^ 0) (2 ^ (1 - 0 - 1)) (sortPlanSpec 0 1 (1 - 0 - 1)) (fun i => 1 - i) j)
            (execPlan (compareFn SortMode.ascending fun x y : ℕ => decide (x < y)) 2
              (2 ^ 0) (2 ^ (1 - 0 - 1)) (sortPlanSpec 0 1 (1 - 0 - 1)) (fun i => 1 - i) i)
          = false)) := by
  have h4096 : nextPowerOfTwo 4096 = 4096 := by decide
  have h2 : nextPowerOfTwo 2 = 2 := by decide
  have hw : plannerWorkGroupSize ⟨256, 16384⟩ 4096 2 = (2 : ℚ) ^ 0 := by
    unfold plannerWorkGroupSize
    rw [h4096, h2]
    norm_num [min_def]
  refine ⟨hw, by decide, by norm_num, by norm_num, by norm_num, ?_⟩
  exact c1_amended ⟨256, 16384⟩ 4096 2 0 1 (fun x y : ℕ => decide (x < y))
    SortMode.ascending (fun i => 1 - i) hw (by decide) (by norm_num) (by norm_num)
    (by norm_num)
    (fun x y h => by
      rw [decide_eq_true_eq] at h
      simp only [decide_eq_false_iff_not]
      omega)
    (fun x y z h => by
      rw [decide_eq_true_eq] at h
      rcases Nat.lt_or_ge x z with h2 | h2
      · exact Or.inl (by rw [decide_eq_true_eq]; exact h2)
      · exact Or.inr (by rw [decide_eq_true_eq]; omega))
